import Mathlib

/-! Resource server: the request / dispatch engine.

A shallow embedding of `Code/Applications/ResourceServer/ResourceServer.cpp`
(namespace `EE::Resource`): the compilation task, the packaging task and the
single-threaded `ResourceServer` driver, followed by theorems about them.

Conventions of the embedding

* Objects allocated with `EE::New` live in a heap indexed by addresses.
  `EE::New` returns a fresh address every time: the reuse of a freed block by
  a later allocation is not modelled, so a deleted object leaves a dangling
  address behind instead of aliasing a later allocation. A deleted object is
  marked freed and keeps its last value, which is what a read through a
  dangling address returns here; the code does not determine that value.
* `EE::Delete` sets the pointer it is handed to nullptr. Where that pointer is
  a local copy or an entry that is erased next, nothing of it remains; the
  entries of `m_requests` that the last loop of `Shutdown` leaves as nullptr
  are counted in `nullRequests`.
* What the outside world decides (the child process, the clock, the network,
  the file watcher) is an explicit argument of the operation that observes it.
* `EE_ASSERT` does not change the state; where a claim is about an assertion
  the asserted condition is stated as a predicate of its own.
* `int32_t` counters and indices are unbounded integers: overflowing them
  needs more than `2^31` live tasks or requests.
-/

namespace EE.Resource

/-! ## Data model -/

/-- Modelled from the spec: `ResourceID` is declared in `Base/Resource/ResourceID.h`,
which is not part of the sources at hand. It is an identifier derived from a
virtual resource path, carries a resource type tag and is either valid or
invalid. -/
structure ResourceID where
  path : String
  typeID : Nat
  isValid : Bool
  deriving DecidableEq, Repr

/-- The enum `CompilationRequest::Origin`. -/
inductive Origin where
  | External
  | FileWatcher
  | Package
  deriving DecidableEq, Repr

/-- The enum `CompilationRequest::Status`. -/
inductive Status where
  | Pending
  | Compiling
  | Succeeded
  | SucceededWithWarnings
  | SucceededUpToDate
  | Failed
  deriving DecidableEq, Repr

/-- The members of `CompilationRequest` that `ResourceServer.cpp` reads or writes. -/
structure CompilationRequest where
  clientID : Nat
  origin : Origin
  resourceID : ResourceID
  sourceFile : String
  destinationFile : String
  compilerArgs : String
  forceRecompile : Bool
  status : Status
  log : String
  compilationTimeStarted : Nat
  compilationTimeFinished : Nat
  deriving DecidableEq, Repr

namespace CompilationRequest

/-- Modelled from the spec: `CompilationRequest::HasSucceeded` is declared in the
request header, which is not part of the sources at hand; the succeeded
statuses are `Succeeded`, `SucceededWithWarnings` and `SucceededUpToDate`. -/
def HasSucceeded (r : CompilationRequest) : Bool :=
  r.status == Status.Succeeded || r.status == Status.SucceededWithWarnings
    || r.status == Status.SucceededUpToDate

/-- Modelled from the spec: `CompilationRequest::IsComplete` is declared in the
request header; the terminal statuses (the three succeeded ones and `Failed`)
are together the predicate `IsComplete`. -/
def IsComplete (r : CompilationRequest) : Bool :=
  r.HasSucceeded || r.status == Status.Failed

/-- Modelled from the spec: `CompilationRequest::IsInternalRequest` is declared in
the request header; a request is internal when its origin is `FileWatcher` or
`Package`. -/
def IsInternalRequest (r : CompilationRequest) : Bool :=
  r.origin != Origin.External

/-- Modelled from the spec: `CompilationRequest::RequiresForcedRecompiliation` is
declared in the request header; it reports the `forceRecompile` flag. -/
def RequiresForcedRecompiliation (r : CompilationRequest) : Bool :=
  r.forceRecompile

end CompilationRequest

/-- Modelled from the spec: the enum `CompilationResult` is declared in
`EngineTools/Resource/ResourceCompiler.h`, which is not part of the sources at
hand. The three success values that the task switches on are parameters. -/
structure CompilationResult where
  SuccessUpToDate : Int
  Success : Int
  SuccessWithWarnings : Int
  deriving DecidableEq, Repr

/-- The case labels of a C++ `switch` are pairwise distinct. -/
def CompilationResult.Distinct (c : CompilationResult) : Prop :=
  c.SuccessUpToDate ≠ c.Success ∧ c.SuccessUpToDate ≠ c.SuccessWithWarnings
    ∧ c.Success ≠ c.SuccessWithWarnings

instance (c : CompilationResult) : Decidable c.Distinct := by
  unfold CompilationResult.Distinct; infer_instance

/-! ## CompilationTask -/

/-- What the operating system and the clock answer during one run of
`CompilationTask::ExecuteRange`. -/
structure SubprocessRun where
  /-- value of the first `PlatformClock::GetTime()` -/
  timeStarted : Nat
  /-- return value of `subprocess_create` -/
  createResult : Int
  /-- return value of `subprocess_join` -/
  joinResult : Int
  /-- exit code written by `subprocess_join` -/
  exitCode : Int
  /-- value of the `PlatformClock::GetTime()` that records the end -/
  timeFinished : Nat
  /-- the successive buffers returned by `fgets` on the child's output -/
  output : List String
  deriving DecidableEq, Repr

/-- The request after a run of the task, and what the run did to the child process. -/
structure TaskRun where
  request : CompilationRequest
  /-- the argument vector given to `subprocess_create`, when it was called -/
  spawned : Option (List String)
  /-- `subprocess_join` was called -/
  joined : Bool
  /-- the output of the child was read -/
  drained : Bool
  /-- `subprocess_destroy` was called -/
  destroyed : Bool
  deriving DecidableEq, Repr

/-- The array `processCommandLineArgs[6]` at the call of `subprocess_create`. -/
def processCommandLineArgs (compilerExecutablePath : String) (r : CompilationRequest) :
    List (Option String) :=
  let a0 : List (Option String) :=
    [some compilerExecutablePath, some "-compile", some r.compilerArgs, none, none, none]
  let a1 := if r.RequiresForcedRecompiliation then a0.set 3 (some "-force") else a0
  let a2 := if r.origin = Origin.Package then a1.set 3 (some "-package") else a1
  a2

/-- The argument vector a null-terminated array denotes: the entries before the
first null pointer. -/
def argumentVector (a : List (Option String)) : List String :=
  (a.takeWhile Option.isSome).filterMap id

/-- The `switch` on the exit code in `ExecuteRange`. -/
def statusOfExitCode (codes : CompilationResult) (exitCode : Int) : Status :=
  if exitCode = codes.SuccessUpToDate then Status.SucceededUpToDate
  else if exitCode = codes.Success then Status.Succeeded
  else if exitCode = codes.SuccessWithWarnings then Status.SucceededWithWarnings
  else Status.Failed

/-- The body of `CompilationTask::ExecuteRange`, run on request `r`. -/
def CompilationTask.ExecuteRange (codes : CompilationResult) (isExiting : Bool)
    (compilerExecutablePath : String) (run : SubprocessRun) (r : CompilationRequest) :
    TaskRun :=
  if !isExiting && !r.IsComplete then
    let args := argumentVector (processCommandLineArgs compilerExecutablePath r)
    let r1 := { r with compilationTimeStarted := run.timeStarted }
    if run.createResult ≠ 0 then
      { request := { r1 with status := Status.Failed
                             log := "Resource compiler failed to start!"
                             compilationTimeFinished := run.timeFinished }
        spawned := some args, joined := false, drained := false, destroyed := false }
    else if run.joinResult ≠ 0 then
      { request := { r1 with status := Status.Failed
                             log := "Resource compiler failed to complete!"
                             compilationTimeFinished := run.timeFinished }
        spawned := some args, joined := true, drained := false, destroyed := true }
    else
      let r2 := { r1 with compilationTimeFinished := run.timeFinished }
      let r3 := { r2 with status := statusOfExitCode codes run.exitCode }
      let r4 := { r3 with log := run.output.foldl (fun log buffer => log ++ buffer) r3.log }
      { request := r4, spawned := some args, joined := true, drained := true, destroyed := true }
  else
    { request := r, spawned := none, joined := false, drained := false, destroyed := false }

/-! ## Containers and collaborators -/

/-- Modelled from the spec: `VectorEmplaceBackUnique` is a container helper of the
engine base library, not part of the sources at hand; it inserts uniquely into
an ordered sequence, the first occurrence wins. -/
def VectorEmplaceBackUnique {α : Type} [DecidableEq α] (v : List α) (x : α) : List α :=
  if x ∈ v then v else v ++ [x]

/-- Modelled from the spec: `erase_unsorted` is the unordered erase of the vector
type, not part of the sources at hand; the last element is moved into the
erased position and the vector shrinks by one. -/
def eraseUnsorted {α : Type} (v : List α) (i : Nat) : List α :=
  match v.getLast? with
  | none => v
  | some last => (v.set i last).dropLast

/-- Modelled from the spec: `erase_first_unsorted` is a member of the vector type,
not part of the sources at hand; it erases the first element equal to the
value, unordered, when there is one. -/
def eraseFirstUnsorted {α : Type} [DecidableEq α] (v : List α) (x : α) : List α :=
  if x ∈ v then eraseUnsorted v (v.indexOf x) else v

/-- A resource compiler, as far as the packaging task uses it. -/
structure Compiler where
  /-- the list written by `GetInstallDependencies( resourceID, referencedResources )` -/
  GetInstallDependencies : ResourceID → List ResourceID

/-- The settings and the external collaborators, fixed once `Initialize` has run. -/
structure Environment where
  /-- the switch values of the enum `CompilationResult` -/
  compilationResult : CompilationResult
  /-- the object `EE::New<CompilationRequest>()` constructs -/
  newRequest : CompilationRequest
  rawResourcePath : String
  compiledResourcePath : String
  packagedBuildCompiledResourcePath : String
  compilerExecutablePath : String
  /-- `ResourcePath::ToFileSystemPath( root, resourcePath )` -/
  ToFileSystemPath : String → String → String
  /-- `CompilerRegistry::GetCompilerForResourceType`, none for a null pointer -/
  GetCompilerForResourceType : Nat → Option Compiler
  /-- `EngineModule::GetListOfAllRequiredModuleResources`, acting on its out-parameter -/
  engineModuleResources : List ResourceID → List ResourceID
  /-- `GameModule::GetListOfAllRequiredModuleResources`, acting on its out-parameter -/
  gameModuleResources : List ResourceID → List ResourceID

/-! ## PackagingTask -/

/-- The recursion of `PackagingTask::EnqueueResourceForPackaging` on the list
`m_runtimeDependencies`; `none` when the recursion is deeper than the fuel. -/
def PackagingTask.EnqueueResourceForPackaging (env : Environment) (isExiting : Bool) :
    Nat → ResourceID → List ResourceID → Option (List ResourceID)
  | 0, _, _ => none
  | fuel + 1, resourceID, runtimeDependencies =>
    if isExiting then some runtimeDependencies
    else
      match env.GetCompilerForResourceType resourceID.typeID with
      | none => some runtimeDependencies
      | some pCompiler =>
        (pCompiler.GetInstallDependencies resourceID).foldlM
          (fun deps referenceResourceID =>
            PackagingTask.EnqueueResourceForPackaging env isExiting fuel referenceResourceID deps)
          (VectorEmplaceBackUnique runtimeDependencies resourceID)

/-- The body of `PackagingTask::ExecuteRange`: the list `m_runtimeDependencies`
it leaves, starting from the empty list of a new task. -/
def PackagingTask.ExecuteRange (env : Environment) (isExiting : Bool) (fuel : Nat)
    (mapsToBePackaged : List ResourceID) : Option (List ResourceID) :=
  mapsToBePackaged.foldlM
    (fun deps mapID => PackagingTask.EnqueueResourceForPackaging env isExiting fuel mapID deps)
    (env.gameModuleResources (env.engineModuleResources []))

/-! ## ResourceServer -/

/-- A `CompilationRequest` object in memory. The address `EE::New` returns is a
natural number, the index of the object in the heap. `EE::Delete` marks the
object freed and leaves its last value in place: an access through a dangling
address reads that value. -/
structure HeapCell where
  value : CompilationRequest
  freed : Bool
  deriving DecidableEq, Repr

/-- A `CompilationTask` object: the request it holds and `ITaskSet::GetIsComplete`. -/
structure CompilationTask where
  pRequest : Nat
  isComplete : Bool
  deriving DecidableEq, Repr

/-- A `PackagingTask` object. Its member `m_mapsToBePackaged` is a reference to the
list of the server and is read there when the task runs. -/
structure PackagingTask where
  runtimeDependencies : List ResourceID
  isComplete : Bool
  deriving DecidableEq, Repr

/-- The enum `ResourceServer::PackagingStage`. -/
inductive PackagingStage where
  | None
  | Preparing
  | Packaging
  | Complete
  deriving DecidableEq, Repr

/-- Modelled from the spec: the enum `NetworkMessageID` is declared in
`Base/Resource/ResourceProviders/ResourceNetworkMessages.h`, not part of the
sources at hand; these are the message IDs the server observes. -/
inductive NetworkMessageID where
  | RequestResource
  | ResourceRequestComplete
  | ResourceUpdated
  deriving DecidableEq, Repr

/-- The payload `NetworkResourceResponse`; `filePath` is `none` while the member
is left as constructed. -/
structure NetworkResourceResponse where
  resourceID : ResourceID
  filePath : Option String
  deriving DecidableEq, Repr

/-- A message handed to `SendNetworkMessage`. -/
structure Message where
  clientConnectionID : Nat
  messageID : NetworkMessageID
  data : NetworkResourceResponse
  deriving DecidableEq, Repr

/-- A message delivered by `ProcessIncomingMessages`, with its payload decoded. -/
structure IncomingMessage where
  messageID : NetworkMessageID
  clientConnectionID : Nat
  path : ResourceID
  deriving DecidableEq, Repr

/-- A change reported by the file watcher: whether the resource path derived from
the file is valid, and the resource ID built from that path. -/
structure FileModified where
  resourcePathIsValid : Bool
  resourceID : ResourceID
  deriving DecidableEq, Repr

/-- The members of `ResourceServer` that the dispatch engine uses, together with
the heap of request objects and the record of the messages sent. -/
structure ResourceServer where
  /-- `m_context.m_isExiting` -/
  isExiting : Bool
  /-- the request objects allocated so far; the address of an object is its index -/
  heap : List HeapCell
  /-- the number of entries at the front of `m_requests` that are nullptr: `EE::Delete`
  sets the pointer it is handed to nullptr, and the last loop of `Shutdown` hands
  it the entries of the vector themselves -/
  nullRequests : Nat
  /-- the entries of `m_requests` after those: addresses of request objects -/
  requests : List Nat
  activeTasks : List CompilationTask
  numScheduledTasks : Int
  cleanupRequested : Bool
  packagingStage : PackagingStage
  pPackagingTask : Option PackagingTask
  packagingRequests : List Nat
  mapsToBePackaged : List ResourceID
  /-- what was handed to `SendNetworkMessage`, oldest first -/
  sent : List Message
  deriving DecidableEq, Repr

/-- The server as constructed: nothing allocated, nothing scheduled. -/
def ResourceServer.init : ResourceServer :=
  { isExiting := false, heap := [], nullRequests := 0, requests := [], activeTasks := []
    numScheduledTasks := 0, cleanupRequested := false
    packagingStage := PackagingStage.None, pPackagingTask := none
    packagingRequests := [], mapsToBePackaged := [], sent := [] }

/-- The vector `m_requests` entry by entry, `none` for nullptr. -/
def ResourceServer.requestEntries (s : ResourceServer) : List (Option Nat) :=
  List.replicate s.nullRequests none ++ s.requests.map some

/-- The value of the request object behind an address. -/
def ResourceServer.request? (s : ResourceServer) (p : Nat) : Option CompilationRequest :=
  (s.heap[p]?).map HeapCell.value

/-- The test `pRequest->IsComplete()` through an address. Through a dangling address
it reads the value the object had when it was deleted; in the code that read
is a use after free. -/
def ResourceServer.isCompleteAt (s : ResourceServer) (p : Nat) : Bool :=
  match s.heap[p]? with
  | some cell => cell.value.IsComplete
  | none => false

/-- The request object `ResourceServer::CreateResourceRequest` builds. -/
def newCompilationRequest (env : Environment) (resourceID : ResourceID) (clientID : Nat)
    (origin : Origin) : CompilationRequest :=
  if resourceID.isValid then
    { env.newRequest with
      clientID := clientID
      origin := origin
      resourceID := resourceID
      sourceFile := env.ToFileSystemPath env.rawResourcePath resourceID.path
      compilerArgs := resourceID.path
      status := Status.Pending
      destinationFile :=
        if origin = Origin.Package then
          env.ToFileSystemPath env.packagedBuildCompiledResourcePath resourceID.path
        else
          env.ToFileSystemPath env.compiledResourcePath resourceID.path }
  else
    { env.newRequest with
      log := "Error: Invalid resource ID ( " ++ resourceID.path ++ " )"
      status := Status.Failed }

/-- The assertions at the head of `CreateResourceRequest`. -/
def CreateResourceRequest.asserts (resourceID : ResourceID) (clientID : Nat)
    (origin : Origin) : Prop :=
  resourceID.isValid = true →
    if origin = Origin.External then clientID ≠ 0 else clientID = 0

instance (resourceID : ResourceID) (clientID : Nat) (origin : Origin) :
    Decidable (CreateResourceRequest.asserts resourceID clientID origin) := by
  unfold CreateResourceRequest.asserts; infer_instance

/-- `ResourceServer::CreateResourceRequest`: the address returned and the server
afterwards. `EE::New` is taken to return the next fresh address; that it may
hand out the block of a deleted request again is not modelled. -/
def ResourceServer.CreateResourceRequest (env : Environment) (resourceID : ResourceID)
    (clientID : Nat) (origin : Origin) (s : ResourceServer) : Nat × ResourceServer :=
  let pRequest : Nat := s.heap.length
  (pRequest,
    { s with
      heap := s.heap ++ [{ value := newCompilationRequest env resourceID clientID origin
                           freed := false }]
      requests := s.requests ++ [pRequest]
      activeTasks := s.activeTasks ++ [{ pRequest := pRequest, isComplete := false }]
      numScheduledTasks := s.numScheduledTasks + 1 })

/-- The messages `ResourceServer::NotifyClientOnCompletedRequest` sends, in order. -/
def NotifyClientOnCompletedRequest (connectedClients : List Nat) (r : CompilationRequest) :
    List Message :=
  let response : NetworkResourceResponse :=
    { resourceID := r.resourceID
      filePath := if r.HasSucceeded then some r.destinationFile else none }
  if r.IsInternalRequest then
    if r.status = Status.SucceededUpToDate then []
    else
      connectedClients.map fun clientID =>
        { clientConnectionID := clientID
          messageID := NetworkMessageID.ResourceUpdated
          data := response }
  else
    [{ clientConnectionID := r.clientID
       messageID := NetworkMessageID.ResourceRequestComplete
       data := response }]

/-- The block "Send network response" of `ProcessCompletedRequests`: the messages
sent for the request of a finished task. -/
def ResourceServer.completionMessages (connectedClients : List Nat) (s : ResourceServer)
    (pRequest : Nat) : List Message :=
  if !s.isExiting then
    match s.request? pRequest with
    | some r => NotifyClientOnCompletedRequest connectedClients r
    | none => []
  else []

/-- The loop of `ProcessCompletedRequests`; the first argument is `i + 1` for the
index `i` visited next. -/
def ResourceServer.reapLoop (connectedClients : List Nat) :
    Nat → ResourceServer → ResourceServer
  | 0, s => s
  | i + 1, s =>
    match s.activeTasks[i]? with
    | none => ResourceServer.reapLoop connectedClients i s
    | some pActiveTask =>
      if pActiveTask.isComplete then
        ResourceServer.reapLoop connectedClients i
          { s with
            sent := s.sent ++ s.completionMessages connectedClients pActiveTask.pRequest
            activeTasks := eraseUnsorted s.activeTasks i
            numScheduledTasks := s.numScheduledTasks - 1 }
      else ResourceServer.reapLoop connectedClients i s

/-- `ResourceServer::ProcessCompletedRequests`. -/
def ResourceServer.ProcessCompletedRequests (connectedClients : List Nat)
    (s : ResourceServer) : ResourceServer :=
  ResourceServer.reapLoop connectedClients s.activeTasks.length s

/-- `EE::Delete` of the request object at an address. -/
def deleteRequest (heap : List HeapCell) (pRequest : Nat) : List HeapCell :=
  heap.modify (fun cell => { cell with freed := true }) pRequest

/-- The loop of the cleanup block of `Update`; the first argument is `i + 1` for
the index `i` visited next. No entry of `m_requests` is a nullptr before the
last loop of `Shutdown`, after which `Update` does not run: the index is the
index into `requests`. -/
def ResourceServer.cleanupLoop : Nat → ResourceServer → ResourceServer
  | 0, s => s
  | i + 1, s =>
    match s.requests[i]? with
    | none => ResourceServer.cleanupLoop i s
    | some pRequest =>
      if s.isCompleteAt pRequest then
        ResourceServer.cleanupLoop i
          { s with
            heap := deleteRequest s.heap pRequest
            requests := s.requests.eraseIdx i }
      else ResourceServer.cleanupLoop i s

/-- The cleanup block of `ResourceServer::Update`. -/
def ResourceServer.cleanup (s : ResourceServer) : ResourceServer :=
  if s.cleanupRequested then
    { ResourceServer.cleanupLoop s.requests.length s with cleanupRequested := false }
  else s

/-! ### Worker threads -/

/-- A worker runs the task at index `i` of `m_activeTasks`, when it has not run yet:
`ExecuteRange` acts on the request the task holds and the task becomes complete. -/
def ResourceServer.executeTask (env : Environment) (run : SubprocessRun) (i : Nat)
    (s : ResourceServer) : ResourceServer :=
  match s.activeTasks[i]? with
  | none => s
  | some task =>
    if task.isComplete then s
    else
      match s.heap[task.pRequest]? with
      | none => s
      | some cell =>
        let result := CompilationTask.ExecuteRange env.compilationResult s.isExiting
          env.compilerExecutablePath run cell.value
        { s with
          heap := s.heap.set task.pRequest { cell with value := result.request }
          activeTasks := s.activeTasks.set i { task with isComplete := true } }

/-- A worker runs the packaging task, when there is one that has not run yet. With
too little fuel for the recursion the task does not finish and nothing changes. -/
def ResourceServer.executePackagingTask (env : Environment) (fuel : Nat)
    (s : ResourceServer) : ResourceServer :=
  match s.pPackagingTask with
  | none => s
  | some task =>
    if task.isComplete then s
    else
      match PackagingTask.ExecuteRange env s.isExiting fuel s.mapsToBePackaged with
      | none => s
      | some deps =>
        { s with pPackagingTask := some { runtimeDependencies := deps, isComplete := true } }

/-- `m_taskSystem.WaitForAll()`: every scheduled task that has not run yet runs;
`runs i` is what the child process of the task at index `i` does. -/
def ResourceServer.WaitForAll (env : Environment) (runs : Nat → SubprocessRun) (fuel : Nat)
    (s : ResourceServer) : ResourceServer :=
  ((List.range s.activeTasks.length).foldl
    (fun st i => st.executeTask env (runs i) i) s).executePackagingTask env fuel

/-! ### Packaging -/

/-- `ResourceServer::AddMapToPackagingList`. -/
def ResourceServer.AddMapToPackagingList (mapResourceID : ResourceID)
    (s : ResourceServer) : ResourceServer :=
  { s with mapsToBePackaged := VectorEmplaceBackUnique s.mapsToBePackaged mapResourceID }

/-- `ResourceServer::RemoveMapFromPackagingList`. -/
def ResourceServer.RemoveMapFromPackagingList (mapResourceID : ResourceID)
    (s : ResourceServer) : ResourceServer :=
  { s with mapsToBePackaged := eraseFirstUnsorted s.mapsToBePackaged mapResourceID }

/-- `ResourceServer::CanStartPackaging`. -/
def ResourceServer.CanStartPackaging (s : ResourceServer) : Bool :=
  (s.packagingStage == PackagingStage.None || s.packagingStage == PackagingStage.Complete)
    && !s.mapsToBePackaged.isEmpty

/-- `ResourceServer::StartPackaging`. -/
def ResourceServer.StartPackaging (s : ResourceServer) : ResourceServer :=
  { s with
    pPackagingTask := some { runtimeDependencies := [], isComplete := false }
    packagingStage := PackagingStage.Preparing }

/-- The packaging block of `ResourceServer::Update`. -/
def ResourceServer.updatePackaging (env : Environment) (s : ResourceServer) : ResourceServer :=
  if s.packagingStage = PackagingStage.Preparing then
    match s.pPackagingTask with
    | none => s
    | some task =>
      if task.isComplete then
        let s1 := task.runtimeDependencies.foldl
          (fun st resourceID =>
            let created := st.CreateResourceRequest env resourceID 0 Origin.Package
            { created.2 with packagingRequests := created.2.packagingRequests ++ [created.1] })
          s
        { s1 with pPackagingTask := none, packagingStage := PackagingStage.Packaging }
      else s
  else if s.packagingStage = PackagingStage.Packaging then
    if s.packagingRequests.all s.isCompleteAt then
      { s with packagingRequests := [], packagingStage := PackagingStage.Complete }
    else s
  else s

/-! ### Update and Shutdown -/

/-- The callback `ProcessIncomingMessages` of `Update`, applied to every inbound
message. The call leaves the origin to the default argument of the declaration,
which the spec gives as `External`. -/
def ResourceServer.ProcessIncomingMessages (env : Environment)
    (incoming : List IncomingMessage) (s : ResourceServer) : ResourceServer :=
  incoming.foldl
    (fun st message =>
      if message.messageID = NetworkMessageID.RequestResource then
        (st.CreateResourceRequest env message.path message.clientConnectionID Origin.External).2
      else st)
    s

/-- `ResourceServer::OnFileModified`, from the resource path on. -/
def ResourceServer.OnFileModified (env : Environment) (e : FileModified)
    (s : ResourceServer) : ResourceServer :=
  if !e.resourcePathIsValid then s
  else if !e.resourceID.isValid then s
  else (s.CreateResourceRequest env e.resourceID 0 Origin.FileWatcher).2

/-- What one call of `Update` finds outside the server. -/
structure UpdateInput where
  /-- `m_networkServer.IsRunning()` -/
  networkIsRunning : Bool
  /-- the inbound messages -/
  incoming : List IncomingMessage
  /-- `m_networkServer.GetConnectedClients()` -/
  connectedClients : List Nat
  /-- `m_fileSystemWatcher.IsWatching()` -/
  isWatching : Bool
  /-- the changes `m_fileSystemWatcher.Update()` reports -/
  fileEvents : List FileModified
  deriving DecidableEq, Repr

/-- `ResourceServer::Update`. -/
def ResourceServer.Update (env : Environment) (input : UpdateInput)
    (s : ResourceServer) : ResourceServer :=
  let s1 := if input.networkIsRunning then s.ProcessIncomingMessages env input.incoming else s
  let s2 := s1.updatePackaging env
  let s3 := s2.ProcessCompletedRequests input.connectedClients
  let s4 := s3.cleanup
  if input.isWatching then
    input.fileEvents.foldl (fun st e => st.OnFileModified env e) s4
  else s4

/-- `ResourceServer::Shutdown` up to the assertion on `m_numScheduledTasks`: the
flag is set, the workers drain, the finished tasks are reaped. One level of
fuel is all the packaging recursion takes once the flag is set. -/
def ResourceServer.shutdownCompleteScheduled (env : Environment)
    (runs : Nat → SubprocessRun) (connectedClients : List Nat)
    (s : ResourceServer) : ResourceServer :=
  (({ s with isExiting := true }).WaitForAll env runs 1).ProcessCompletedRequests
    connectedClients

/-- The rest of `ResourceServer::Shutdown`: the packaging task is deleted, and the
loop over `m_requests` deletes every request through the entry that holds it,
`auto& pRequest`, so that each entry is left a nullptr; the vector is not
cleared and keeps its size. -/
def ResourceServer.shutdownRelease (s : ResourceServer) : ResourceServer :=
  { s with
    pPackagingTask := none
    heap := s.requests.foldl deleteRequest s.heap
    nullRequests := s.nullRequests + s.requests.length
    requests := [] }

/-- `ResourceServer::Shutdown`. -/
def ResourceServer.Shutdown (env : Environment) (runs : Nat → SubprocessRun)
    (connectedClients : List Nat) (s : ResourceServer) : ResourceServer :=
  (s.shutdownCompleteScheduled env runs connectedClients).shutdownRelease

/-! ### Runs of the server -/

/-- The steps a run of the server is made of: the calls into the server, the
blocks of `Update` on their own, and what the workers do in between. -/
inductive Step where
  | create (resourceID : ResourceID) (clientID : Nat) (origin : Origin)
  | executeTask (i : Nat) (run : SubprocessRun)
  | executePackagingTask (fuel : Nat)
  | reap (connectedClients : List Nat)
  | requestCleanup
  | cleanup
  | update (input : UpdateInput)
  | fileModified (e : FileModified)
  | addMap (mapResourceID : ResourceID)
  | removeMap (mapResourceID : ResourceID)
  | startPackaging
  | shutdownCompleteScheduled (runs : Nat → SubprocessRun) (connectedClients : List Nat)
  | shutdownRelease

/-- The effect of one step. `StartPackaging` is only called when `CanStartPackaging`
holds, as it asserts; the flag `m_cleanupRequested` is set by the operator. -/
def ResourceServer.step (env : Environment) (s : ResourceServer) : Step → ResourceServer
  | Step.create resourceID clientID origin =>
    (s.CreateResourceRequest env resourceID clientID origin).2
  | Step.executeTask i run => s.executeTask env run i
  | Step.executePackagingTask fuel => s.executePackagingTask env fuel
  | Step.reap connectedClients => s.ProcessCompletedRequests connectedClients
  | Step.requestCleanup => { s with cleanupRequested := true }
  | Step.cleanup => s.cleanup
  | Step.update input => s.Update env input
  | Step.fileModified e => s.OnFileModified env e
  | Step.addMap mapResourceID => s.AddMapToPackagingList mapResourceID
  | Step.removeMap mapResourceID => s.RemoveMapFromPackagingList mapResourceID
  | Step.startPackaging => if s.CanStartPackaging then s.StartPackaging else s
  | Step.shutdownCompleteScheduled runs connectedClients =>
    s.shutdownCompleteScheduled env runs connectedClients
  | Step.shutdownRelease => s.shutdownRelease

/-- The server after a sequence of steps, from state `s`. -/
def ResourceServer.run (env : Environment) (s : ResourceServer) (steps : List Step) :
    ResourceServer :=
  steps.foldl (ResourceServer.step env) s

/-- The states the server reaches from its initial state. -/
def Reachable (env : Environment) (s : ResourceServer) : Prop :=
  ∃ steps : List Step, ResourceServer.run env ResourceServer.init steps = s

/-- The number of tasks in `m_activeTasks` that hold the request at address `p`. -/
def ResourceServer.holders (s : ResourceServer) (p : Nat) : Nat :=
  s.activeTasks.countP (fun task => task.pRequest == p)

/-! ## Example values -/

/-- A request that is used as the running example: pending, external, client 7. -/
def exampleRequest : CompilationRequest :=
  { clientID := 7, origin := Origin.External
    resourceID := { path := "data://a.anim", typeID := 1, isValid := true }
    sourceFile := "raw/a.anim", destinationFile := "compiled/a.anim"
    compilerArgs := "data://a.anim", forceRecompile := false
    status := Status.Pending, log := ""
    compilationTimeStarted := 0, compilationTimeFinished := 0 }

/-- Exit codes used in the examples: up to date 0, success 1, success with warnings 2. -/
def exampleCodes : CompilationResult :=
  { SuccessUpToDate := 0, Success := 1, SuccessWithWarnings := 2 }

/-- A child process that starts, is joined and exits with the given code. -/
def exampleRun (exitCode : Int) : SubprocessRun :=
  { timeStarted := 10, createResult := 0, joinResult := 0, exitCode := exitCode
    timeFinished := 20, output := ["compiled\n"] }

/-- A newly constructed request for the examples. The constructor of
`CompilationRequest` is in the request header, which is not part of the
sources at hand, so the embedding takes the constructed request as a
parameter, `Environment.newRequest`. The value the examples use has every
member zero or empty: client 0, the first origin, the first status, empty
strings. -/
def zeroRequest : CompilationRequest :=
  { clientID := 0, origin := Origin.External
    resourceID := { path := "", typeID := 0, isValid := false }
    sourceFile := "", destinationFile := ""
    compilerArgs := "", forceRecompile := false
    status := Status.Pending, log := ""
    compilationTimeStarted := 0, compilationTimeFinished := 0 }

/-- An environment for the examples: roots `raw/`, `compiled/`, `packaged/`, paths
resolved by appending to the root, no compiler registered. -/
def exampleEnv : Environment :=
  { compilationResult := exampleCodes, newRequest := zeroRequest
    rawResourcePath := "raw/", compiledResourcePath := "compiled/"
    packagedBuildCompiledResourcePath := "packaged/", compilerExecutablePath := "rc.exe"
    ToFileSystemPath := fun root path => root ++ path
    GetCompilerForResourceType := fun _ => none
    engineModuleResources := id, gameModuleResources := id }

/-- The resource ID built from the empty path: invalid. -/
def emptyResourceID : ResourceID :=
  { path := "", typeID := 0, isValid := false }

/-- A valid resource ID used in the examples. -/
def animResourceID : ResourceID :=
  { path := "data://a.anim", typeID := 1, isValid := true }

/-- The response `NotifyClientOnCompletedRequest` builds for a request. -/
def responseFor (r : CompilationRequest) : NetworkResourceResponse :=
  { resourceID := r.resourceID
    filePath := if r.HasSucceeded then some r.destinationFile else none }


/-- The run of scenario S6: client `c` sends `RequestResource` for `resourceID`, one
`Update` creates the request, a worker runs its task, the next `Update` reaps it. -/
def requestThenReap (c : Nat) (resourceID : ResourceID) (connectedClients : List Nat)
    (run : SubprocessRun) : List Step :=
  [Step.update
      { networkIsRunning := true
        incoming := [{ messageID := NetworkMessageID.RequestResource
                       clientConnectionID := c, path := resourceID }]
        connectedClients := connectedClients, isWatching := false, fileEvents := [] },
   Step.executeTask 0 run,
   Step.update
      { networkIsRunning := true, incoming := []
        connectedClients := connectedClients, isWatching := false, fileEvents := [] }]

/-! ## Invariants of the registry -/

/-- The addresses held by the tasks in `m_activeTasks`, in order. -/
def ResourceServer.heldRequests (s : ResourceServer) : List Nat :=
  s.activeTasks.map CompilationTask.pRequest

/-- What holds of the registry in every state the server reaches: no two tasks hold
the same request, tasks and registry only hold addresses that were allocated,
and the counter agrees with the task list. While the server is not exiting,
moreover, a finished task holds a complete request and every request of the
registry that is not complete is held by a task. -/
structure ResourceServer.Invariant (s : ResourceServer) : Prop where
  held_nodup : s.heldRequests.Nodup
  held_allocated : ∀ p ∈ s.heldRequests, p < s.heap.length
  requests_allocated : ∀ p ∈ s.requests, p < s.heap.length
  counter : s.numScheduledTasks = s.activeTasks.length
  finished_complete : s.isExiting = false →
    ∀ task ∈ s.activeTasks, task.isComplete = true → s.isCompleteAt task.pRequest = true
  pending_held : s.isExiting = false →
    ∀ p ∈ s.requests, s.isCompleteAt p = false → p ∈ s.heldRequests

/-- The steps of the registry proper: creating a request, a worker running a task,
reaping, asking for cleanup, the cleanup block. -/
def Step.isRegistryStep : Step → Bool
  | Step.create _ _ _ => true
  | Step.executeTask _ _ => true
  | Step.reap _ => true
  | Step.requestCleanup => true
  | Step.cleanup => true
  | _ => false

/-- The number of calls of `CreateResourceRequest` among registry steps. -/
def numCreateCalls (steps : List Step) : Nat :=
  steps.countP fun st =>
    match st with
    | Step.create _ _ _ => true
    | _ => false

/-- The number of requests that the cleanup steps of a run evict: at each cleanup
step that finds the flag set, the entries of `m_requests` that are complete. -/
def numEvicted (env : Environment) : ResourceServer → List Step → Nat
  | _, [] => 0
  | s, st :: rest =>
    (match st with
      | Step.cleanup => if s.cleanupRequested then s.requests.countP s.isCompleteAt else 0
      | _ => 0)
    + numEvicted env (s.step env st) rest

/-- A run of the registry used as an example: two requests are created, the second
with an invalid resource ID; its task runs and is reaped; cleanup is asked for
and performed. -/
def exampleRegistryRun : List Step :=
  [Step.create animResourceID 7 Origin.External,
   Step.create emptyResourceID 7 Origin.External,
   Step.executeTask 1 (exampleRun 1),
   Step.reap [7],
   Step.requestCleanup,
   Step.cleanup]

/-- A run that ends inside `Shutdown`, at the assertion on `m_numScheduledTasks`: a
request is created for client 7 and `Shutdown` is called before a worker has
run its task. -/
def exampleShutdownRun : List Step :=
  [Step.create animResourceID 7 Origin.External,
   Step.shutdownCompleteScheduled (fun _ => exampleRun 1) [7]]

/-! ## Example values: packaging -/

/-- The seed map `m1` of scenario S5. -/
def exampleMap : ResourceID :=
  { path := "data://m1.map", typeID := 2, isValid := true }

/-- A second map. -/
def exampleMap2 : ResourceID :=
  { path := "data://m2.map", typeID := 2, isValid := true }

/-- Resource `a` of scenario S5. -/
def exampleA : ResourceID :=
  { path := "data://a.anim", typeID := 1, isValid := true }

/-- Resource `b` of scenario S5. -/
def exampleB : ResourceID :=
  { path := "data://b.anim", typeID := 1, isValid := true }

/-- Resource `c` of scenario S5. -/
def exampleC : ResourceID :=
  { path := "data://c.anim", typeID := 1, isValid := true }

/-- The install dependencies of scenario S5: `m1` needs `a` and `b`, `b` needs `c`. -/
def exampleInstallDependencies (resourceID : ResourceID) : List ResourceID :=
  if resourceID = exampleMap then [exampleA, exampleB]
  else if resourceID = exampleB then [exampleC]
  else []

/-- The environment of scenario S5: every resource type has a compiler, the install
dependencies are those of the scenario, nothing is statically required. -/
def packagingEnv : Environment :=
  { exampleEnv with
    GetCompilerForResourceType := fun _ =>
      some { GetInstallDependencies := exampleInstallDependencies } }

/-- A run after which the workers have drained: a request is created for client 7,
its task runs and is reaped. -/
def exampleDrainedRun : List Step :=
  [Step.create animResourceID 7 Origin.External,
   Step.executeTask 0 (exampleRun 1),
   Step.reap [7]]

/-! ## The packaging order of the spec -/

/-- The first occurrences of a sequence, in order: set semantics over an ordered
sequence, as the spec has it for the dependency list. -/
def firstOccurrences (l : List ResourceID) : List ResourceID :=
  l.foldl VectorEmplaceBackUnique []

/-- The depth-first pre-order visit sequence of the spec, from one resource and down
to a given depth: a resource without a compiler is skipped with everything
below it; a resource with a compiler is visited and then each of its install
dependencies is expanded, in the order the compiler gives them. Resources are
repeated as often as they are met. -/
def preorderVisits (env : Environment) : Nat → ResourceID → List ResourceID
  | 0, _ => []
  | depth + 1, resourceID =>
    match env.GetCompilerForResourceType resourceID.typeID with
    | none => []
    | some pCompiler =>
      resourceID :: (pCompiler.GetInstallDependencies resourceID).flatMap
        (preorderVisits env depth)

/-- The resources the spec lists for packaging: those with a registered compiler
that are reachable from a seed map through resources with a registered
compiler. -/
inductive Listed (env : Environment) (seeds : List ResourceID) : ResourceID → Prop
  | seed (mapID : ResourceID) (pCompiler : Compiler) :
      mapID ∈ seeds → env.GetCompilerForResourceType mapID.typeID = some pCompiler →
      Listed env seeds mapID
  | dependency (resourceID dependency : ResourceID) (pCompiler pDependencyCompiler : Compiler) :
      Listed env seeds resourceID →
      env.GetCompilerForResourceType resourceID.typeID = some pCompiler →
      dependency ∈ pCompiler.GetInstallDependencies resourceID →
      env.GetCompilerForResourceType dependency.typeID = some pDependencyCompiler →
      Listed env seeds dependency

/-- The resources the engine and the game require statically, as the packaging task
finds them in its list before it expands the seeds. -/
def Environment.staticResources (env : Environment) : List ResourceID :=
  env.gameModuleResources (env.engineModuleResources [])

/-- A rank for the install dependencies: every install dependency of a resource
with a compiler has a smaller rank than the resource. The relation has one
exactly when no chain of install dependencies goes on forever, which for a
finite relation is: it has no cycle. -/
def Environment.IsRank (env : Environment) (rank : ResourceID → Nat) : Prop :=
  ∀ (resourceID : ResourceID) (pCompiler : Compiler),
    env.GetCompilerForResourceType resourceID.typeID = some pCompiler →
    ∀ dependency ∈ pCompiler.GetInstallDependencies resourceID,
      rank dependency < rank resourceID

/-- A rank for the install dependencies of scenario S5. -/
def exampleRank (resourceID : ResourceID) : Nat :=
  if resourceID = exampleMap then 2 else if resourceID = exampleB then 1 else 0

/-- An environment in which the engine and the game both require resource `a`. -/
def duplicateStaticEnv : Environment :=
  { exampleEnv with
    engineModuleResources := fun resources => resources ++ [exampleA]
    gameModuleResources := fun resources => resources ++ [exampleA] }

/-! ## The packaging session over time -/

/-- `ResourceServer::GetPackagingProgress`, with the constants and the arithmetic
taken as exact rationals. In stage `Packaging` with no packaging request the
division is zero by zero, which is not a number: `none`. -/
def ResourceServer.GetPackagingProgress (s : ResourceServer) : Option ℚ :=
  match s.packagingStage with
  | PackagingStage.None => some 1
  | PackagingStage.Preparing => some (1 / 10)
  | PackagingStage.Packaging =>
    if s.packagingRequests.length = 0 then none
    else
      some (1 / 20 + 19 / 20 *
        ((s.packagingRequests.countP s.isCompleteAt : ℚ) / (s.packagingRequests.length : ℚ)))
  | PackagingStage.Complete => some 1

/-- The moves of the packaging stage: `None` to `Preparing` to `Packaging` to
`Complete`, and from `Complete` to `Preparing` again. -/
def stageMove : PackagingStage → PackagingStage → Bool
  | PackagingStage.None, PackagingStage.Preparing => true
  | PackagingStage.Preparing, PackagingStage.Packaging => true
  | PackagingStage.Packaging, PackagingStage.Complete => true
  | PackagingStage.Complete, PackagingStage.Preparing => true
  | _, _ => false

/-- The step that starts a packaging run. -/
def Step.isStartPackaging : Step → Bool
  | Step.startPackaging => true
  | _ => false

/-- State `t` is later than state `s`: the heap has not shrunk, every request that
was complete and has not been deleted is complete, and every request that was
deleted is deleted. -/
structure ResourceServer.Later (s t : ResourceServer) : Prop where
  heap_le : s.heap.length ≤ t.heap.length
  complete_mono : ∀ p : Nat, p < s.heap.length →
    ¬ (t.heap[p]?).map HeapCell.freed = some true →
    s.isCompleteAt p = true → t.isCompleteAt p = true
  freed_mono : ∀ p : Nat, (s.heap[p]?).map HeapCell.freed = some true →
    (t.heap[p]?).map HeapCell.freed = some true

/-- States `s` and `t` have the same packaging stage and packaging requests. -/
structure ResourceServer.SameSession (s t : ResourceServer) : Prop where
  stage : t.packagingStage = s.packagingStage
  requests : t.packagingRequests = s.packagingRequests

/-- What holds of the packaging session in every state the server reaches: outside
stage `Packaging` there are no packaging requests, and the packaging requests
are addresses that were allocated. -/
structure ResourceServer.SessionInvariant (s : ResourceServer) : Prop where
  cleared : s.packagingStage ≠ PackagingStage.Packaging → s.packagingRequests = []
  allocated : ∀ p ∈ s.packagingRequests, p < s.heap.length

/-- The request objects the packaging block of `Update` allocates for a list of
runtime dependencies. -/
def packageCells (env : Environment) (deps : List ResourceID) : List HeapCell :=
  deps.map fun resourceID =>
    { value := newCompilationRequest env resourceID 0 Origin.Package, freed := false }

/-- The run of scenario S5 up to stage `Packaging`: `m1` is listed, packaging starts,
a worker runs the packaging task, `Update` creates the four requests. -/
def examplePackagingRun : List Step :=
  [Step.addMap exampleMap,
   Step.startPackaging,
   Step.executePackagingTask 3,
   Step.update { networkIsRunning := true, incoming := [], connectedClients := []
                 isWatching := false, fileEvents := [] }]

/-- The network block of `ResourceServer::Update`. -/
def ResourceServer.pumpNetwork (env : Environment) (input : UpdateInput)
    (s : ResourceServer) : ResourceServer :=
  if input.networkIsRunning then s.ProcessIncomingMessages env input.incoming else s

/-- What `ResourceServer::Update` does after its packaging block: the reap pass, the
cleanup block and the file watcher. -/
def ResourceServer.finishUpdate (env : Environment) (input : UpdateInput)
    (s : ResourceServer) : ResourceServer :=
  let s3 := s.ProcessCompletedRequests input.connectedClients
  let s4 := s3.cleanup
  if input.isWatching then
    input.fileEvents.foldl (fun st e => st.OnFileModified env e) s4
  else s4

/-- What `Update` finds outside the server on a quiet tick: the network is running,
nothing arrived, nobody is connected, the file watcher is off. -/
def quietInput : UpdateInput :=
  { networkIsRunning := true, incoming := [], connectedClients := []
    isWatching := false, fileEvents := [] }

/-- The run of scenario S5 up to the point where the four requests have completed,
one by one. -/
def exampleCompletedRun : List Step :=
  examplePackagingRun
    ++ [Step.executeTask 0 (exampleRun 1), Step.executeTask 1 (exampleRun 1),
        Step.executeTask 2 (exampleRun 1), Step.executeTask 3 (exampleRun 1)]

/-! ## Assertions and dangling references -/

/-- `ResourceServer::Shutdown` up to its reap pass: the flag is set and the workers
have drained. -/
def ResourceServer.shutdownWait (env : Environment) (runs : Nat → SubprocessRun)
    (s : ResourceServer) : ResourceServer :=
  ({ s with isExiting := true }).WaitForAll env runs 1

/-- Whether the assertion `EE_ASSERT( pRequest->IsComplete() )` holds at every
finished task the loop of `ProcessCompletedRequests` visits; the first argument
is `i + 1` for the index `i` visited next. -/
def ResourceServer.reapLoopAsserts (connectedClients : List Nat) :
    Nat → ResourceServer → Bool
  | 0, _ => true
  | i + 1, s =>
    match s.activeTasks[i]? with
    | none => ResourceServer.reapLoopAsserts connectedClients i s
    | some pActiveTask =>
      if pActiveTask.isComplete then
        s.isCompleteAt pActiveTask.pRequest
          && ResourceServer.reapLoopAsserts connectedClients i
              { s with
                sent := s.sent ++ s.completionMessages connectedClients pActiveTask.pRequest
                activeTasks := eraseUnsorted s.activeTasks i
                numScheduledTasks := s.numScheduledTasks - 1 }
      else ResourceServer.reapLoopAsserts connectedClients i s

/-- Whether the assertion on the request of a finished task holds throughout one
call of `ProcessCompletedRequests`. -/
def ResourceServer.reapAsserts (connectedClients : List Nat) (s : ResourceServer) : Bool :=
  ResourceServer.reapLoopAsserts connectedClients s.activeTasks.length s

/-- The address `p` refers to a request object that has been deleted. -/
def ResourceServer.isDangling (s : ResourceServer) (p : Nat) : Bool :=
  match s.heap[p]? with
  | some cell => cell.freed
  | none => false

/-- A run in which cleanup overtakes a task: a request is created for the invalid
empty resource ID, already failed; cleanup is asked for; `Update` runs before
a worker has run the task of the request. -/
def exampleEvictedTaskRun : List Step :=
  [Step.create emptyResourceID 7 Origin.External,
   Step.requestCleanup,
   Step.update quietInput]

/-- A run in which cleanup overtakes the packaging session: in scenario S5, in stage
`Packaging`, the first of the four requests completes; cleanup is asked for;
`Update` runs. -/
def exampleEvictedPackagingRun : List Step :=
  examplePackagingRun
    ++ [Step.executeTask 0 (exampleRun 1), Step.requestCleanup, Step.update quietInput]

/-- A packaging run with nothing to package: no compiler is registered and nothing
is statically required, so the packaging task returns the empty list and
`Update` moves to stage `Packaging`. -/
def exampleEmptyPackagingRun : List Step :=
  [Step.addMap exampleMap,
   Step.startPackaging,
   Step.executePackagingTask 3,
   Step.update quietInput]

/-! ## Termination of the packaging expansion -/

/-- A resource with a compiler names another resource with a compiler among its
install dependencies: the steps the recursion of
`EnqueueResourceForPackaging` follows and expands. -/
def DependsOn (env : Environment) (resourceID dependency : ResourceID) : Prop :=
  ∃ pCompiler pDependencyCompiler,
    env.GetCompilerForResourceType resourceID.typeID = some pCompiler
    ∧ dependency ∈ pCompiler.GetInstallDependencies resourceID
    ∧ env.GetCompilerForResourceType dependency.typeID = some pDependencyCompiler

/-- Whether the recursion of `EnqueueResourceForPackaging` from a resource, with the
exit flag clear, is at most as deep as the fuel: the calls made do not depend
on the dependency list collected so far. -/
def expansionFits (env : Environment) : Nat → ResourceID → Bool
  | 0, _ => false
  | fuel + 1, resourceID =>
    match env.GetCompilerForResourceType resourceID.typeID with
    | none => true
    | some pCompiler =>
      (pCompiler.GetInstallDependencies resourceID).all (expansionFits env fuel)

/-- Install dependencies with a cycle: `m1` needs `a`, `a` needs `b`, `b` needs `a`. -/
def cyclicInstallDependencies (resourceID : ResourceID) : List ResourceID :=
  if resourceID = exampleMap then [exampleA]
  else if resourceID = exampleA then [exampleB]
  else if resourceID = exampleB then [exampleA]
  else []

/-- An environment in which every resource type has a compiler and the install
dependencies have a cycle that the seed map `m1` reaches. -/
def cyclicEnv : Environment :=
  { exampleEnv with
    GetCompilerForResourceType := fun _ =>
      some { GetInstallDependencies := cyclicInstallDependencies } }

/-- A run after which every task has run and none has been reaped: a request is
created for client 7 and a worker runs its task. -/
def exampleWorkersDoneRun : List Step :=
  [Step.create animResourceID 7 Origin.External,
   Step.executeTask 0 (exampleRun 1)]

/-- The environment of scenario S5 with resources `c` and `a` required statically by
the engine: both are also reachable from the seed map `m1`. -/
def overlappingStaticEnv : Environment :=
  { packagingEnv with
    engineModuleResources := fun resources => resources ++ [exampleC, exampleA] }

/-- The environment of scenario S5 with an invalid resource ID, the one built from
the empty path, among the resources the engine requires statically. -/
def invalidStaticEnv : Environment :=
  { packagingEnv with
    engineModuleResources := fun resources => resources ++ [emptyResourceID] }

/-! # Theorems -/

/-! ## Theorems: the compilation task -/

/-- C1: when a request that is not complete is executed with `isExiting` false and
both spawn and join succeed with exit code `e`, the status afterwards is
`SucceededUpToDate` for `e = SuccessUpToDate`, `Succeeded` for `e = Success`,
`SucceededWithWarnings` for `e = SuccessWithWarnings` and `Failed` for every
other integer. -/
theorem C1_exit_code_decides_status (codes : CompilationResult) (path : String)
    (run : SubprocessRun) (r : CompilationRequest)
    (hdistinct : codes.Distinct) (hpending : r.IsComplete = false)
    (hspawn : run.createResult = 0) (hjoin : run.joinResult = 0) :
    (run.exitCode = codes.SuccessUpToDate →
        (CompilationTask.ExecuteRange codes false path run r).request.status
          = Status.SucceededUpToDate)
    ∧ (run.exitCode = codes.Success →
        (CompilationTask.ExecuteRange codes false path run r).request.status
          = Status.Succeeded)
    ∧ (run.exitCode = codes.SuccessWithWarnings →
        (CompilationTask.ExecuteRange codes false path run r).request.status
          = Status.SucceededWithWarnings)
    ∧ (run.exitCode ≠ codes.SuccessUpToDate → run.exitCode ≠ codes.Success →
        run.exitCode ≠ codes.SuccessWithWarnings →
        (CompilationTask.ExecuteRange codes false path run r).request.status
          = Status.Failed) := by
  obtain ⟨h1, h2, h3⟩ := hdistinct
  have hstatus : (CompilationTask.ExecuteRange codes false path run r).request.status
      = statusOfExitCode codes run.exitCode := by
    simp [CompilationTask.ExecuteRange, hpending, hspawn, hjoin]
  rw [hstatus]
  refine ⟨?_, ?_, ?_, ?_⟩
  · intro h
    simp [statusOfExitCode, h]
  · intro h
    simp [statusOfExitCode, h, Ne.symm h1]
  · intro h
    simp [statusOfExitCode, h, Ne.symm h2, Ne.symm h3]
  · intro ha hb hc
    simp [statusOfExitCode, ha, hb, hc]

/-- Witness of C1: the example request with exit codes 0, 1, 2 and a child that exits 1. -/
theorem C1_exit_code_decides_status_witness :
    exampleCodes.Distinct ∧ exampleRequest.IsComplete = false
    ∧ (CompilationTask.ExecuteRange exampleCodes false "rc.exe" (exampleRun 1)
        exampleRequest).request.status = Status.Succeeded :=
  ⟨by decide, by decide,
    (C1_exit_code_decides_status exampleCodes "rc.exe" (exampleRun 1) exampleRequest
      (by decide) (by decide) rfl rfl).2.1 rfl⟩

/-- C2: whenever the task spawns, the argument vector is the compiler path,
`-compile` and the compiler arguments, followed by `-package` when the origin
is `Package`, else by `-force` when a forced recompilation is required, else by
nothing; the flag part never holds both flags, and it is `-package` when both
conditions hold. -/
theorem C2_argument_vector (codes : CompilationResult) (isExiting : Bool) (path : String)
    (run : SubprocessRun) (r : CompilationRequest) (args : List String)
    (hspawned : (CompilationTask.ExecuteRange codes isExiting path run r).spawned = some args) :
    args = [path, "-compile", r.compilerArgs]
        ++ (if r.origin = Origin.Package then ["-package"]
            else if r.forceRecompile = true then ["-force"] else [])
    ∧ ¬ ("-force" ∈ args.drop 3 ∧ "-package" ∈ args.drop 3)
    ∧ (r.origin = Origin.Package → r.forceRecompile = true → args.drop 3 = ["-package"]) := by
  have hargs : args = argumentVector (processCommandLineArgs path r) := by
    unfold CompilationTask.ExecuteRange at hspawned
    split at hspawned
    · split at hspawned
      · simpa using hspawned.symm
      · split at hspawned <;> simpa using hspawned.symm
    · simp at hspawned
  subst hargs
  by_cases hpkg : r.origin = Origin.Package <;> by_cases hforce : r.forceRecompile = true <;>
    simp [argumentVector, processCommandLineArgs, CompilationRequest.RequiresForcedRecompiliation,
      hpkg, hforce, List.takeWhile]

/-- Witness of C2: a forced package request is spawned with `-package` alone. -/
theorem C2_argument_vector_witness :
    (CompilationTask.ExecuteRange exampleCodes false "rc.exe" (exampleRun 1)
        { exampleRequest with origin := Origin.Package, forceRecompile := true }).spawned
      = some ["rc.exe", "-compile", "data://a.anim", "-package"]
    ∧ ["rc.exe", "-compile", "data://a.anim", "-package"].drop 3 = ["-package"] :=
  ⟨by decide,
   (C2_argument_vector exampleCodes false "rc.exe" (exampleRun 1)
      { exampleRequest with origin := Origin.Package, forceRecompile := true }
      ["rc.exe", "-compile", "data://a.anim", "-package"] (by decide)).2.2 rfl rfl⟩

/-- A run of the task on a request that is complete, or while exiting, does nothing. -/
theorem ExecuteRange_skip (codes : CompilationResult) (isExiting : Bool) (path : String)
    (run : SubprocessRun) (r : CompilationRequest)
    (h : isExiting = true ∨ r.IsComplete = true) :
    CompilationTask.ExecuteRange codes isExiting path run r
      = { request := r, spawned := none, joined := false, drained := false,
          destroyed := false } := by
  rcases h with h | h <;> simp [CompilationTask.ExecuteRange, h]

/-- What `executeTask` does: nothing, or one run of `ExecuteRange` on the request
behind a task that had not run. -/
theorem executeTask_eq (env : Environment) (run : SubprocessRun) (i : Nat)
    (s : ResourceServer) :
    s.executeTask env run i = s
    ∨ ∃ task cell, s.activeTasks[i]? = some task ∧ task.isComplete = false
        ∧ s.heap[task.pRequest]? = some cell
        ∧ s.executeTask env run i
          = { s with
              heap := s.heap.set task.pRequest
                { cell with value := (CompilationTask.ExecuteRange env.compilationResult
                    s.isExiting env.compilerExecutablePath run cell.value).request }
              activeTasks := s.activeTasks.set i { task with isComplete := true } } := by
  cases hti : s.activeTasks[i]? with
  | none => left; simp [ResourceServer.executeTask, hti]
  | some task =>
    by_cases htc : task.isComplete = true
    · left; simp [ResourceServer.executeTask, hti, htc]
    · cases hcell : s.heap[task.pRequest]? with
      | none => left; simp [ResourceServer.executeTask, hti, htc, hcell]
      | some cell =>
        right
        refine ⟨task, cell, rfl, by simpa using htc, hcell, ?_⟩
        simp [ResourceServer.executeTask, hti, htc, hcell]

/-- C3: executing the task on a request whose status is terminal, or while
`isExiting` is set, spawns no subprocess and returns the request unchanged in
every field; hence on a complete request no execution, by any task of the
server and with any behaviour of the child, changes the status or the time
finished. -/
theorem C3_complete_or_exiting_is_untouched (env : Environment) (codes : CompilationResult)
    (isExiting : Bool) (path : String) (run : SubprocessRun) (r : CompilationRequest)
    (h : isExiting = true ∨ r.IsComplete = true) :
    (CompilationTask.ExecuteRange codes isExiting path run r).spawned = none
    ∧ (CompilationTask.ExecuteRange codes isExiting path run r).request = r
    ∧ (r.IsComplete = true → ∀ (s : ResourceServer) (p i : Nat) (run1 : SubprocessRun),
        s.request? p = some r →
        (s.executeTask env run1 i).request? p = some r) := by
  refine ⟨by rw [ExecuteRange_skip codes isExiting path run r h],
    by rw [ExecuteRange_skip codes isExiting path run r h], ?_⟩
  intro hc s p i run1 hp
  rcases executeTask_eq env run1 i s with he | ⟨task, cell, -, -, hcell, he⟩
  · rw [he]; exact hp
  · rw [he]
    by_cases hpe : task.pRequest = p
    · subst hpe
      have hv : cell.value = r := by
        simpa [ResourceServer.request?, hcell] using hp
      have hlt : task.pRequest < s.heap.length := (List.getElem?_eq_some.mp hcell).1
      subst hv
      simp [ResourceServer.request?, List.getElem?_set, hlt,
        ExecuteRange_skip env.compilationResult s.isExiting env.compilerExecutablePath
          run1 cell.value (Or.inr hc)]
    · simpa [ResourceServer.request?, List.getElem?_set_ne hpe] using hp

/-- Witness of C3: a request that already failed is returned as it is. -/
theorem C3_complete_or_exiting_is_untouched_witness :
    (CompilationTask.ExecuteRange exampleCodes false "rc.exe" (exampleRun 1)
        { exampleRequest with status := Status.Failed }).spawned = none
    ∧ (CompilationTask.ExecuteRange exampleCodes false "rc.exe" (exampleRun 1)
        { exampleRequest with status := Status.Failed }).request
        = { exampleRequest with status := Status.Failed } :=
  ⟨(C3_complete_or_exiting_is_untouched
      exampleEnv exampleCodes false "rc.exe" (exampleRun 1)
      { exampleRequest with status := Status.Failed } (Or.inr (by decide))).1,
   (C3_complete_or_exiting_is_untouched
      exampleEnv exampleCodes false "rc.exe" (exampleRun 1)
      { exampleRequest with status := Status.Failed } (Or.inr (by decide))).2.1⟩

/-- C4: for a request that is not complete, executed with `isExiting` false: when
the subprocess fails to spawn the request ends `Failed` with the log
"Resource compiler failed to start!"; when it spawns and the join fails the
request ends `Failed` with the log "Resource compiler failed to complete!"; in
both cases the time finished is recorded, the status does not depend on the
exit code and the output of the child is not read. -/
theorem C4_spawn_and_join_failure (codes : CompilationResult) (path : String)
    (run : SubprocessRun) (r : CompilationRequest) (hpending : r.IsComplete = false) :
    (run.createResult ≠ 0 →
      CompilationTask.ExecuteRange codes false path run r
        = { request := { r with status := Status.Failed
                                log := "Resource compiler failed to start!"
                                compilationTimeStarted := run.timeStarted
                                compilationTimeFinished := run.timeFinished }
            spawned := some (argumentVector (processCommandLineArgs path r))
            joined := false, drained := false, destroyed := false })
    ∧ (run.createResult = 0 → run.joinResult ≠ 0 →
      CompilationTask.ExecuteRange codes false path run r
        = { request := { r with status := Status.Failed
                                log := "Resource compiler failed to complete!"
                                compilationTimeStarted := run.timeStarted
                                compilationTimeFinished := run.timeFinished }
            spawned := some (argumentVector (processCommandLineArgs path r))
            joined := true, drained := false, destroyed := true }) := by
  constructor
  · intro hc
    simp [CompilationTask.ExecuteRange, hpending, hc]
  · intro hc hj
    simp [CompilationTask.ExecuteRange, hpending, hc, hj]

/-- Witness of C4: a child that cannot be started, with exit code and output that go unused. -/
theorem C4_spawn_and_join_failure_witness :
    exampleRequest.IsComplete = false
    ∧ (CompilationTask.ExecuteRange exampleCodes false "rc.exe"
        { exampleRun 1 with createResult := -1 } exampleRequest).request.log
        = "Resource compiler failed to start!"
    ∧ (CompilationTask.ExecuteRange exampleCodes false "rc.exe"
        { exampleRun 1 with createResult := -1 } exampleRequest).request.status
        = Status.Failed :=
  ⟨by decide,
   by rw [(C4_spawn_and_join_failure exampleCodes "rc.exe"
      { exampleRun 1 with createResult := -1 } exampleRequest (by decide)).1 (by decide)],
   by rw [(C4_spawn_and_join_failure exampleCodes "rc.exe"
      { exampleRun 1 with createResult := -1 } exampleRequest (by decide)).1 (by decide)]⟩

/-! ## Theorems: completion notification -/

/-- C5: for every request and every list of connected clients, the messages sent by
`NotifyClientOnCompletedRequest` are: for an external request exactly one
`ResourceRequestComplete` addressed to the client of the request; for an
internal request (`FileWatcher` or `Package`) whose status is not
`SucceededUpToDate` exactly one `ResourceUpdated` per connected client and
nothing else; for an internal request that is `SucceededUpToDate` none. -/
theorem C5_notification_policy (connectedClients : List Nat) (r : CompilationRequest) :
    (r.origin = Origin.External →
      NotifyClientOnCompletedRequest connectedClients r
        = [{ clientConnectionID := r.clientID
             messageID := NetworkMessageID.ResourceRequestComplete
             data := responseFor r }])
    ∧ (r.origin = Origin.FileWatcher ∨ r.origin = Origin.Package →
        r.status ≠ Status.SucceededUpToDate →
        NotifyClientOnCompletedRequest connectedClients r
          = connectedClients.map (fun clientID =>
              { clientConnectionID := clientID
                messageID := NetworkMessageID.ResourceUpdated
                data := responseFor r })
        ∧ (NotifyClientOnCompletedRequest connectedClients r).length
            = connectedClients.length)
    ∧ (r.origin = Origin.FileWatcher ∨ r.origin = Origin.Package →
        r.status = Status.SucceededUpToDate →
        NotifyClientOnCompletedRequest connectedClients r = []) := by
  refine ⟨?_, ?_, ?_⟩
  · intro h
    simp [NotifyClientOnCompletedRequest, CompilationRequest.IsInternalRequest, h, responseFor]
  · intro h hs
    have hi : r.origin ≠ Origin.External := by
      rcases h with h | h <;> simp [h]
    simp [NotifyClientOnCompletedRequest, CompilationRequest.IsInternalRequest, hi, hs,
      responseFor]
  · intro h hs
    have hi : r.origin ≠ Origin.External := by
      rcases h with h | h <;> simp [h]
    simp [NotifyClientOnCompletedRequest, CompilationRequest.IsInternalRequest, hi, hs]

/-! ## Theorems: creating requests -/

/-- The request object behind the address `CreateResourceRequest` returns. -/
theorem CreateResourceRequest_request (env : Environment) (resourceID : ResourceID)
    (clientID : Nat) (origin : Origin) (s : ResourceServer) :
    (s.CreateResourceRequest env resourceID clientID origin).2.request?
        (s.CreateResourceRequest env resourceID clientID origin).1
      = some (newCompilationRequest env resourceID clientID origin) := by
  simp [ResourceServer.CreateResourceRequest, ResourceServer.request?]

/-- With a valid resource ID and arguments that pass the assertions, the created
request pairs origin `External` with a non-zero client ID. -/
theorem newCompilationRequest_valid_pairing (env : Environment) (resourceID : ResourceID)
    (clientID : Nat) (origin : Origin) (hvalid : resourceID.isValid = true)
    (hasserts : CreateResourceRequest.asserts resourceID clientID origin) :
    (newCompilationRequest env resourceID clientID origin).origin = Origin.External
      ↔ (newCompilationRequest env resourceID clientID origin).clientID ≠ 0 := by
  have h := hasserts hvalid
  by_cases ho : origin = Origin.External
  · simp [newCompilationRequest, hvalid, ho] at h ⊢
    exact h
  · simp [newCompilationRequest, hvalid, ho] at h ⊢
    exact h

/-- With an invalid resource ID the created request takes neither its client nor its
origin from the arguments of the call. -/
theorem newCompilationRequest_invalid (env : Environment) (path : String) (typeID : Nat)
    (clientID : Nat) (origin : Origin) :
    newCompilationRequest env { path := path, typeID := typeID, isValid := false }
        clientID origin
      = { env.newRequest with
          log := "Error: Invalid resource ID ( " ++ path ++ " )"
          status := Status.Failed } := by
  simp [newCompilationRequest]

/-- With an invalid resource ID the created request pairs origin and client ID
exactly when the request as constructed does, whatever the call passes. -/
theorem newCompilationRequest_invalid_pairing (env : Environment) (resourceID : ResourceID)
    (clientID : Nat) (origin : Origin) (hinvalid : resourceID.isValid = false) :
    (newCompilationRequest env resourceID clientID origin).origin = env.newRequest.origin
    ∧ (newCompilationRequest env resourceID clientID origin).clientID = env.newRequest.clientID
    ∧ (((newCompilationRequest env resourceID clientID origin).origin = Origin.External
          ↔ (newCompilationRequest env resourceID clientID origin).clientID ≠ 0)
        ↔ (env.newRequest.origin = Origin.External ↔ env.newRequest.clientID ≠ 0)) := by
  simp [newCompilationRequest, hinvalid]

/-- C7 fails for a request created with an invalid resource ID: it is complete from
the start, its origin is not `Package`, and its destination is the empty path
of a new request, not the resource path resolved under the compiled root. -/
theorem C7_counterexample_invalid_id_destination :
    ¬ ((newCompilationRequest exampleEnv emptyResourceID 7 Origin.External).IsComplete = true →
        ((newCompilationRequest exampleEnv emptyResourceID 7 Origin.External).destinationFile
            = exampleEnv.ToFileSystemPath exampleEnv.packagedBuildCompiledResourcePath
                emptyResourceID.path
          ↔ (newCompilationRequest exampleEnv emptyResourceID 7 Origin.External).origin
              = Origin.Package)
        ∧ ((newCompilationRequest exampleEnv emptyResourceID 7 Origin.External).origin
              ≠ Origin.Package →
            (newCompilationRequest exampleEnv emptyResourceID 7 Origin.External).destinationFile
              = exampleEnv.ToFileSystemPath exampleEnv.compiledResourcePath
                  emptyResourceID.path)) := by
  decide

/-- C7 as amended: a request created with a valid resource ID has, at creation and
after its task has run (whatever the child process did), the resource path
resolved under the packaging root as destination when its origin is `Package`
and the resource path resolved under the compiled root otherwise; where the
two roots resolve the path to different files, the destination is the
packaging one if and only if the origin is `Package`. -/
theorem C7_destination_routing (env : Environment) (resourceID : ResourceID) (clientID : Nat)
    (origin : Origin) (isExiting : Bool) (run : SubprocessRun)
    (hvalid : resourceID.isValid = true) :
    (newCompilationRequest env resourceID clientID origin).destinationFile
      = (if origin = Origin.Package then
          env.ToFileSystemPath env.packagedBuildCompiledResourcePath resourceID.path
        else env.ToFileSystemPath env.compiledResourcePath resourceID.path)
    ∧ (CompilationTask.ExecuteRange env.compilationResult isExiting env.compilerExecutablePath
        run (newCompilationRequest env resourceID clientID origin)).request.destinationFile
      = (newCompilationRequest env resourceID clientID origin).destinationFile
    ∧ (CompilationTask.ExecuteRange env.compilationResult isExiting env.compilerExecutablePath
        run (newCompilationRequest env resourceID clientID origin)).request.origin = origin
    ∧ (env.ToFileSystemPath env.packagedBuildCompiledResourcePath resourceID.path
          ≠ env.ToFileSystemPath env.compiledResourcePath resourceID.path →
        ((CompilationTask.ExecuteRange env.compilationResult isExiting
            env.compilerExecutablePath run
            (newCompilationRequest env resourceID clientID origin)).request.destinationFile
          = env.ToFileSystemPath env.packagedBuildCompiledResourcePath resourceID.path
        ↔ origin = Origin.Package)) := by
  have hdest : ∀ r : CompilationRequest,
      (CompilationTask.ExecuteRange env.compilationResult isExiting env.compilerExecutablePath
        run r).request.destinationFile = r.destinationFile
      ∧ (CompilationTask.ExecuteRange env.compilationResult isExiting
        env.compilerExecutablePath run r).request.origin = r.origin := by
    intro r
    unfold CompilationTask.ExecuteRange
    split
    · split
      · exact ⟨rfl, rfl⟩
      · split <;> exact ⟨rfl, rfl⟩
    · exact ⟨rfl, rfl⟩
  have hcreated : (newCompilationRequest env resourceID clientID origin).destinationFile
      = (if origin = Origin.Package then
          env.ToFileSystemPath env.packagedBuildCompiledResourcePath resourceID.path
        else env.ToFileSystemPath env.compiledResourcePath resourceID.path) := by
    simp [newCompilationRequest, hvalid]
  have horigin : (newCompilationRequest env resourceID clientID origin).origin = origin := by
    simp [newCompilationRequest, hvalid]
  refine ⟨hcreated, (hdest _).1, by rw [(hdest _).2, horigin], ?_⟩
  intro hne
  rw [(hdest _).1, hcreated]
  by_cases ho : origin = Origin.Package
  · simp [ho]
  · simp only [ho, if_false, iff_false]
    exact fun h => hne h.symm

/-- Witness of C7: a valid animation resource requested by client 7 is routed to the
compiled root, one packaged is routed to the packaging root. -/
theorem C7_destination_routing_witness :
    animResourceID.isValid = true
    ∧ (newCompilationRequest exampleEnv animResourceID 7 Origin.External).destinationFile
        = "compiled/data://a.anim"
    ∧ (newCompilationRequest exampleEnv animResourceID 0 Origin.Package).destinationFile
        = "packaged/data://a.anim" :=
  ⟨rfl,
   (C7_destination_routing exampleEnv animResourceID 7 Origin.External false (exampleRun 1)
      rfl).1,
   (C7_destination_routing exampleEnv animResourceID 0 Origin.Package false (exampleRun 1)
      rfl).1⟩

/-- C8, at the failing input: client 7 sends `RequestResource` with the empty,
invalid resource ID. The request is created `Failed` with a log naming the ID,
is appended to `m_requests` and gets a task; when the task is reaped the one
`ResourceRequestComplete` message, without file path, is addressed to client 0
and not to client 7. Whatever a new request is constructed with, the messages
sent do not depend on the sender. -/
theorem C8_invalid_id_reply_is_not_addressed_to_sender :
    (ResourceServer.run exampleEnv ResourceServer.init
        (requestThenReap 7 emptyResourceID [7] (exampleRun 1)).dropLast).requests = [0]
    ∧ (ResourceServer.run exampleEnv ResourceServer.init
        (requestThenReap 7 emptyResourceID [7] (exampleRun 1)).dropLast).activeTasks
        = [{ pRequest := 0, isComplete := true }]
    ∧ (ResourceServer.run exampleEnv ResourceServer.init
        (requestThenReap 7 emptyResourceID [7] (exampleRun 1)).dropLast).request? 0
        = some { zeroRequest with
                 status := Status.Failed, log := "Error: Invalid resource ID (  )" }
    ∧ (ResourceServer.run exampleEnv ResourceServer.init
        (requestThenReap 7 emptyResourceID [7] (exampleRun 1))).sent
        = [{ clientConnectionID := 0
             messageID := NetworkMessageID.ResourceRequestComplete
             data := { resourceID := emptyResourceID, filePath := none } }]
    ∧ (∀ (env : Environment) (c : Nat) (path : String) (typeID : Nat)
        (connectedClients : List Nat) (run : SubprocessRun),
        (ResourceServer.run env ResourceServer.init
          (requestThenReap c { path := path, typeID := typeID, isValid := false }
            connectedClients run)).sent
        = NotifyClientOnCompletedRequest connectedClients
            { env.newRequest with
              log := "Error: Invalid resource ID ( " ++ path ++ " )"
              status := Status.Failed }) := by
  refine ⟨by decide, by decide, by decide, by decide, ?_⟩
  intro env c path typeID connectedClients run
  simp [ResourceServer.run, requestThenReap, ResourceServer.step, ResourceServer.Update,
    ResourceServer.ProcessIncomingMessages, ResourceServer.CreateResourceRequest,
    ResourceServer.init, ResourceServer.updatePackaging, ResourceServer.ProcessCompletedRequests,
    ResourceServer.reapLoop, ResourceServer.cleanup, ResourceServer.executeTask,
    ResourceServer.completionMessages,
    newCompilationRequest, CompilationTask.ExecuteRange, CompilationRequest.IsComplete,
    ResourceServer.request?, eraseUnsorted]

/-! ## Theorems: the loops of the registry -/

/-- Erasing the last element, unordered, drops it. -/
theorem eraseUnsorted_last {α : Type} (A : List α) (x : α) :
    eraseUnsorted (A ++ [x]) A.length = A := by
  simp [eraseUnsorted]

/-- Erasing an inner element, unordered, puts the last element in its place. -/
theorem eraseUnsorted_inner {α : Type} (A B : List α) (x l : α) :
    eraseUnsorted (A ++ x :: (B ++ [l])) A.length = A ++ l :: B := by
  have e : A ++ x :: (B ++ [l]) = (A ++ x :: B) ++ [l] := by simp
  have h : (A ++ x :: (B ++ [l])).getLast? = some l := by
    rw [e, List.getLast?_concat]
  have hs : (A ++ x :: (B ++ [l])).set A.length l = (A ++ l :: B) ++ [l] := by
    simp
  simp only [eraseUnsorted, h, hs, List.dropLast_concat]

/-- A list splits at a valid index into what is before, the element and what is behind. -/
theorem split_at_index {α : Type} (v : List α) (i : Nat) (x : α) (h : v[i]? = some x) :
    v = v.take i ++ x :: v.drop (i + 1) ∧ (v.take i).length = i := by
  obtain ⟨hlt, hx⟩ := List.getElem?_eq_some.mp h
  constructor
  · rw [← hx, ← List.drop_eq_getElem_cons hlt, List.take_append_drop]
  · simp [List.length_take]; omega

/-- The unordered erase at a valid index keeps what is before the index, leaves what
was behind it in some order, and shortens the list by one. -/
theorem eraseUnsorted_spec {α : Type} (v : List α) (i : Nat) (x : α) (h : v[i]? = some x) :
    (eraseUnsorted v i).take i = v.take i
    ∧ ((eraseUnsorted v i).drop i).Perm (v.drop (i + 1))
    ∧ (eraseUnsorted v i).length + 1 = v.length := by
  obtain ⟨hv, hlen⟩ := split_at_index v i x h
  generalize v.take i = A at hv hlen
  generalize v.drop (i + 1) = B at hv
  subst hlen
  rcases List.eq_nil_or_concat B with hB | ⟨B', l, hB⟩
  · subst hB
    rw [hv, eraseUnsorted_last]
    simp
  · rw [List.concat_eq_append] at hB
    subst hB
    rw [hv, eraseUnsorted_inner]
    refine ⟨by simp, ?_, by simp; omega⟩
    simp only [List.drop_left]
    exact (List.perm_append_singleton l B').symm

/-- The reap loop changes the task list, the task counter and the messages sent,
nothing else. -/
theorem reapLoop_frame (connectedClients : List Nat) :
    ∀ (n : Nat) (s : ResourceServer),
      { ResourceServer.reapLoop connectedClients n s with
        activeTasks := s.activeTasks, numScheduledTasks := s.numScheduledTasks
        sent := s.sent } = s := by
  intro n
  induction n with
  | zero => intro s; rfl
  | succ i ih =>
    intro s
    unfold ResourceServer.reapLoop
    split
    · exact ih s
    · split
      · rename_i task _ hc
        have h := ih { s with
            sent := s.sent ++ s.completionMessages connectedClients task.pRequest
            activeTasks := eraseUnsorted s.activeTasks i
            numScheduledTasks := s.numScheduledTasks - 1 }
        have h2 := congrArg (fun t : ResourceServer => { t with
            activeTasks := s.activeTasks, numScheduledTasks := s.numScheduledTasks
            sent := s.sent }) h
        exact h2
      · exact ih s

/-- What the reap loop does to the task list and to the counter: of the first `n`
tasks the unfinished ones stay, the tasks behind them stay, in some order, and
the counter drops by the number of finished tasks among the first `n`. -/
theorem reapLoop_tasks (connectedClients : List Nat) :
    ∀ (n : Nat) (s : ResourceServer), n ≤ s.activeTasks.length →
      (ResourceServer.reapLoop connectedClients n s).activeTasks.Perm
        ((s.activeTasks.take n).filter (fun task => !task.isComplete) ++ s.activeTasks.drop n)
      ∧ (ResourceServer.reapLoop connectedClients n s).numScheduledTasks
        = s.numScheduledTasks - ((s.activeTasks.take n).countP (fun task => task.isComplete) : Nat) := by
  intro n
  induction n with
  | zero => intro s _; simp [ResourceServer.reapLoop]
  | succ i ih =>
    intro s hn
    have hlt : i < s.activeTasks.length := by omega
    have hget : s.activeTasks[i]? = some s.activeTasks[i] := List.getElem?_eq_getElem hlt
    have htake : s.activeTasks.take (i + 1) = s.activeTasks.take i ++ [s.activeTasks[i]] := by
      rw [List.take_succ, hget]; rfl
    have hdrop : s.activeTasks.drop i = s.activeTasks[i] :: s.activeTasks.drop (i + 1) :=
      List.drop_eq_getElem_cons hlt
    unfold ResourceServer.reapLoop
    simp only [hget]
    by_cases hc : s.activeTasks[i].isComplete = true
    · simp only [hc, if_true]
      obtain ⟨h1, h2, h3⟩ := eraseUnsorted_spec s.activeTasks i _ hget
      obtain ⟨ihp, ihn⟩ := ih { s with
            sent := s.sent ++ s.completionMessages connectedClients s.activeTasks[i].pRequest
            activeTasks := eraseUnsorted s.activeTasks i
            numScheduledTasks := s.numScheduledTasks - 1 } (by simp only; omega)
      simp only [h1] at ihp ihn
      constructor
      · refine ihp.trans ?_
        rw [htake, List.filter_append]
        simp only [List.filter_cons, hc, List.filter_nil, Bool.not_true, Bool.false_eq_true,
          if_false, List.append_nil]
        exact List.Perm.append_left _ h2
      · rw [ihn, htake, List.countP_append]
        simp [hc]
        omega
    · simp only [hc, Bool.false_eq_true, if_false]
      obtain ⟨ihp, ihn⟩ := ih s (by omega)
      constructor
      · refine ihp.trans ?_
        rw [htake, List.filter_append, hdrop]
        simp [hc]
      · rw [ihn, htake, List.countP_append]
        simp [hc]

/-- Deleting a request object leaves the value of every object in place. -/
theorem deleteRequest_values (heap : List HeapCell) (p : Nat) :
    (deleteRequest heap p).map HeapCell.value = heap.map HeapCell.value := by
  apply List.ext_getElem?
  intro q
  simp only [deleteRequest, List.getElem?_map, List.getElem?_modify]
  cases heap[q]? with
  | none => rfl
  | some cell => by_cases h : p = q <;> simp [h]

/-- The test through an address only reads the values of the heap. -/
theorem isCompleteAt_eq_values (s : ResourceServer) (p : Nat) :
    s.isCompleteAt p
      = match (s.heap.map HeapCell.value)[p]? with
        | some r => r.IsComplete
        | none => false := by
  simp only [ResourceServer.isCompleteAt, List.getElem?_map]
  cases s.heap[p]? <;> rfl

/-- Two servers whose heaps hold the same values agree on `isCompleteAt`. -/
theorem isCompleteAt_congr (s t : ResourceServer)
    (h : t.heap.map HeapCell.value = s.heap.map HeapCell.value) :
    t.isCompleteAt = s.isCompleteAt := by
  funext p
  rw [isCompleteAt_eq_values, isCompleteAt_eq_values, h]

/-- The cleanup loop changes the heap and the request list, nothing else. -/
theorem cleanupLoop_frame :
    ∀ (n : Nat) (s : ResourceServer),
      { ResourceServer.cleanupLoop n s with heap := s.heap, requests := s.requests } = s := by
  intro n
  induction n with
  | zero => intro s; rfl
  | succ i ih =>
    intro s
    unfold ResourceServer.cleanupLoop
    split
    · exact ih s
    · split
      · rename_i p _ hc
        have h := ih { s with
            heap := deleteRequest s.heap p
            requests := s.requests.eraseIdx i }
        exact congrArg (fun t : ResourceServer => { t with
            heap := s.heap, requests := s.requests }) h
      · exact ih s

/-- What the cleanup loop does: of the first `n` entries of the request list those
that are not complete stay, in order, followed by the entries behind them; no
value in the heap changes. -/
theorem cleanupLoop_spec :
    ∀ (n : Nat) (s : ResourceServer), n ≤ s.requests.length →
      (ResourceServer.cleanupLoop n s).requests
        = (s.requests.take n).filter (fun p => !s.isCompleteAt p) ++ s.requests.drop n
      ∧ (ResourceServer.cleanupLoop n s).heap.map HeapCell.value
        = s.heap.map HeapCell.value := by
  intro n
  induction n with
  | zero => intro s _; simp [ResourceServer.cleanupLoop]
  | succ i ih =>
    intro s hn
    have hlt : i < s.requests.length := by omega
    have hget : s.requests[i]? = some s.requests[i] := List.getElem?_eq_getElem hlt
    have htake : s.requests.take (i + 1) = s.requests.take i ++ [s.requests[i]] := by
      rw [List.take_succ, hget]; rfl
    have hdrop : s.requests.drop i = s.requests[i] :: s.requests.drop (i + 1) :=
      List.drop_eq_getElem_cons hlt
    unfold ResourceServer.cleanupLoop
    simp only [hget]
    by_cases hc : s.isCompleteAt s.requests[i] = true
    · simp only [hc, if_true]
      have hlen : (s.requests.take i).length = i := by
        simp [List.length_take]; omega
      have he : s.requests.eraseIdx i = s.requests.take i ++ s.requests.drop (i + 1) :=
        List.eraseIdx_eq_take_drop_succ _ _
      have hvals : (deleteRequest s.heap s.requests[i]).map HeapCell.value
          = s.heap.map HeapCell.value := deleteRequest_values _ _
      obtain ⟨ihr, ihh⟩ := ih { s with
            heap := deleteRequest s.heap s.requests[i]
            requests := s.requests.eraseIdx i } (by simp only [List.length_eraseIdx, hlt, if_true]; omega)
      have hfun : ResourceServer.isCompleteAt { s with
            heap := deleteRequest s.heap s.requests[i]
            requests := s.requests.eraseIdx i } = s.isCompleteAt :=
        isCompleteAt_congr _ _ hvals
      simp only [hfun] at ihr
      constructor
      · rw [ihr, he, htake, List.filter_append]
        have h1 : (s.requests.take i ++ s.requests.drop (i + 1)).take i = s.requests.take i := by
          rw [List.take_append_of_le_length (by omega), List.take_of_length_le (by omega)]
        have h2 : (s.requests.take i ++ s.requests.drop (i + 1)).drop i
            = s.requests.drop (i + 1) := by
          rw [List.drop_append_of_le_length (by omega), List.drop_of_length_le (by omega)]
          rfl
        rw [h1, h2]
        simp [hc]
      · rw [ihh, hvals]
    · simp only [hc, Bool.false_eq_true, if_false]
      obtain ⟨ihr, ihh⟩ := ih s (by omega)
      constructor
      · rw [ihr, htake, List.filter_append, hdrop]
        simp [hc]
      · exact ihh

/-! ## Theorems: the invariant of the registry -/

/-- The invariant only reads the exit flag, the values in the heap, the request
list, the task list and the counter. -/
theorem Invariant_congr (s t : ResourceServer) (h : s.Invariant)
    (h1 : t.isExiting = s.isExiting)
    (h2 : t.heap.map HeapCell.value = s.heap.map HeapCell.value)
    (h3 : t.requests = s.requests)
    (h4 : t.activeTasks = s.activeTasks) (h5 : t.numScheduledTasks = s.numScheduledTasks) :
    t.Invariant := by
  have hc : t.isCompleteAt = s.isCompleteAt := isCompleteAt_congr s t h2
  have hh : t.heldRequests = s.heldRequests := by simp [ResourceServer.heldRequests, h4]
  have hlen : t.heap.length = s.heap.length := by
    have := congrArg List.length h2
    simpa using this
  constructor
  · rw [hh]; exact h.held_nodup
  · rw [hh, hlen]; exact h.held_allocated
  · rw [h3, hlen]; exact h.requests_allocated
  · rw [h5, h4]; exact h.counter
  · rw [h1, h4, hc]; exact h.finished_complete
  · rw [h1, h3, hc, hh]; exact h.pending_held

/-- With the exit flag clear, a run of the task leaves the request complete. -/
theorem ExecuteRange_complete (codes : CompilationResult) (path : String)
    (run : SubprocessRun) (r : CompilationRequest) :
    (CompilationTask.ExecuteRange codes false path run r).request.IsComplete = true := by
  by_cases hr : r.IsComplete = true
  · rw [ExecuteRange_skip codes false path run r (Or.inr hr)]; exact hr
  · have hr' : r.IsComplete = false := by simpa using hr
    unfold CompilationTask.ExecuteRange
    simp only [hr', Bool.not_false, Bool.and_self, if_true]
    split
    · rfl
    · split
      · rfl
      · simp only [CompilationRequest.IsComplete, CompilationRequest.HasSucceeded,
          statusOfExitCode]
        split_ifs <;> rfl

/-- `CreateResourceRequest` keeps the invariant. -/
theorem Invariant_create (env : Environment) (resourceID : ResourceID) (clientID : Nat)
    (origin : Origin) (s : ResourceServer) (h : s.Invariant) :
    (s.CreateResourceRequest env resourceID clientID origin).2.Invariant := by
  have hold : ∀ p, p < s.heap.length →
      (s.CreateResourceRequest env resourceID clientID origin).2.isCompleteAt p
        = s.isCompleteAt p := by
    intro p hp
    simp [ResourceServer.isCompleteAt, ResourceServer.CreateResourceRequest,
      List.getElem?_append_left hp]
  have hheld : (s.CreateResourceRequest env resourceID clientID origin).2.heldRequests
      = s.heldRequests ++ [s.heap.length] := by
    simp [ResourceServer.heldRequests, ResourceServer.CreateResourceRequest]
  have hlen : (s.CreateResourceRequest env resourceID clientID origin).2.heap.length
      = s.heap.length + 1 := by
    simp [ResourceServer.CreateResourceRequest]
  have hreq : (s.CreateResourceRequest env resourceID clientID origin).2.requests
      = s.requests ++ [s.heap.length] := rfl
  have htasks : (s.CreateResourceRequest env resourceID clientID origin).2.activeTasks
      = s.activeTasks ++ [{ pRequest := s.heap.length, isComplete := false }] := rfl
  have hex : (s.CreateResourceRequest env resourceID clientID origin).2.isExiting
      = s.isExiting := rfl
  constructor
  · rw [hheld]
    refine List.Nodup.append h.held_nodup (List.nodup_singleton _) ?_
    intro p hp hq
    have := h.held_allocated p hp
    simp at hq
    omega
  · rw [hheld, hlen]
    intro p hp
    rcases List.mem_append.mp hp with hp | hp
    · have := h.held_allocated p hp; omega
    · simp at hp; omega
  · rw [hreq, hlen]
    intro p hp
    rcases List.mem_append.mp hp with hp | hp
    · have := h.requests_allocated p hp; omega
    · simp at hp; omega
  · simp [ResourceServer.CreateResourceRequest, h.counter]
  · rw [hex, htasks]
    intro hx task ht hc
    rcases List.mem_append.mp ht with ht | ht
    · have hlt := h.held_allocated task.pRequest
        (List.mem_map_of_mem CompilationTask.pRequest ht)
      rw [hold _ hlt]
      exact h.finished_complete hx task ht hc
    · simp at ht
      rw [ht] at hc
      cases hc
  · rw [hex, hreq, hheld]
    intro hx p hp hc
    rcases List.mem_append.mp hp with hp | hp
    · have hlt := h.requests_allocated p hp
      rw [hold _ hlt] at hc
      exact List.mem_append_left _ (h.pending_held hx p hp hc)
    · exact List.mem_append_right _ hp

/-- Marking a task complete does not change the request it holds. -/
theorem map_pRequest_set (tasks : List CompilationTask) (i : Nat) (task : CompilationTask)
    (h : tasks[i]? = some task) :
    (tasks.set i { task with isComplete := true }).map CompilationTask.pRequest
      = tasks.map CompilationTask.pRequest := by
  apply List.ext_getElem?
  intro j
  simp only [List.getElem?_map, List.getElem?_set]
  by_cases hij : i = j
  · subst hij
    have hlt : i < tasks.length := (List.getElem?_eq_some.mp h).1
    simp [hlt, h]
  · simp [hij]

/-- A worker running a task keeps the invariant. -/
theorem Invariant_executeTask (env : Environment) (run : SubprocessRun) (i : Nat)
    (s : ResourceServer) (h : s.Invariant) : (s.executeTask env run i).Invariant := by
  rcases executeTask_eq env run i s with he | ⟨task, cell, hti, -, hcell, he⟩
  · rw [he]; exact h
  · rw [he]
    have hlt : task.pRequest < s.heap.length := (List.getElem?_eq_some.mp hcell).1
    have hmem : task ∈ s.activeTasks := List.getElem?_mem hti
    -- a complete request stays complete
    have hmono : ∀ q, s.isCompleteAt q = true →
        ResourceServer.isCompleteAt { s with
          heap := s.heap.set task.pRequest
            { cell with value := (CompilationTask.ExecuteRange env.compilationResult
                s.isExiting env.compilerExecutablePath run cell.value).request }
          activeTasks := s.activeTasks.set i { task with isComplete := true } } q = true := by
      intro q hq
      by_cases hqp : task.pRequest = q
      · subst hqp
        have hv : cell.value.IsComplete = true := by
          simpa [ResourceServer.isCompleteAt, hcell] using hq
        simp [ResourceServer.isCompleteAt, List.getElem?_set, hlt,
          ExecuteRange_skip env.compilationResult s.isExiting env.compilerExecutablePath
            run cell.value (Or.inr hv), hv]
      · simpa [ResourceServer.isCompleteAt, List.getElem?_set_ne hqp] using hq
    have hdone : s.isExiting = false →
        ResourceServer.isCompleteAt { s with
          heap := s.heap.set task.pRequest
            { cell with value := (CompilationTask.ExecuteRange env.compilationResult
                s.isExiting env.compilerExecutablePath run cell.value).request }
          activeTasks := s.activeTasks.set i { task with isComplete := true } }
          task.pRequest = true := by
      intro hx
      simp [ResourceServer.isCompleteAt, List.getElem?_set, hlt, hx, ExecuteRange_complete]
    have hheld : ResourceServer.heldRequests { s with
          heap := s.heap.set task.pRequest
            { cell with value := (CompilationTask.ExecuteRange env.compilationResult
                s.isExiting env.compilerExecutablePath run cell.value).request }
          activeTasks := s.activeTasks.set i { task with isComplete := true } }
        = s.heldRequests := map_pRequest_set s.activeTasks i task hti
    constructor
    · rw [hheld]; exact h.held_nodup
    · rw [hheld]; simpa using h.held_allocated
    · simpa using h.requests_allocated
    · simpa using h.counter
    · intro hx t ht hc
      have hx' : s.isExiting = false := hx
      rcases List.mem_or_eq_of_mem_set ht with ht | ht
      · exact hmono _ (h.finished_complete hx' t ht (by simpa using hc))
      · subst ht
        exact hdone hx'
    · intro hx p hp hc
      rw [hheld]
      have hx' : s.isExiting = false := hx
      refine h.pending_held hx' p hp ?_
      by_contra hcon
      have := hmono p (by simpa using hcon)
      rw [this] at hc
      cases hc

/-- What `ProcessCompletedRequests` leaves: the unfinished tasks, in some order, and
a counter lowered by the number of finished tasks. -/
theorem ProcessCompletedRequests_tasks (connectedClients : List Nat) (s : ResourceServer) :
    (s.ProcessCompletedRequests connectedClients).activeTasks.Perm
        (s.activeTasks.filter (fun task => !task.isComplete))
    ∧ (s.ProcessCompletedRequests connectedClients).numScheduledTasks
        = s.numScheduledTasks - (s.activeTasks.countP (fun task => task.isComplete) : Nat) := by
  have h := reapLoop_tasks connectedClients s.activeTasks.length s (Nat.le_refl _)
  simpa [ResourceServer.ProcessCompletedRequests] using h

/-- `ProcessCompletedRequests` changes the task list, the counter and the messages
sent, nothing else. -/
theorem ProcessCompletedRequests_frame (connectedClients : List Nat) (s : ResourceServer) :
    { s.ProcessCompletedRequests connectedClients with
      activeTasks := s.activeTasks, numScheduledTasks := s.numScheduledTasks
      sent := s.sent } = s :=
  reapLoop_frame connectedClients s.activeTasks.length s

/-- `ProcessCompletedRequests` keeps the invariant. -/
theorem Invariant_reap (connectedClients : List Nat) (s : ResourceServer)
    (h : s.Invariant) : (s.ProcessCompletedRequests connectedClients).Invariant := by
  obtain ⟨hperm, hnum⟩ := ProcessCompletedRequests_tasks connectedClients s
  have hframe := ProcessCompletedRequests_frame connectedClients s
  have hheap : (s.ProcessCompletedRequests connectedClients).heap = s.heap := by
    have := congrArg ResourceServer.heap hframe
    exact this
  have hreq : (s.ProcessCompletedRequests connectedClients).requests = s.requests := by
    have := congrArg ResourceServer.requests hframe
    exact this
  have hex : (s.ProcessCompletedRequests connectedClients).isExiting = s.isExiting := by
    have := congrArg ResourceServer.isExiting hframe
    exact this
  have hc : (s.ProcessCompletedRequests connectedClients).isCompleteAt = s.isCompleteAt :=
    isCompleteAt_congr _ _ (by rw [hheap])
  have hheldperm : (s.ProcessCompletedRequests connectedClients).heldRequests.Perm
      ((s.activeTasks.filter (fun task => !task.isComplete)).map CompilationTask.pRequest) :=
    hperm.map _
  have hsub : ((s.activeTasks.filter (fun task => !task.isComplete)).map
      CompilationTask.pRequest).Sublist s.heldRequests :=
    (List.filter_sublist _).map _
  constructor
  · exact hheldperm.nodup_iff.mpr (h.held_nodup.sublist hsub)
  · intro p hp
    rw [hheap]
    exact h.held_allocated p (hsub.subset (hheldperm.subset hp))
  · rw [hreq, hheap]; exact h.requests_allocated
  · rw [hnum, hperm.length_eq, h.counter]
    have h1 := List.length_eq_countP_add_countP (fun task : CompilationTask => task.isComplete)
      s.activeTasks
    have h2 : (s.activeTasks.filter (fun task => !task.isComplete)).length
        = s.activeTasks.countP (fun task => !task.isComplete) :=
      (List.countP_eq_length_filter _ _).symm
    have h3 : s.activeTasks.countP (fun task => !task.isComplete)
        = s.activeTasks.countP (fun a => ¬ (a.isComplete = true)) := by
      congr 1; funext a; simp
    rw [h2, h3]
    omega
  · rw [hex, hc]
    intro hx task ht hcomp
    have := (List.mem_filter.mp (hperm.subset ht)).2
    simp [hcomp] at this
  · rw [hex, hreq, hc]
    intro hx p hp hcomp
    obtain ⟨task, ht, hpt⟩ := List.mem_map.mp (h.pending_held hx p hp hcomp)
    have hnc : task.isComplete = false := by
      by_contra hcon
      have := h.finished_complete hx task ht (by simpa using hcon)
      rw [hpt, hcomp] at this
      cases this
    exact hheldperm.symm.subset
      (List.mem_map.mpr ⟨task, List.mem_filter.mpr ⟨ht, by simp [hnc]⟩, hpt⟩)

/-- What the cleanup block leaves when the flag is set: the entries of the request
list that are not complete, in order; no value in the heap changes. -/
theorem cleanup_spec (s : ResourceServer) :
    s.cleanup.requests
        = (if s.cleanupRequested then s.requests.filter (fun p => !s.isCompleteAt p)
           else s.requests)
    ∧ s.cleanup.heap.map HeapCell.value = s.heap.map HeapCell.value
    ∧ s.cleanup.cleanupRequested = false
    ∧ { s.cleanup with
        heap := s.heap, requests := s.requests, cleanupRequested := s.cleanupRequested } = s := by
  by_cases hflag : s.cleanupRequested = true
  · obtain ⟨h1, h2⟩ := cleanupLoop_spec s.requests.length s (Nat.le_refl _)
    have h3 := cleanupLoop_frame s.requests.length s
    have hcl : s.cleanup
        = { ResourceServer.cleanupLoop s.requests.length s with cleanupRequested := false } := by
      simp [ResourceServer.cleanup, hflag]
    rw [hcl]
    refine ⟨?_, h2, rfl, ?_⟩
    · rw [if_pos hflag]
      simpa using h1
    · have h4 := congrArg (fun t : ResourceServer =>
        { t with cleanupRequested := s.cleanupRequested }) h3
      exact h4
  · have hcl : s.cleanup = s := by simp [ResourceServer.cleanup, hflag]
    rw [hcl]
    refine ⟨by rw [if_neg hflag], rfl, by simpa using hflag, rfl⟩

/-- The cleanup block keeps the invariant. -/
theorem Invariant_cleanup (s : ResourceServer) (h : s.Invariant) : s.cleanup.Invariant := by
  obtain ⟨hreq, hvals, -, hframe⟩ := cleanup_spec s
  have htasks : s.cleanup.activeTasks = s.activeTasks := by
    have := congrArg ResourceServer.activeTasks hframe
    exact this
  have hex : s.cleanup.isExiting = s.isExiting := by
    have := congrArg ResourceServer.isExiting hframe
    exact this
  have hnum : s.cleanup.numScheduledTasks = s.numScheduledTasks := by
    have := congrArg ResourceServer.numScheduledTasks hframe
    exact this
  have hc : s.cleanup.isCompleteAt = s.isCompleteAt := isCompleteAt_congr _ _ hvals
  have hlen : s.cleanup.heap.length = s.heap.length := by
    have := congrArg List.length hvals
    simpa using this
  have hheld : s.cleanup.heldRequests = s.heldRequests := by
    simp [ResourceServer.heldRequests, htasks]
  have hsub : ∀ p ∈ s.cleanup.requests, p ∈ s.requests := by
    intro p hp
    rw [hreq] at hp
    split at hp
    · exact (List.mem_filter.mp hp).1
    · exact hp
  constructor
  · rw [hheld]; exact h.held_nodup
  · rw [hheld, hlen]; exact h.held_allocated
  · rw [hlen]; exact fun p hp => h.requests_allocated p (hsub p hp)
  · rw [hnum, htasks]; exact h.counter
  · rw [hex, htasks, hc]; exact h.finished_complete
  · rw [hex, hc, hheld]
    exact fun hx p hp hcomp => h.pending_held hx p (hsub p hp) hcomp

/-- A property kept by every step of a fold is kept by the fold. -/
theorem foldl_keeps {α β : Type} (P : β → Prop) (f : β → α → β)
    (hf : ∀ b a, P b → P (f b a)) : ∀ (l : List α) (b : β), P b → P (l.foldl f b) := by
  intro l
  induction l with
  | nil => intro b hb; exact hb
  | cons a l ih => intro b hb; exact ih (f b a) (hf b a hb)

/-- The initial server satisfies the invariant. -/
theorem Invariant_init : ResourceServer.init.Invariant := by
  constructor <;> simp [ResourceServer.init, ResourceServer.heldRequests]

/-- Processing the inbound messages keeps the invariant. -/
theorem Invariant_ProcessIncomingMessages (env : Environment) (incoming : List IncomingMessage)
    (s : ResourceServer) (h : s.Invariant) :
    (s.ProcessIncomingMessages env incoming).Invariant := by
  unfold ResourceServer.ProcessIncomingMessages
  refine foldl_keeps ResourceServer.Invariant _ ?_ incoming s h
  intro st message hst
  split
  · exact Invariant_create env _ _ _ st hst
  · exact hst

/-- A file change keeps the invariant. -/
theorem Invariant_OnFileModified (env : Environment) (e : FileModified)
    (s : ResourceServer) (h : s.Invariant) : (s.OnFileModified env e).Invariant := by
  unfold ResourceServer.OnFileModified
  split
  · exact h
  · split
    · exact h
    · exact Invariant_create env _ _ _ s h

/-- A worker running the packaging task keeps the invariant. -/
theorem Invariant_executePackagingTask (env : Environment) (fuel : Nat)
    (s : ResourceServer) (h : s.Invariant) : (s.executePackagingTask env fuel).Invariant := by
  unfold ResourceServer.executePackagingTask
  split
  · exact h
  · split
    · exact h
    · split
      · exact h
      · exact Invariant_congr s _ h rfl rfl rfl rfl rfl

/-- The packaging block of `Update` keeps the invariant. -/
theorem Invariant_updatePackaging (env : Environment) (s : ResourceServer)
    (h : s.Invariant) : (s.updatePackaging env).Invariant := by
  unfold ResourceServer.updatePackaging
  split
  · split
    · exact h
    · split
      · rename_i task _ _
        have hfold : (task.runtimeDependencies.foldl
            (fun st resourceID =>
              let created := st.CreateResourceRequest env resourceID 0 Origin.Package
              { created.2 with packagingRequests := created.2.packagingRequests ++ [created.1] })
            s).Invariant := by
          refine foldl_keeps ResourceServer.Invariant _ ?_ task.runtimeDependencies s h
          intro st resourceID hst
          exact Invariant_congr _ _ (Invariant_create env resourceID 0 Origin.Package st hst)
            rfl rfl rfl rfl rfl
        exact Invariant_congr _ _ hfold rfl rfl rfl rfl rfl
      · exact h
  · split
    · split
      · exact Invariant_congr s _ h rfl rfl rfl rfl rfl
      · exact h
    · exact h

/-- `Update` keeps the invariant. -/
theorem Invariant_Update (env : Environment) (input : UpdateInput) (s : ResourceServer)
    (h : s.Invariant) : (s.Update env input).Invariant := by
  unfold ResourceServer.Update
  have h1 : (if input.networkIsRunning = true then s.ProcessIncomingMessages env input.incoming
      else s).Invariant := by
    split
    · exact Invariant_ProcessIncomingMessages env _ s h
    · exact h
  have h4 := Invariant_cleanup _
    (Invariant_reap input.connectedClients _ (Invariant_updatePackaging env _ h1))
  simp only
  split
  · exact foldl_keeps ResourceServer.Invariant _
      (fun st e hst => Invariant_OnFileModified env e st hst) input.fileEvents _ h4
  · exact h4

/-- Waiting for the workers keeps the invariant. -/
theorem Invariant_WaitForAll (env : Environment) (runs : Nat → SubprocessRun) (fuel : Nat)
    (s : ResourceServer) (h : s.Invariant) : (s.WaitForAll env runs fuel).Invariant := by
  unfold ResourceServer.WaitForAll
  exact Invariant_executePackagingTask env fuel _
    (foldl_keeps ResourceServer.Invariant _
      (fun st i hst => Invariant_executeTask env (runs i) i st hst) _ s h)

/-- The first part of `Shutdown` keeps the invariant. -/
theorem Invariant_shutdownCompleteScheduled (env : Environment) (runs : Nat → SubprocessRun)
    (connectedClients : List Nat) (s : ResourceServer) (h : s.Invariant) :
    (s.shutdownCompleteScheduled env runs connectedClients).Invariant := by
  unfold ResourceServer.shutdownCompleteScheduled
  refine Invariant_reap _ _ (Invariant_WaitForAll env runs 1 _ ?_)
  exact { held_nodup := h.held_nodup, held_allocated := h.held_allocated
          requests_allocated := h.requests_allocated, counter := h.counter
          finished_complete := fun hx => by cases hx
          pending_held := fun hx => by cases hx }

/-- Deleting requests leaves every value of the heap in place. -/
theorem foldl_deleteRequest_values (ps : List Nat) (heap : List HeapCell) :
    (ps.foldl deleteRequest heap).map HeapCell.value = heap.map HeapCell.value := by
  induction ps generalizing heap with
  | nil => rfl
  | cons p ps ih => rw [List.foldl_cons, ih, deleteRequest_values]

/-- The second part of `Shutdown` keeps the invariant. -/
theorem Invariant_shutdownRelease (s : ResourceServer) (h : s.Invariant) :
    s.shutdownRelease.Invariant := by
  have hvals : s.shutdownRelease.heap.map HeapCell.value = s.heap.map HeapCell.value :=
    foldl_deleteRequest_values _ _
  have hc : s.shutdownRelease.isCompleteAt = s.isCompleteAt := isCompleteAt_congr s _ hvals
  have hlen : s.shutdownRelease.heap.length = s.heap.length := by
    have := congrArg List.length hvals
    simpa using this
  constructor
  · exact h.held_nodup
  · rw [hlen]; exact h.held_allocated
  · intro p hp; cases hp
  · exact h.counter
  · rw [hc]; exact h.finished_complete
  · intro _ p hp; cases hp

/-- Every step keeps the invariant. -/
theorem Invariant_step (env : Environment) (s : ResourceServer) (st : Step)
    (h : s.Invariant) : (s.step env st).Invariant := by
  cases st with
  | create resourceID clientID origin => exact Invariant_create env _ _ _ s h
  | executeTask i run => exact Invariant_executeTask env run i s h
  | executePackagingTask fuel => exact Invariant_executePackagingTask env fuel s h
  | reap connectedClients => exact Invariant_reap connectedClients s h
  | requestCleanup => exact Invariant_congr s _ h rfl rfl rfl rfl rfl
  | cleanup => exact Invariant_cleanup s h
  | update input => exact Invariant_Update env input s h
  | fileModified e => exact Invariant_OnFileModified env e s h
  | addMap mapResourceID => exact Invariant_congr s _ h rfl rfl rfl rfl rfl
  | removeMap mapResourceID => exact Invariant_congr s _ h rfl rfl rfl rfl rfl
  | startPackaging =>
    simp only [ResourceServer.step]
    split
    · exact Invariant_congr s _ h rfl rfl rfl rfl rfl
    · exact h
  | shutdownCompleteScheduled runs connectedClients =>
    exact Invariant_shutdownCompleteScheduled env runs connectedClients s h
  | shutdownRelease => exact Invariant_shutdownRelease s h

/-- A run keeps the invariant. -/
theorem Invariant_run (env : Environment) (steps : List Step) (s : ResourceServer)
    (h : s.Invariant) : (s.run env steps).Invariant :=
  foldl_keeps ResourceServer.Invariant _ (fun st a hst => Invariant_step env st a hst) steps s h

/-- Every state the server reaches satisfies the invariant. -/
theorem Invariant_of_reachable (env : Environment) (s : ResourceServer)
    (h : Reachable env s) : s.Invariant := by
  obtain ⟨steps, rfl⟩ := h
  exact Invariant_run env steps _ Invariant_init

/-! ## Theorems: conservation and ownership -/

/-- The number of holders of an address is its multiplicity among the held addresses. -/
theorem holders_eq_count (s : ResourceServer) (p : Nat) :
    s.holders p = s.heldRequests.count p := by
  simp only [ResourceServer.holders, ResourceServer.heldRequests, List.count, List.countP_map]
  rfl

/-- One registry step changes the length of the request list by the call it makes
and by the entries it evicts. -/
theorem registry_step_requests (env : Environment) (s : ResourceServer) (st : Step)
    (hst : st.isRegistryStep = true) :
    (s.step env st).requests.length + numEvicted env s [st]
      = s.requests.length + numCreateCalls [st] := by
  cases st with
  | create resourceID clientID origin =>
    simp [ResourceServer.step, ResourceServer.CreateResourceRequest, numEvicted, numCreateCalls]
  | executeTask i run =>
    have : (s.executeTask env run i).requests = s.requests := by
      rcases executeTask_eq env run i s with he | ⟨task, cell, -, -, -, he⟩ <;> rw [he]
    simp [ResourceServer.step, numEvicted, numCreateCalls, this]
  | reap connectedClients =>
    have : (s.ProcessCompletedRequests connectedClients).requests = s.requests := by
      have := congrArg ResourceServer.requests (ProcessCompletedRequests_frame connectedClients s)
      exact this
    simp [ResourceServer.step, numEvicted, numCreateCalls, this]
  | requestCleanup => simp [ResourceServer.step, numEvicted, numCreateCalls]
  | cleanup =>
    have hreq := (cleanup_spec s).1
    simp only [ResourceServer.step, numEvicted, numCreateCalls, hreq, List.countP_cons,
      List.countP_nil]
    by_cases hflag : s.cleanupRequested = true
    · simp only [hflag, if_true]
      have h1 := List.length_eq_countP_add_countP s.isCompleteAt s.requests
      have h2 : (s.requests.filter (fun p => !s.isCompleteAt p)).length
          = s.requests.countP (fun p => !s.isCompleteAt p) :=
        (List.countP_eq_length_filter _ _).symm
      have h3 : s.requests.countP (fun p => !s.isCompleteAt p)
          = s.requests.countP (fun a => ¬ (s.isCompleteAt a = true)) := by
        congr 1; funext a; simp
      rw [h2, h3]
      simp
      omega
    · simp [hflag]
  | executePackagingTask fuel => cases hst
  | update input => cases hst
  | fileModified e => cases hst
  | addMap mapResourceID => cases hst
  | removeMap mapResourceID => cases hst
  | startPackaging => cases hst
  | shutdownCompleteScheduled runs connectedClients => cases hst
  | shutdownRelease => cases hst

/-- Along a run of registry steps the request list grows by the calls of
`CreateResourceRequest` and shrinks by the evictions. -/
theorem registry_run_requests (env : Environment) :
    ∀ (steps : List Step) (s : ResourceServer),
      (∀ st ∈ steps, st.isRegistryStep = true) →
      (s.run env steps).requests.length + numEvicted env s steps
        = s.requests.length + numCreateCalls steps := by
  intro steps
  induction steps with
  | nil => intro s _; simp [ResourceServer.run, numEvicted, numCreateCalls]
  | cons st rest ih =>
    intro s hsteps
    have h1 := registry_step_requests env s st (hsteps st (List.mem_cons_self _ _))
    have h2 := ih (s.step env st) (fun a ha => hsteps a (List.mem_cons_of_mem _ ha))
    have hrun : s.run env (st :: rest) = (s.step env st).run env rest := rfl
    have hcalls : numCreateCalls (st :: rest) = numCreateCalls [st] + numCreateCalls rest := by
      simp only [numCreateCalls, List.countP_cons, List.countP_nil]
      omega
    have hev : numEvicted env s (st :: rest)
        = numEvicted env s [st] + numEvicted env (s.step env st) rest := by
      simp [numEvicted]
    rw [hrun, hcalls, hev]
    omega

/-- C9: starting from the empty registry, after any finite sequence of
`CreateResourceRequest` calls, task executions, `ProcessCompletedRequests`
passes and cleanup passes, `m_numScheduledTasks` equals the length of
`m_activeTasks`, and the length of `m_requests` plus the number of requests
evicted by cleanup equals the number of create calls. -/
theorem C9_conservation (env : Environment) (steps : List Step)
    (hsteps : ∀ st ∈ steps, st.isRegistryStep = true) :
    (ResourceServer.init.run env steps).numScheduledTasks
        = (ResourceServer.init.run env steps).activeTasks.length
    ∧ (ResourceServer.init.run env steps).requests.length
          + numEvicted env ResourceServer.init steps
        = numCreateCalls steps := by
  constructor
  · exact (Invariant_of_reachable env _ ⟨steps, rfl⟩).counter
  · have := registry_run_requests env steps ResourceServer.init hsteps
    simpa [ResourceServer.init] using this

/-- Witness of C9: in the example run two requests are created and one is evicted;
one request and no task remain. -/
theorem C9_conservation_witness :
    (∀ st ∈ exampleRegistryRun, st.isRegistryStep = true)
    ∧ (ResourceServer.init.run exampleEnv exampleRegistryRun).numScheduledTasks
        = (ResourceServer.init.run exampleEnv exampleRegistryRun).activeTasks.length
    ∧ (ResourceServer.init.run exampleEnv exampleRegistryRun).requests.length
          + numEvicted exampleEnv ResourceServer.init exampleRegistryRun
        = numCreateCalls exampleRegistryRun
    ∧ numCreateCalls exampleRegistryRun = 2
    ∧ numEvicted exampleEnv ResourceServer.init exampleRegistryRun = 1 :=
  ⟨by decide, (C9_conservation exampleEnv exampleRegistryRun (by decide)).1,
    (C9_conservation exampleEnv exampleRegistryRun (by decide)).2, by decide, by decide⟩

/-- C10, at the failing input: a request is created for client 7 and `Shutdown` is
called before a worker has run its task. When the workers have drained the
request is `Pending` and held by exactly one task, which has finished without
touching it; the reap pass of `Shutdown` removes that task, against its own
assertion that the request of a finished task is complete. At the assertion
on `m_numScheduledTasks` the request is still in `m_requests`, not deleted
and `Pending`, and no task holds it. -/
theorem C10_shutdown_leaves_pending_request_unheld :
    Reachable exampleEnv
      (ResourceServer.init.run exampleEnv [Step.create animResourceID 7 Origin.External])
    ∧ ((ResourceServer.init.run exampleEnv
        [Step.create animResourceID 7 Origin.External]).shutdownWait exampleEnv
          (fun _ => exampleRun 1)).holders 0 = 1
    ∧ (((ResourceServer.init.run exampleEnv
        [Step.create animResourceID 7 Origin.External]).shutdownWait exampleEnv
          (fun _ => exampleRun 1)).request? 0).map CompilationRequest.IsComplete = some false
    ∧ ((ResourceServer.init.run exampleEnv
        [Step.create animResourceID 7 Origin.External]).shutdownWait exampleEnv
          (fun _ => exampleRun 1)).reapAsserts [7] = false
    ∧ ResourceServer.init.run exampleEnv exampleShutdownRun
      = ((ResourceServer.init.run exampleEnv
          [Step.create animResourceID 7 Origin.External]).shutdownWait exampleEnv
            (fun _ => exampleRun 1)).ProcessCompletedRequests [7]
    ∧ 0 ∈ (ResourceServer.init.run exampleEnv exampleShutdownRun).requests
    ∧ (ResourceServer.init.run exampleEnv exampleShutdownRun).isDangling 0 = false
    ∧ ((ResourceServer.init.run exampleEnv exampleShutdownRun).request? 0).map
        CompilationRequest.status = some Status.Pending
    ∧ ((ResourceServer.init.run exampleEnv exampleShutdownRun).request? 0).map
        CompilationRequest.IsComplete = some false
    ∧ (ResourceServer.init.run exampleEnv exampleShutdownRun).activeTasks = []
    ∧ (ResourceServer.init.run exampleEnv exampleShutdownRun).holders 0 = 0 :=
  ⟨⟨_, rfl⟩, by decide, by decide, by decide, rfl, by decide, by decide, by decide,
    by decide, by decide, by decide⟩

/-! ## Theorems: the cleanup pass -/

/-- The cleanup loop leaves the object of every request that is not complete as it is. -/
theorem cleanupLoop_keeps_pending :
    ∀ (n : Nat) (s : ResourceServer) (q : Nat), s.isCompleteAt q = false →
      (ResourceServer.cleanupLoop n s).heap[q]? = s.heap[q]? := by
  intro n
  induction n with
  | zero => intro s q _; rfl
  | succ i ih =>
    intro s q hq
    unfold ResourceServer.cleanupLoop
    split
    · exact ih s q hq
    · split
      · rename_i p _ hc
        have hne : p ≠ q := by
          intro h
          rw [h, hq] at hc
          cases hc
        have hfun : ResourceServer.isCompleteAt { s with
              heap := deleteRequest s.heap p
              requests := s.requests.eraseIdx i } = s.isCompleteAt :=
          isCompleteAt_congr _ _ (deleteRequest_values _ _)
        rw [ih _ q (by rw [hfun]; exact hq)]
        simp only [deleteRequest]
        exact List.getElem?_modify_ne _ _ hne
      · exact ih s q hq

/-- C11: when cleanup is requested, the cleanup pass of `Update` leaves `m_requests`
equal to the subsequence of its former entries that are not complete, in their
original order; every complete entry is evicted; no value of a request changes
and the object of a request that is not complete is left as it is; the flag
`m_cleanupRequested` is false afterwards. -/
theorem C11_cleanup_evicts_exactly_the_complete_requests (s : ResourceServer)
    (hflag : s.cleanupRequested = true) :
    s.cleanup.requests = s.requests.filter (fun p => !s.isCompleteAt p)
    ∧ s.cleanup.requests.Sublist s.requests
    ∧ (∀ p ∈ s.requests, s.isCompleteAt p = true → p ∉ s.cleanup.requests)
    ∧ (∀ p ∈ s.requests, s.isCompleteAt p = false →
        p ∈ s.cleanup.requests ∧ s.cleanup.heap[p]? = s.heap[p]?)
    ∧ (∀ p, s.cleanup.request? p = s.request? p)
    ∧ s.cleanup.cleanupRequested = false := by
  obtain ⟨hreq, hvals, hcr, -⟩ := cleanup_spec s
  rw [if_pos hflag] at hreq
  have hheap : ∀ q, s.isCompleteAt q = false → s.cleanup.heap[q]? = s.heap[q]? := by
    intro q hq
    have hcl : s.cleanup
        = { ResourceServer.cleanupLoop s.requests.length s with cleanupRequested := false } := by
      simp [ResourceServer.cleanup, hflag]
    rw [hcl]
    exact cleanupLoop_keeps_pending _ s q hq
  refine ⟨hreq, ?_, ?_, ?_, ?_, hcr⟩
  · rw [hreq]; exact List.filter_sublist _
  · intro p _ hc hmem
    rw [hreq] at hmem
    have := (List.mem_filter.mp hmem).2
    simp [hc] at this
  · intro p hp hc
    refine ⟨?_, hheap p hc⟩
    rw [hreq]
    exact List.mem_filter.mpr ⟨hp, by simp [hc]⟩
  · intro p
    have := congrArg (fun l : List CompilationRequest => l[p]?) hvals
    simpa [ResourceServer.request?, List.getElem?_map] using this

/-- Witness of C11: in the example run the cleanup pass evicts the failed request
and keeps the pending one. -/
theorem C11_cleanup_evicts_exactly_the_complete_requests_witness :
    (ResourceServer.init.run exampleEnv exampleRegistryRun.dropLast).requests = [0, 1]
    ∧ (ResourceServer.init.run exampleEnv exampleRegistryRun.dropLast).cleanup.requests = [0]
    ∧ (ResourceServer.init.run exampleEnv exampleRegistryRun.dropLast).cleanup.cleanupRequested
        = false :=
  ⟨by decide,
   (C11_cleanup_evicts_exactly_the_complete_requests
      (ResourceServer.init.run exampleEnv exampleRegistryRun.dropLast) (by decide)).1.trans
      (by decide),
   (C11_cleanup_evicts_exactly_the_complete_requests
      (ResourceServer.init.run exampleEnv exampleRegistryRun.dropLast) (by decide)).2.2.2.2.2⟩

/-! ## Theorems: reaping -/

/-- The messages the reap loop sends: one block per finished task among the first
`n`, from the last index down. -/
theorem reapLoop_sent (connectedClients : List Nat) :
    ∀ (n : Nat) (s : ResourceServer), n ≤ s.activeTasks.length →
      (ResourceServer.reapLoop connectedClients n s).sent
        = s.sent ++ (((s.activeTasks.take n).reverse.filter
            (fun task => task.isComplete)).flatMap
              (fun task => s.completionMessages connectedClients task.pRequest)) := by
  intro n
  induction n with
  | zero => intro s _; simp [ResourceServer.reapLoop]
  | succ i ih =>
    intro s hn
    have hlt : i < s.activeTasks.length := by omega
    have hget : s.activeTasks[i]? = some s.activeTasks[i] := List.getElem?_eq_getElem hlt
    have htake : s.activeTasks.take (i + 1) = s.activeTasks.take i ++ [s.activeTasks[i]] := by
      rw [List.take_succ, hget]; rfl
    unfold ResourceServer.reapLoop
    simp only [hget]
    by_cases hc : s.activeTasks[i].isComplete = true
    · simp only [hc, if_true]
      obtain ⟨h1, -, h3⟩ := eraseUnsorted_spec s.activeTasks i _ hget
      have hih := ih { s with
            sent := s.sent ++ s.completionMessages connectedClients s.activeTasks[i].pRequest
            activeTasks := eraseUnsorted s.activeTasks i
            numScheduledTasks := s.numScheduledTasks - 1 } (by simp only; omega)
      have hmsg : ResourceServer.completionMessages connectedClients { s with
            sent := s.sent ++ s.completionMessages connectedClients s.activeTasks[i].pRequest
            activeTasks := eraseUnsorted s.activeTasks i
            numScheduledTasks := s.numScheduledTasks - 1 }
          = s.completionMessages connectedClients := rfl
      rw [hih, hmsg]
      simp only [h1, htake, List.reverse_append, List.reverse_singleton, List.singleton_append,
        List.filter_cons, hc, if_true, List.flatMap_cons, List.append_assoc]
    · simp only [hc, Bool.false_eq_true, if_false]
      have hc' : s.activeTasks[i].isComplete = false := by simpa using hc
      rw [ih s (by omega), htake]
      simp only [List.reverse_append, List.reverse_singleton, List.singleton_append,
        List.filter_cons, hc', Bool.false_eq_true, if_false]

/-- C20: for every list of active tasks, finished or not, `ProcessCompletedRequests`
leaves as active tasks exactly the tasks that were unfinished, as a multiset;
no finished task remains; the messages sent are, for each finished task once
and from the last index down, those of `NotifyClientOnCompletedRequest` for its
request when `isExiting` is false, and none when it is true; and
`m_numScheduledTasks` drops by exactly the number of finished tasks. -/
theorem C20_reap_visits_every_task_once (connectedClients : List Nat) (s : ResourceServer) :
    (s.ProcessCompletedRequests connectedClients).activeTasks.Perm
        (s.activeTasks.filter (fun task => !task.isComplete))
    ∧ (∀ task ∈ (s.ProcessCompletedRequests connectedClients).activeTasks,
        task.isComplete = false)
    ∧ (s.ProcessCompletedRequests connectedClients).sent
        = s.sent ++ ((s.activeTasks.reverse.filter (fun task => task.isComplete)).flatMap
            (fun task =>
              if s.isExiting then []
              else
                match s.request? task.pRequest with
                | some r => NotifyClientOnCompletedRequest connectedClients r
                | none => []))
    ∧ (s.ProcessCompletedRequests connectedClients).numScheduledTasks
        = s.numScheduledTasks - (s.activeTasks.countP (fun task => task.isComplete) : Nat)
    ∧ (s.ProcessCompletedRequests connectedClients).activeTasks.length
          + s.activeTasks.countP (fun task => task.isComplete)
        = s.activeTasks.length := by
  obtain ⟨hperm, hnum⟩ := ProcessCompletedRequests_tasks connectedClients s
  refine ⟨hperm, ?_, ?_, hnum, ?_⟩
  · intro task ht
    have := (List.mem_filter.mp (hperm.subset ht)).2
    simpa using this
  · have h := reapLoop_sent connectedClients s.activeTasks.length s (Nat.le_refl _)
    rw [List.take_length] at h
    rw [ResourceServer.ProcessCompletedRequests, h]
    congr 2
    funext task
    unfold ResourceServer.completionMessages
    cases s.isExiting <;> rfl
  · rw [hperm.length_eq]
    have h1 := List.length_eq_countP_add_countP (fun task : CompilationTask => task.isComplete)
      s.activeTasks
    have h2 : (s.activeTasks.filter (fun task => !task.isComplete)).length
        = s.activeTasks.countP (fun task => !task.isComplete) :=
      (List.countP_eq_length_filter _ _).symm
    have h3 : s.activeTasks.countP (fun task => !task.isComplete)
        = s.activeTasks.countP (fun a => ¬ (a.isComplete = true)) := by
      congr 1; funext a; simp
    rw [h2, h3]
    omega

/-! ## Theorems: the packaging session -/

/-- When packaging can start: in stage `None` or `Complete`, with a seed map listed. -/
theorem CanStartPackaging_iff (s : ResourceServer) :
    s.CanStartPackaging = true
      ↔ (s.packagingStage = PackagingStage.None ∨ s.packagingStage = PackagingStage.Complete)
        ∧ s.mapsToBePackaged ≠ [] := by
  cases hs : s.packagingStage <;> cases hm : s.mapsToBePackaged <;>
    simp [ResourceServer.CanStartPackaging, hs, hm]

/-- C14: `CanStartPackaging` is true if and only if the stage is `None` or `Complete`
and the seed map list is not empty; `StartPackaging` stores a new packaging
task, not yet run, sets the stage to `Preparing` and changes nothing else, in
particular neither the seed list nor the registry; and when a worker runs the
stored task it expands the seed list of the server. -/
theorem C14_start_packaging (env : Environment) (fuel : Nat) (s : ResourceServer) :
    (s.CanStartPackaging = true
      ↔ (s.packagingStage = PackagingStage.None ∨ s.packagingStage = PackagingStage.Complete)
        ∧ s.mapsToBePackaged ≠ [])
    ∧ (s.CanStartPackaging = true →
        s.StartPackaging
          = { s with
              pPackagingTask := some { runtimeDependencies := [], isComplete := false }
              packagingStage := PackagingStage.Preparing }
        ∧ s.StartPackaging.packagingStage = PackagingStage.Preparing
        ∧ s.StartPackaging.mapsToBePackaged = s.mapsToBePackaged
        ∧ s.StartPackaging.requests = s.requests
        ∧ s.StartPackaging.heap = s.heap
        ∧ s.StartPackaging.activeTasks = s.activeTasks
        ∧ s.StartPackaging.numScheduledTasks = s.numScheduledTasks
        ∧ ∀ deps, PackagingTask.ExecuteRange env s.isExiting fuel s.mapsToBePackaged = some deps →
            (s.StartPackaging.executePackagingTask env fuel).pPackagingTask
              = some { runtimeDependencies := deps, isComplete := true }) := by
  constructor
  · exact CanStartPackaging_iff s
  · intro _
    refine ⟨rfl, rfl, rfl, rfl, rfl, rfl, rfl, ?_⟩
    intro deps hdeps
    have hdeps' : PackagingTask.ExecuteRange env s.StartPackaging.isExiting fuel
        s.StartPackaging.mapsToBePackaged = some deps := hdeps
    simp only [ResourceServer.executePackagingTask, hdeps']
    simp [ResourceServer.StartPackaging]

/-- Witness of C14: with the seed `m1` listed, packaging can start from stage `None`,
and the task that is stored yields `m1, a, b, c` when it runs. -/
theorem C14_start_packaging_witness :
    (ResourceServer.init.AddMapToPackagingList exampleMap).CanStartPackaging = true
    ∧ ((ResourceServer.init.AddMapToPackagingList exampleMap).StartPackaging.executePackagingTask
        packagingEnv 5).pPackagingTask
      = some { runtimeDependencies := [exampleMap, exampleA, exampleB, exampleC]
               isComplete := true } :=
  ⟨by decide,
   ((C14_start_packaging packagingEnv 5
      (ResourceServer.init.AddMapToPackagingList exampleMap)).2 (by decide)).2.2.2.2.2.2.2
      [exampleMap, exampleA, exampleB, exampleC] (by decide)⟩

/-- The unordered erase of the first occurrence removes one occurrence of the value. -/
theorem eraseFirstUnsorted_perm {α : Type} [DecidableEq α] (v : List α) (x : α) :
    (eraseFirstUnsorted v x).Perm (v.erase x) := by
  unfold eraseFirstUnsorted
  by_cases hx : x ∈ v
  · rw [if_pos hx]
    have hlt : v.indexOf x < v.length := List.indexOf_lt_length.mpr hx
    have hget : v[v.indexOf x]? = some v[v.indexOf x] := List.getElem?_eq_getElem hlt
    obtain ⟨h1, h2, -⟩ := eraseUnsorted_spec v (v.indexOf x) _ hget
    rw [← List.eraseIdx_indexOf_eq_erase, List.eraseIdx_eq_take_drop_succ,
      ← List.take_append_drop (v.indexOf x) (eraseUnsorted v (v.indexOf x)), h1]
    exact List.Perm.append_left _ h2
  · rw [if_neg hx, List.erase_of_not_mem hx]

/-- C18 fails: in stage `Preparing`, reached by listing `m1` and starting packaging,
`AddMapToPackagingList` and `RemoveMapFromPackagingList` both change the seed
map list. -/
theorem C18_counterexample_seed_list_changes_while_preparing :
    Reachable packagingEnv
      (ResourceServer.init.run packagingEnv [Step.addMap exampleMap, Step.startPackaging])
    ∧ (ResourceServer.init.run packagingEnv
        [Step.addMap exampleMap, Step.startPackaging]).packagingStage = PackagingStage.Preparing
    ∧ (ResourceServer.init.run packagingEnv
        [Step.addMap exampleMap, Step.startPackaging]).mapsToBePackaged = [exampleMap]
    ∧ ((ResourceServer.init.run packagingEnv
        [Step.addMap exampleMap, Step.startPackaging]).AddMapToPackagingList
          exampleMap2).mapsToBePackaged = [exampleMap, exampleMap2]
    ∧ ((ResourceServer.init.run packagingEnv
        [Step.addMap exampleMap, Step.startPackaging]).RemoveMapFromPackagingList
          exampleMap).mapsToBePackaged = [] :=
  ⟨⟨_, rfl⟩, by decide, by decide, by decide, by decide⟩

/-- C18 as amended: `AddMapToPackagingList` and `RemoveMapFromPackagingList` do not
look at the packaging stage. In every stage, `Preparing` and `Packaging`
included, adding a map that is not listed appends it and adding a listed map
changes nothing; removing a listed map takes out one occurrence of it, the
other entries staying in some order, and removing a map that is not listed
changes nothing. Neither call changes the stage. -/
theorem C18_seed_list_mutations_ignore_the_stage (s : ResourceServer)
    (mapResourceID : ResourceID) :
    (s.AddMapToPackagingList mapResourceID).packagingStage = s.packagingStage
    ∧ (s.RemoveMapFromPackagingList mapResourceID).packagingStage = s.packagingStage
    ∧ (mapResourceID ∉ s.mapsToBePackaged →
        (s.AddMapToPackagingList mapResourceID).mapsToBePackaged
          = s.mapsToBePackaged ++ [mapResourceID])
    ∧ (mapResourceID ∈ s.mapsToBePackaged →
        (s.AddMapToPackagingList mapResourceID).mapsToBePackaged = s.mapsToBePackaged)
    ∧ (s.RemoveMapFromPackagingList mapResourceID).mapsToBePackaged.Perm
        (s.mapsToBePackaged.erase mapResourceID)
    ∧ (mapResourceID ∈ s.mapsToBePackaged →
        (s.RemoveMapFromPackagingList mapResourceID).mapsToBePackaged.length + 1
          = s.mapsToBePackaged.length)
    ∧ (mapResourceID ∉ s.mapsToBePackaged →
        (s.RemoveMapFromPackagingList mapResourceID).mapsToBePackaged
          = s.mapsToBePackaged) := by
  refine ⟨rfl, rfl, ?_, ?_, eraseFirstUnsorted_perm _ _, ?_, ?_⟩
  · intro h
    simp [ResourceServer.AddMapToPackagingList, VectorEmplaceBackUnique, h]
  · intro h
    simp [ResourceServer.AddMapToPackagingList, VectorEmplaceBackUnique, h]
  · intro h
    have := (eraseFirstUnsorted_perm s.mapsToBePackaged mapResourceID).length_eq
    rw [List.length_erase_of_mem h] at this
    have hpos : 0 < s.mapsToBePackaged.length := List.length_pos_of_mem h
    simp only [ResourceServer.RemoveMapFromPackagingList]
    omega
  · intro h
    simp [ResourceServer.RemoveMapFromPackagingList, eraseFirstUnsorted, h]

/-! ## Theorems: shutdown -/

/-- What a worker running the task at index `i` does to the task list: the requests
held stay, every other task stays, and the task at `i` is complete afterwards
when the request it holds was allocated. -/
theorem executeTask_tasks (env : Environment) (run : SubprocessRun) (i : Nat)
    (s : ResourceServer) :
    (s.executeTask env run i).heldRequests = s.heldRequests
    ∧ (s.executeTask env run i).heap.length = s.heap.length
    ∧ (s.executeTask env run i).isExiting = s.isExiting
    ∧ (s.executeTask env run i).requests = s.requests
    ∧ (∀ j, j ≠ i → (s.executeTask env run i).activeTasks[j]? = s.activeTasks[j]?)
    ∧ (∀ t, s.activeTasks[i]? = some t → t.pRequest < s.heap.length →
        ∃ t', (s.executeTask env run i).activeTasks[i]? = some t' ∧ t'.isComplete = true) := by
  rcases executeTask_eq env run i s with he | ⟨task, cell, hti, hnc, hcell, he⟩
  · rw [he]
    refine ⟨rfl, rfl, rfl, rfl, fun _ _ => rfl, ?_⟩
    intro t ht hlt
    refine ⟨t, ht, ?_⟩
    -- nothing happened: the task had run already
    by_contra hcon
    have hcell : ∃ cell, s.heap[t.pRequest]? = some cell :=
      ⟨s.heap[t.pRequest], List.getElem?_eq_getElem hlt⟩
    obtain ⟨cell, hcell⟩ := hcell
    have hne : s.executeTask env run i ≠ s := by
      intro heq
      have h2 := congrArg (fun st : ResourceServer => st.activeTasks[i]?) heq
      simp only [ResourceServer.executeTask, ht, hcon, hcell, Bool.false_eq_true,
        if_false] at h2
      have hlti : i < s.activeTasks.length := (List.getElem?_eq_some.mp ht).1
      rw [List.getElem?_set_self hlti] at h2
      have h3 := Option.some.inj h2
      have h4 := congrArg CompilationTask.isComplete h3
      exact hcon h4.symm
    exact hne he
  · rw [he]
    have hlti : i < s.activeTasks.length := (List.getElem?_eq_some.mp hti).1
    refine ⟨map_pRequest_set s.activeTasks i task hti, by simp, rfl, rfl, ?_, ?_⟩
    · intro j hj
      exact List.getElem?_set_ne (Ne.symm hj)
    · intro t _ _
      exact ⟨_, List.getElem?_set_self hlti, rfl⟩

/-- Running the tasks at the indices below `n`, in order, completes them. -/
theorem executeTask_range (env : Environment) (runs : Nat → SubprocessRun)
    (s : ResourceServer) (hall : ∀ p ∈ s.heldRequests, p < s.heap.length) :
    ∀ n : Nat,
      ((List.range n).foldl (fun st i => st.executeTask env (runs i) i) s).heldRequests
          = s.heldRequests
      ∧ ((List.range n).foldl (fun st i => st.executeTask env (runs i) i) s).heap.length
          = s.heap.length
      ∧ ((List.range n).foldl (fun st i => st.executeTask env (runs i) i) s).isExiting
          = s.isExiting
      ∧ ((List.range n).foldl (fun st i => st.executeTask env (runs i) i) s).requests
          = s.requests
      ∧ ∀ j t, j < n →
          ((List.range n).foldl (fun st i => st.executeTask env (runs i) i) s).activeTasks[j]?
            = some t → t.isComplete = true := by
  intro n
  induction n with
  | zero => exact ⟨rfl, rfl, rfl, rfl, fun j t hj => absurd hj (Nat.not_lt_zero j)⟩
  | succ n ih =>
    obtain ⟨ih1, ih2, ih3, ih4, ih5⟩ := ih
    rw [List.range_succ, List.foldl_append]
    simp only [List.foldl_cons, List.foldl_nil]
    obtain ⟨h1, h2, h3, h4, h5, h6⟩ := executeTask_tasks env (runs n) n
      ((List.range n).foldl (fun st i => st.executeTask env (runs i) i) s)
    refine ⟨h1.trans ih1, h2.trans ih2, h3.trans ih3, h4.trans ih4, ?_⟩
    intro j t hj ht
    by_cases hjn : j = n
    · subst hjn
      have hlen : j < ((List.range j).foldl
          (fun st i => st.executeTask env (runs i) i) s).activeTasks.length := by
        have hl := congrArg List.length h1
        simp only [ResourceServer.heldRequests, List.length_map] at hl
        rw [← hl]
        exact (List.getElem?_eq_some.mp ht).1
      obtain ⟨t', ht', hc⟩ := h6 _ (List.getElem?_eq_getElem hlen) (by
        rw [ih2]
        apply hall
        rw [← ih1]
        exact List.mem_map_of_mem _ (List.getElem_mem _))
      rw [ht'] at ht
      cases ht
      exact hc
    · rw [h5 j hjn] at ht
      exact ih5 j t (by omega) ht

/-- A worker running the packaging task changes the packaging task and nothing else. -/
theorem executePackagingTask_frame (env : Environment) (fuel : Nat) (s : ResourceServer) :
    { s.executePackagingTask env fuel with pPackagingTask := s.pPackagingTask } = s := by
  unfold ResourceServer.executePackagingTask
  split
  · rfl
  · split
    · rfl
    · split <;> rfl

/-- After `WaitForAll` every task has run, in a state that satisfies the invariant. -/
theorem WaitForAll_complete (env : Environment) (runs : Nat → SubprocessRun) (fuel : Nat)
    (s : ResourceServer) (hall : ∀ p ∈ s.heldRequests, p < s.heap.length) :
    (∀ task ∈ (s.WaitForAll env runs fuel).activeTasks, task.isComplete = true)
    ∧ (s.WaitForAll env runs fuel).requests = s.requests
    ∧ (s.WaitForAll env runs fuel).isExiting = s.isExiting := by
  obtain ⟨h1, -, h3, h4, h5⟩ := executeTask_range env runs s hall s.activeTasks.length
  have hframe := executePackagingTask_frame env fuel
    ((List.range s.activeTasks.length).foldl (fun st i => st.executeTask env (runs i) i) s)
  have htasks : (s.WaitForAll env runs fuel).activeTasks
      = ((List.range s.activeTasks.length).foldl
          (fun st i => st.executeTask env (runs i) i) s).activeTasks := by
    have := congrArg ResourceServer.activeTasks hframe
    exact this
  have hreq : (s.WaitForAll env runs fuel).requests
      = ((List.range s.activeTasks.length).foldl
          (fun st i => st.executeTask env (runs i) i) s).requests := by
    have := congrArg ResourceServer.requests hframe
    exact this
  have hex : (s.WaitForAll env runs fuel).isExiting
      = ((List.range s.activeTasks.length).foldl
          (fun st i => st.executeTask env (runs i) i) s).isExiting := by
    have := congrArg ResourceServer.isExiting hframe
    exact this
  refine ⟨?_, hreq.trans h4, hex.trans h3⟩
  intro task ht
  rw [htasks] at ht
  obtain ⟨j, hj, hjt⟩ := List.getElem_of_mem ht
  have hlen : ((List.range s.activeTasks.length).foldl
      (fun st i => st.executeTask env (runs i) i) s).activeTasks.length
      = s.activeTasks.length := by
    have hl := congrArg List.length h1
    simpa [ResourceServer.heldRequests] using hl
  exact h5 j task (by omega) (by rw [List.getElem?_eq_getElem hj, hjt])

/-- Deleting the requests of a list marks each of them freed. -/
theorem foldl_deleteRequest_freed (ps : List Nat) :
    ∀ (heap : List HeapCell),
      (∀ q : Nat, (heap[q]?).map HeapCell.freed = some true →
        ((ps.foldl deleteRequest heap)[q]?).map HeapCell.freed = some true)
      ∧ (∀ p ∈ ps, p < heap.length →
        ((ps.foldl deleteRequest heap)[p]?).map HeapCell.freed = some true)
      ∧ (ps.foldl deleteRequest heap).length = heap.length := by
  induction ps with
  | nil => intro heap; exact ⟨fun _ h => h, fun _ hp => absurd hp (List.not_mem_nil _), rfl⟩
  | cons a ps ih =>
    intro heap
    obtain ⟨ih1, ih2, ih3⟩ := ih (deleteRequest heap a)
    have hlen : (deleteRequest heap a).length = heap.length := by simp [deleteRequest]
    have hkeep : ∀ q : Nat, (heap[q]?).map HeapCell.freed = some true →
        ((deleteRequest heap a)[q]?).map HeapCell.freed = some true := by
      intro q hq
      simp only [deleteRequest, List.getElem?_modify]
      cases hcell : heap[q]? with
      | none => rw [hcell] at hq; cases hq
      | some cell =>
        rw [hcell] at hq
        by_cases h : a = q <;> simp [h]
        simpa using hq
    simp only [List.foldl_cons]
    refine ⟨fun q hq => ih1 q (hkeep q hq), ?_, ih3.trans hlen⟩
    intro p hp hlt
    rcases List.mem_cons.mp hp with hp | hp
    · subst hp
      apply ih1
      simp [deleteRequest, List.getElem?_modify, List.getElem?_eq_getElem hlt]
    · exact ih2 p hp (by rw [hlen]; exact hlt)

/-! ## Theorems: the packaging task -/

/-- A property kept by every successful step of a monadic fold is kept by the fold. -/
theorem foldlM_keeps {α β : Type} (P : β → Prop) (f : β → α → Option β)
    (hf : ∀ b a b', P b → f b a = some b' → P b') :
    ∀ (l : List α) (b out : β), P b → l.foldlM f b = some out → P out := by
  intro l
  induction l with
  | nil =>
    intro b out hb h
    simp only [List.foldlM_nil, Option.pure_def, Option.some.injEq] at h
    exact h ▸ hb
  | cons a l ih =>
    intro b out hb h
    simp only [List.foldlM_cons, Option.bind_eq_bind, Option.bind_eq_some] at h
    obtain ⟨b', hb', hrest⟩ := h
    exact ih b' out (hf b a b' hb hb') hrest

/-- A monadic fold whose steps succeed with the values of a pure step is the pure fold. -/
theorem foldlM_eq_foldl {α β : Type} (f : β → α → Option β) (g : β → α → β) :
    ∀ (l : List α) (b : β), (∀ a ∈ l, ∀ b', f b' a = some (g b' a)) →
      l.foldlM f b = some (l.foldl g b) := by
  intro l
  induction l with
  | nil => intro b _; rfl
  | cons a l ih =>
    intro b h
    simp only [List.foldlM_cons, List.foldl_cons, h a (List.mem_cons_self _ _) b,
      Option.bind_eq_bind, Option.some_bind]
    exact ih (g b a) (fun a' ha' => h a' (List.mem_cons_of_mem _ ha'))

/-- A monadic fold succeeds with the same value when its steps are replaced by
steps that succeed wherever the old ones did, with the same value. -/
theorem foldlM_mono {α β : Type} (f g : β → α → Option β)
    (hfg : ∀ b a b', f b a = some b' → g b a = some b') :
    ∀ (l : List α) (b out : β), l.foldlM f b = some out → l.foldlM g b = some out := by
  intro l
  induction l with
  | nil => intro b out h; exact h
  | cons a l ih =>
    intro b out h
    simp only [List.foldlM_cons, Option.bind_eq_bind, Option.bind_eq_some] at h ⊢
    obtain ⟨b', hb', hrest⟩ := h
    exact ⟨b', hfg b a b' hb', ih b' out hrest⟩

/-- Unique insertion keeps a list free of repetitions. -/
theorem VectorEmplaceBackUnique_nodup {α : Type} [DecidableEq α] (v : List α) (x : α)
    (h : v.Nodup) : (VectorEmplaceBackUnique v x).Nodup := by
  unfold VectorEmplaceBackUnique
  split
  · exact h
  · rename_i hx
    exact List.Nodup.append h (List.nodup_singleton x) (by
      intro a ha hb
      simp only [List.mem_singleton] at hb
      exact hx (hb ▸ ha))

/-- The members after a unique insertion. -/
theorem mem_VectorEmplaceBackUnique {α : Type} [DecidableEq α] (v : List α) (x a : α) :
    a ∈ VectorEmplaceBackUnique v x ↔ a ∈ v ∨ a = x := by
  unfold VectorEmplaceBackUnique
  split
  · rename_i hx
    constructor
    · exact Or.inl
    · rintro (h | h)
      · exact h
      · exact h ▸ hx
  · simp

/-- The expansion of a resource keeps the dependency list free of repetitions. -/
theorem EnqueueResourceForPackaging_nodup (env : Environment) (isExiting : Bool) :
    ∀ (fuel : Nat) (resourceID : ResourceID) (deps out : List ResourceID), deps.Nodup →
      PackagingTask.EnqueueResourceForPackaging env isExiting fuel resourceID deps = some out →
      out.Nodup := by
  intro fuel
  induction fuel with
  | zero => intro r deps out _ h; simp [PackagingTask.EnqueueResourceForPackaging] at h
  | succ fuel ih =>
    intro r deps out hdeps h
    unfold PackagingTask.EnqueueResourceForPackaging at h
    split at h
    · cases h; exact hdeps
    · split at h
      · cases h; exact hdeps
      · exact foldlM_keeps List.Nodup _ (fun b a b' hb hba => ih a b b' hb hba) _ _ _
          (VectorEmplaceBackUnique_nodup deps r hdeps) h

/-- More fuel does not change the result of an expansion that finished. -/
theorem EnqueueResourceForPackaging_fuel_succ (env : Environment) (isExiting : Bool) :
    ∀ (fuel : Nat) (resourceID : ResourceID) (deps out : List ResourceID),
      PackagingTask.EnqueueResourceForPackaging env isExiting fuel resourceID deps = some out →
      PackagingTask.EnqueueResourceForPackaging env isExiting (fuel + 1) resourceID deps
        = some out := by
  intro fuel
  induction fuel with
  | zero => intro r deps out h; simp [PackagingTask.EnqueueResourceForPackaging] at h
  | succ fuel ih =>
    intro r deps out h
    unfold PackagingTask.EnqueueResourceForPackaging at h ⊢
    by_cases hx : isExiting = true
    · rw [if_pos hx] at h ⊢
      exact h
    · rw [if_neg hx] at h ⊢
      cases hc : env.GetCompilerForResourceType r.typeID with
      | none =>
        simp only [hc] at h ⊢
        exact h
      | some pCompiler =>
        simp only [hc] at h ⊢
        exact foldlM_mono _ _ (fun b a b' hba => ih a b b' hba) _ _ _ h

/-- More fuel does not change the result of a packaging task that finished. -/
theorem ExecuteRange_fuel_le (env : Environment) (isExiting : Bool) (seeds : List ResourceID) :
    ∀ (fuel more : Nat) (out : List ResourceID),
      PackagingTask.ExecuteRange env isExiting fuel seeds = some out →
      PackagingTask.ExecuteRange env isExiting (fuel + more) seeds = some out := by
  intro fuel more
  induction more with
  | zero => intro out h; exact h
  | succ more ih =>
    intro out h
    have h1 := ih out h
    unfold PackagingTask.ExecuteRange at h1 ⊢
    exact foldlM_mono _ _
      (fun b a b' hba => EnqueueResourceForPackaging_fuel_succ env isExiting _ a b b' hba)
      _ _ _ h1

/-- C12 fails when the statically required resources repeat: the engine and the game
both require resource `a`, and the list of the packaging task holds it twice. -/
theorem C12_counterexample_static_resources_repeat :
    PackagingTask.ExecuteRange duplicateStaticEnv false 1 [] = some [exampleA, exampleA]
    ∧ ¬ [exampleA, exampleA].Nodup := by
  constructor
  · rfl
  · decide

/-- C12 as amended: when the statically required resources hold no resource twice,
then for every seed list, compiler registry and install-dependency relation
on which the packaging task finishes, its runtime-dependency list holds each
resource at most once, and every other run of the task on the same inputs
that finishes yields the same list. -/
theorem C12_runtime_dependencies_unique_and_determined (env : Environment) (isExiting : Bool)
    (seeds : List ResourceID) (fuel : Nat) (out : List ResourceID)
    (hstatic : env.staticResources.Nodup)
    (hout : PackagingTask.ExecuteRange env isExiting fuel seeds = some out) :
    out.Nodup
    ∧ ∀ (fuel2 : Nat) (out2 : List ResourceID),
        PackagingTask.ExecuteRange env isExiting fuel2 seeds = some out2 → out2 = out := by
  constructor
  · unfold PackagingTask.ExecuteRange at hout
    exact foldlM_keeps List.Nodup _
      (fun b a b' hb hba => EnqueueResourceForPackaging_nodup env isExiting fuel a b b' hb hba)
      _ _ _ hstatic hout
  · intro fuel2 out2 hout2
    have h1 := ExecuteRange_fuel_le env isExiting seeds fuel fuel2 out hout
    have h2 := ExecuteRange_fuel_le env isExiting seeds fuel2 fuel out2 hout2
    rw [Nat.add_comm fuel2 fuel, h1] at h2
    exact (Option.some.inj h2).symm

/-- Witness of C12: the task of scenario S5 finishes with `m1, a, b, c` for every
amount of fuel that lets it finish. -/
theorem C12_runtime_dependencies_unique_and_determined_witness :
    packagingEnv.staticResources.Nodup
    ∧ PackagingTask.ExecuteRange packagingEnv false 3 [exampleMap]
        = some [exampleMap, exampleA, exampleB, exampleC]
    ∧ [exampleMap, exampleA, exampleB, exampleC].Nodup :=
  ⟨by decide, by decide,
   (C12_runtime_dependencies_unique_and_determined packagingEnv false [exampleMap] 3
      [exampleMap, exampleA, exampleB, exampleC] (by decide) (by decide)).1⟩

/-- Folding over a concatenation of blocks is folding block by block. -/
theorem foldl_flatMap_blocks {α β γ : Type} (f : α → List β) (g : γ → β → γ) :
    ∀ (l : List α) (b : γ),
      (l.flatMap f).foldl g b = l.foldl (fun x a => (f a).foldl g x) b := by
  intro l
  induction l with
  | nil => intro b; rfl
  | cons a l ih =>
    intro b
    simp only [List.flatMap_cons, List.foldl_append, List.foldl_cons]
    exact ih _

/-- With the exit flag clear and fuel above the rank of the resource, the expansion
finishes and inserts the visits of the pre-order, uniquely and in order. -/
theorem EnqueueResourceForPackaging_eq_preorder (env : Environment) (rank : ResourceID → Nat)
    (hrank : env.IsRank rank) :
    ∀ (fuel : Nat) (resourceID : ResourceID) (deps : List ResourceID),
      rank resourceID < fuel →
      PackagingTask.EnqueueResourceForPackaging env false fuel resourceID deps
        = some ((preorderVisits env fuel resourceID).foldl VectorEmplaceBackUnique deps) := by
  intro fuel
  induction fuel with
  | zero => intro r deps h; exact absurd h (Nat.not_lt_zero _)
  | succ fuel ih =>
    intro r deps hr
    unfold PackagingTask.EnqueueResourceForPackaging preorderVisits
    simp only [Bool.false_eq_true, if_false]
    cases hc : env.GetCompilerForResourceType r.typeID with
    | none => rfl
    | some pCompiler =>
      simp only [List.foldl_cons]
      rw [foldl_flatMap_blocks]
      apply foldlM_eq_foldl
      intro d hd b
      exact ih d b (by have := hrank r pCompiler hc d hd; omega)

/-- Inserting a sequence uniquely behind a list appends the first occurrences of
the sequence that the list does not hold. -/
theorem foldl_VectorEmplaceBackUnique_eq (static : List ResourceID) :
    ∀ l : List ResourceID,
      l.foldl VectorEmplaceBackUnique static
        = static ++ (firstOccurrences l).filter (fun r => decide (r ∉ static)) := by
  intro l
  induction l using List.reverseRecOn with
  | nil => simp [firstOccurrences]
  | append_singleton l x ih =>
    simp only [firstOccurrences, List.foldl_append, List.foldl_cons, List.foldl_nil] at ih ⊢
    rw [ih]
    by_cases hs : x ∈ static
    · by_cases hf : x ∈ l.foldl VectorEmplaceBackUnique []
      · simp [VectorEmplaceBackUnique, hs, hf]
      · simp [VectorEmplaceBackUnique, hs, hf, List.filter_append]
    · by_cases hf : x ∈ l.foldl VectorEmplaceBackUnique []
      · simp [VectorEmplaceBackUnique, hs, hf]
      · simp [VectorEmplaceBackUnique, hs, hf, List.filter_append]

/-- Every visit of the pre-order from a listed resource is a listed resource. -/
theorem listed_of_mem_preorderVisits (env : Environment) (seeds : List ResourceID) :
    ∀ (depth : Nat) (x r : ResourceID),
      (∀ c, env.GetCompilerForResourceType x.typeID = some c → Listed env seeds x) →
      r ∈ preorderVisits env depth x → Listed env seeds r := by
  intro depth
  induction depth with
  | zero => intro x r _ h; simp [preorderVisits] at h
  | succ depth ih =>
    intro x r hx h
    unfold preorderVisits at h
    cases hc : env.GetCompilerForResourceType x.typeID with
    | none => simp [hc] at h
    | some c =>
      simp only [hc, List.mem_cons, List.mem_flatMap] at h
      rcases h with h | ⟨d, hd, hrd⟩
      · rw [h]; exact hx c hc
      · exact ih d r (fun cd hcd => Listed.dependency x d c cd (hx c hc) hc hd hcd) hrd

/-- The pre-order from a resource visits the install dependencies, with a compiler,
of everything it visits. -/
theorem mem_preorderVisits_dependency (env : Environment) (rank : ResourceID → Nat)
    (hrank : env.IsRank rank) (d : ResourceID) (cd : Compiler)
    (hcd : env.GetCompilerForResourceType d.typeID = some cd) :
    ∀ (depth : Nat) (m r : ResourceID) (c : Compiler), rank m < depth →
      r ∈ preorderVisits env depth m →
      env.GetCompilerForResourceType r.typeID = some c →
      d ∈ c.GetInstallDependencies r →
      d ∈ preorderVisits env depth m := by
  intro depth
  induction depth with
  | zero => intro m r c h; exact absurd h (Nat.not_lt_zero _)
  | succ depth ih =>
    intro m r c hm hr hc hd
    unfold preorderVisits at hr ⊢
    cases hcm : env.GetCompilerForResourceType m.typeID with
    | none => simp [hcm] at hr
    | some cm =>
      simp only [hcm, List.mem_cons, List.mem_flatMap] at hr ⊢
      right
      rcases hr with hr | ⟨d', hd', hrd'⟩
      · rw [hr] at hc hd
        have hcc : cm = c := by
          rw [hcm] at hc
          exact Option.some.inj hc
        rw [← hcc] at hd
        refine ⟨d, hd, ?_⟩
        have hlt := hrank m cm hcm d hd
        cases depth with
        | zero => omega
        | succ depth =>
          unfold preorderVisits
          simp [hcd]
      · have hlt := hrank m cm hcm d' hd'
        exact ⟨d', hd', ih d' r c (by omega) hrd' hc hd⟩

/-- The rank of scenario S5 is a rank for its install dependencies. -/
theorem exampleRank_isRank : packagingEnv.IsRank exampleRank := by
  intro r c hc d hd
  have hcomp : c = { GetInstallDependencies := exampleInstallDependencies } := by
    simp only [packagingEnv, Option.some.injEq] at hc
    exact hc.symm
  subst hcomp
  simp only [exampleInstallDependencies] at hd
  by_cases h1 : r = exampleMap
  · subst h1
    simp only [if_true, List.mem_cons, List.mem_singleton, List.not_mem_nil, or_false] at hd
    rcases hd with hd | hd <;> subst hd <;> decide
  · by_cases h2 : r = exampleB
    · subst h2
      simp only [h1, if_false, if_true, List.mem_singleton] at hd
      subst hd
      decide
    · simp [h1, h2] at hd

/-- Every state is later than itself. -/
theorem Later_refl (s : ResourceServer) : s.Later s :=
  ⟨Nat.le_refl _, fun _ _ _ h => h, fun _ h => h⟩

/-- Being later is transitive. -/
theorem Later_trans {s t u : ResourceServer} (h1 : s.Later t) (h2 : t.Later u) : s.Later u :=
  ⟨Nat.le_trans h1.heap_le h2.heap_le,
   fun p hp hlive hc => h2.complete_mono p (Nat.lt_of_lt_of_le hp h1.heap_le) hlive
     (h1.complete_mono p hp (fun hfreed => hlive (h2.freed_mono p hfreed)) hc),
   fun p hf => h2.freed_mono p (h1.freed_mono p hf)⟩

/-- A state with the same heap is later. -/
theorem Later_of_heap (s t : ResourceServer) (h : t.heap = s.heap) : s.Later t := by
  refine ⟨by rw [h], ?_, ?_⟩
  · intro p _ _ hp
    simpa [ResourceServer.isCompleteAt, h] using hp
  · intro p hf
    rw [h]
    exact hf

/-- A state whose heap holds the same values, with nothing that was deleted brought
back, is later. -/
theorem Later_of_values (s t : ResourceServer)
    (h : t.heap.map HeapCell.value = s.heap.map HeapCell.value)
    (hfreed : ∀ p : Nat, (s.heap[p]?).map HeapCell.freed = some true →
      (t.heap[p]?).map HeapCell.freed = some true) : s.Later t := by
  have hc : t.isCompleteAt = s.isCompleteAt := isCompleteAt_congr s t h
  have hlen : t.heap.length = s.heap.length := by
    have := congrArg List.length h
    simpa using this
  exact ⟨by omega, fun p _ _ hp => by rw [hc]; exact hp, hfreed⟩

/-- A state whose heap extends the heap is later. -/
theorem Later_of_append (s t : ResourceServer) (extra : List HeapCell)
    (h : t.heap = s.heap ++ extra) : s.Later t := by
  refine ⟨by rw [h]; simp, ?_, ?_⟩
  · intro p hp _ hc
    simpa [ResourceServer.isCompleteAt, h, List.getElem?_append_left hp] using hc
  · intro p hf
    have hp : p < s.heap.length := by
      cases hcell : s.heap[p]? with
      | none => rw [hcell] at hf; cases hf
      | some cell => exact (List.getElem?_eq_some.mp hcell).1
    rw [h, List.getElem?_append_left hp]
    exact hf

/-- The cleanup loop leaves every deleted object deleted. -/
theorem cleanupLoop_freed :
    ∀ (n : Nat) (s : ResourceServer) (q : Nat),
      (s.heap[q]?).map HeapCell.freed = some true →
      ((ResourceServer.cleanupLoop n s).heap[q]?).map HeapCell.freed = some true := by
  intro n
  induction n with
  | zero => intro s q h; exact h
  | succ i ih =>
    intro s q h
    unfold ResourceServer.cleanupLoop
    cases hri : s.requests[i]? with
    | none => exact ih s q h
    | some pRequest =>
      simp only
      split
      · apply ih
        exact (foldl_deleteRequest_freed [pRequest] s.heap).1 q h
      · exact ih s q h

/-- The cleanup block leaves every deleted object deleted. -/
theorem cleanup_freed (s : ResourceServer) (q : Nat)
    (h : (s.heap[q]?).map HeapCell.freed = some true) :
    (s.cleanup.heap[q]?).map HeapCell.freed = some true := by
  unfold ResourceServer.cleanup
  split
  · exact cleanupLoop_freed s.requests.length s q h
  · exact h

/-- Every session is the same as itself. -/
theorem SameSession_refl (s : ResourceServer) : s.SameSession s := ⟨rfl, rfl⟩

/-- Having the same session is transitive. -/
theorem SameSession_trans {s t u : ResourceServer} (h1 : s.SameSession t)
    (h2 : t.SameSession u) : s.SameSession u :=
  ⟨h2.stage.trans h1.stage, h2.requests.trans h1.requests⟩

/-- A fold of steps that each lead to a later state with the same session does so. -/
theorem foldl_quiet {α : Type} (f : ResourceServer → α → ResourceServer)
    (hf : ∀ st a, st.Later (f st a) ∧ st.SameSession (f st a)
      ∧ (f st a).pPackagingTask = st.pPackagingTask) :
    ∀ (l : List α) (s : ResourceServer),
      s.Later (l.foldl f s) ∧ s.SameSession (l.foldl f s)
      ∧ (l.foldl f s).pPackagingTask = s.pPackagingTask := by
  intro l
  induction l with
  | nil => intro s; exact ⟨Later_refl s, SameSession_refl s, rfl⟩
  | cons a l ih =>
    intro s
    obtain ⟨h1, h2, h3⟩ := hf s a
    obtain ⟨h4, h5, h6⟩ := ih (f s a)
    exact ⟨Later_trans h1 h4, SameSession_trans h2 h5, h6.trans h3⟩

/-- `CreateResourceRequest` leads to a later state with the same session. -/
theorem CreateResourceRequest_quiet (env : Environment) (resourceID : ResourceID)
    (clientID : Nat) (origin : Origin) (s : ResourceServer) :
    s.Later (s.CreateResourceRequest env resourceID clientID origin).2
    ∧ s.SameSession (s.CreateResourceRequest env resourceID clientID origin).2
    ∧ (s.CreateResourceRequest env resourceID clientID origin).2.pPackagingTask
        = s.pPackagingTask :=
  ⟨Later_of_append _ _ _ rfl, ⟨rfl, rfl⟩, rfl⟩

/-- Processing the inbound messages leads to a later state with the same session. -/
theorem ProcessIncomingMessages_quiet (env : Environment) (incoming : List IncomingMessage)
    (s : ResourceServer) :
    s.Later (s.ProcessIncomingMessages env incoming)
    ∧ s.SameSession (s.ProcessIncomingMessages env incoming)
    ∧ (s.ProcessIncomingMessages env incoming).pPackagingTask = s.pPackagingTask := by
  unfold ResourceServer.ProcessIncomingMessages
  apply foldl_quiet
  intro st message
  split
  · exact CreateResourceRequest_quiet env _ _ _ st
  · exact ⟨Later_refl st, SameSession_refl st, rfl⟩

/-- A file change leads to a later state with the same session. -/
theorem OnFileModified_quiet (env : Environment) (e : FileModified) (s : ResourceServer) :
    s.Later (s.OnFileModified env e) ∧ s.SameSession (s.OnFileModified env e)
    ∧ (s.OnFileModified env e).pPackagingTask = s.pPackagingTask := by
  unfold ResourceServer.OnFileModified
  split
  · exact ⟨Later_refl s, SameSession_refl s, rfl⟩
  · split
    · exact ⟨Later_refl s, SameSession_refl s, rfl⟩
    · exact CreateResourceRequest_quiet env _ _ _ s

/-- A worker running a task leads to a later state with the same session. -/
theorem executeTask_quiet (env : Environment) (run : SubprocessRun) (i : Nat)
    (s : ResourceServer) :
    s.Later (s.executeTask env run i) ∧ s.SameSession (s.executeTask env run i)
    ∧ (s.executeTask env run i).pPackagingTask = s.pPackagingTask := by
  rcases executeTask_eq env run i s with he | ⟨task, cell, -, -, hcell, he⟩
  · rw [he]; exact ⟨Later_refl s, SameSession_refl s, rfl⟩
  · rw [he]
    have hlt : task.pRequest < s.heap.length := (List.getElem?_eq_some.mp hcell).1
    refine ⟨⟨by simp, ?_, ?_⟩, ⟨rfl, rfl⟩, rfl⟩
    · intro q _ _ hq
      by_cases hqp : task.pRequest = q
      · subst hqp
        have hv : cell.value.IsComplete = true := by
          simpa [ResourceServer.isCompleteAt, hcell] using hq
        simp [ResourceServer.isCompleteAt, List.getElem?_set, hlt,
          ExecuteRange_skip env.compilationResult s.isExiting env.compilerExecutablePath
            run cell.value (Or.inr hv), hv]
      · simpa [ResourceServer.isCompleteAt, List.getElem?_set_ne hqp] using hq
    · intro q hq
      by_cases hqp : task.pRequest = q
      · subst hqp
        rw [hcell] at hq
        simpa [List.getElem?_set, hlt] using hq
      · simpa [List.getElem?_set_ne hqp] using hq

/-- A worker running the packaging task leaves heap and session as they are. -/
theorem executePackagingTask_quiet (env : Environment) (fuel : Nat) (s : ResourceServer) :
    s.Later (s.executePackagingTask env fuel)
    ∧ s.SameSession (s.executePackagingTask env fuel) := by
  have hframe := executePackagingTask_frame env fuel s
  have h1 : (s.executePackagingTask env fuel).heap = s.heap := by
    have := congrArg ResourceServer.heap hframe
    exact this
  have h2 : (s.executePackagingTask env fuel).packagingStage = s.packagingStage := by
    have := congrArg ResourceServer.packagingStage hframe
    exact this
  have h3 : (s.executePackagingTask env fuel).packagingRequests = s.packagingRequests := by
    have := congrArg ResourceServer.packagingRequests hframe
    exact this
  exact ⟨Later_of_heap _ _ h1, ⟨h2, h3⟩⟩

/-- `ProcessCompletedRequests` leaves heap and session as they are. -/
theorem ProcessCompletedRequests_quiet (connectedClients : List Nat) (s : ResourceServer) :
    s.Later (s.ProcessCompletedRequests connectedClients)
    ∧ s.SameSession (s.ProcessCompletedRequests connectedClients)
    ∧ (s.ProcessCompletedRequests connectedClients).pPackagingTask = s.pPackagingTask := by
  have hframe := ProcessCompletedRequests_frame connectedClients s
  have h1 : (s.ProcessCompletedRequests connectedClients).heap = s.heap := by
    have := congrArg ResourceServer.heap hframe
    exact this
  have h2 : (s.ProcessCompletedRequests connectedClients).packagingStage
      = s.packagingStage := by
    have := congrArg ResourceServer.packagingStage hframe
    exact this
  have h3 : (s.ProcessCompletedRequests connectedClients).packagingRequests
      = s.packagingRequests := by
    have := congrArg ResourceServer.packagingRequests hframe
    exact this
  have h4 : (s.ProcessCompletedRequests connectedClients).pPackagingTask
      = s.pPackagingTask := by
    have := congrArg ResourceServer.pPackagingTask hframe
    exact this
  exact ⟨Later_of_heap _ _ h1, ⟨h2, h3⟩, h4⟩

/-- The cleanup block leaves the values of the heap and the session as they are. -/
theorem cleanup_quiet (s : ResourceServer) :
    s.Later s.cleanup ∧ s.SameSession s.cleanup
    ∧ s.cleanup.pPackagingTask = s.pPackagingTask := by
  obtain ⟨-, hvals, -, hframe⟩ := cleanup_spec s
  have h2 : s.cleanup.packagingStage = s.packagingStage := by
    have := congrArg ResourceServer.packagingStage hframe
    exact this
  have h3 : s.cleanup.packagingRequests = s.packagingRequests := by
    have := congrArg ResourceServer.packagingRequests hframe
    exact this
  have h4 : s.cleanup.pPackagingTask = s.pPackagingTask := by
    have := congrArg ResourceServer.pPackagingTask hframe
    exact this
  exact ⟨Later_of_values _ _ hvals (cleanup_freed s), ⟨h2, h3⟩, h4⟩

/-- What the loop of the packaging block of `Update` does: one request object per
runtime dependency, in order, at consecutive addresses, each appended to the
registry, given a task and recorded as a packaging request. -/
theorem packagingLoop_eq (env : Environment) :
    ∀ (deps : List ResourceID) (s : ResourceServer),
      deps.foldl
          (fun st resourceID =>
            let created := st.CreateResourceRequest env resourceID 0 Origin.Package
            { created.2 with packagingRequests := created.2.packagingRequests ++ [created.1] })
          s
        = { s with
            heap := s.heap ++ packageCells env deps
            requests := s.requests ++ List.range' s.heap.length deps.length
            activeTasks := s.activeTasks
              ++ (List.range' s.heap.length deps.length).map
                  (fun p => { pRequest := p, isComplete := false })
            numScheduledTasks := s.numScheduledTasks + deps.length
            packagingRequests := s.packagingRequests
              ++ List.range' s.heap.length deps.length } := by
  intro deps
  induction deps with
  | nil => intro s; simp [packageCells]
  | cons d deps ih =>
    intro s
    rw [List.foldl_cons, ih]
    simp only [ResourceServer.CreateResourceRequest, packageCells, List.length_append,
      List.length_singleton, List.map_cons, List.length_cons, List.range'_succ,
      List.append_assoc, List.singleton_append, ResourceServer.mk.injEq, true_and,
      and_true, List.length_nil, Nat.zero_add]
    push_cast
    omega

/-- What the packaging block of `Update` does in stage `Preparing`: nothing while
the packaging task has not finished (or is missing); once it has, the loop over
its runtime dependencies, the release of the task and the move to `Packaging`. -/
theorem updatePackaging_preparing (env : Environment) (s : ResourceServer)
    (hstage : s.packagingStage = PackagingStage.Preparing) :
    (s.pPackagingTask = none → s.updatePackaging env = s)
    ∧ (∀ task, s.pPackagingTask = some task → task.isComplete = false →
        s.updatePackaging env = s)
    ∧ (∀ task, s.pPackagingTask = some task → task.isComplete = true →
        s.updatePackaging env
          = { s with
              heap := s.heap ++ packageCells env task.runtimeDependencies
              requests := s.requests
                ++ List.range' s.heap.length task.runtimeDependencies.length
              activeTasks := s.activeTasks
                ++ (List.range' s.heap.length task.runtimeDependencies.length).map
                    (fun p => { pRequest := p, isComplete := false })
              numScheduledTasks := s.numScheduledTasks + task.runtimeDependencies.length
              packagingRequests := s.packagingRequests
                ++ List.range' s.heap.length task.runtimeDependencies.length
              pPackagingTask := none
              packagingStage := PackagingStage.Packaging }) := by
  refine ⟨?_, ?_, ?_⟩
  · intro h
    simp [ResourceServer.updatePackaging, hstage, h]
  · intro task h hc
    simp [ResourceServer.updatePackaging, hstage, h, hc]
  · intro task h hc
    simp only [ResourceServer.updatePackaging, hstage, h, hc, if_true]
    rw [packagingLoop_eq]

/-- What the packaging block of `Update` does in stage `Packaging`. -/
theorem updatePackaging_packaging (env : Environment) (s : ResourceServer)
    (hstage : s.packagingStage = PackagingStage.Packaging) :
    s.updatePackaging env
      = if s.packagingRequests.all s.isCompleteAt then
          { s with packagingRequests := [], packagingStage := PackagingStage.Complete }
        else s := by
  simp [ResourceServer.updatePackaging, hstage]

/-- The packaging block leads to a later state. -/
theorem updatePackaging_later (env : Environment) (s : ResourceServer) :
    s.Later (s.updatePackaging env) := by
  cases hstage : s.packagingStage with
  | None => rw [show s.updatePackaging env = s by simp [ResourceServer.updatePackaging, hstage]]
            exact Later_refl s
  | Complete =>
    rw [show s.updatePackaging env = s by simp [ResourceServer.updatePackaging, hstage]]
    exact Later_refl s
  | Packaging =>
    rw [updatePackaging_packaging env s hstage]
    split
    · exact Later_of_heap _ _ rfl
    · exact Later_refl s
  | Preparing =>
    obtain ⟨h1, h2, h3⟩ := updatePackaging_preparing env s hstage
    cases htask : s.pPackagingTask with
    | none => rw [h1 htask]; exact Later_refl s
    | some task =>
      cases hc : task.isComplete with
      | false => rw [h2 task htask hc]; exact Later_refl s
      | true =>
        rw [h3 task htask hc]
        exact Later_of_append _ _ (packageCells env task.runtimeDependencies) rfl

/-- The packaging block moves the stage along the allowed moves, or leaves it. -/
theorem updatePackaging_stage (env : Environment) (s : ResourceServer) :
    (s.updatePackaging env).packagingStage = s.packagingStage
    ∨ stageMove s.packagingStage (s.updatePackaging env).packagingStage = true := by
  cases hstage : s.packagingStage with
  | None => left; simp [ResourceServer.updatePackaging, hstage]
  | Complete => left; simp [ResourceServer.updatePackaging, hstage]
  | Packaging =>
    rw [updatePackaging_packaging env s hstage]
    split
    · right; rfl
    · left; exact hstage
  | Preparing =>
    obtain ⟨h1, h2, h3⟩ := updatePackaging_preparing env s hstage
    cases htask : s.pPackagingTask with
    | none => rw [h1 htask]; left; exact hstage
    | some task =>
      cases hc : task.isComplete with
      | false => rw [h2 task htask hc]; left; exact hstage
      | true => rw [h3 task htask hc]; right; rfl

/-- The packaging block keeps the invariant of the session. -/
theorem SessionInvariant_updatePackaging (env : Environment) (s : ResourceServer)
    (h : s.SessionInvariant) : (s.updatePackaging env).SessionInvariant := by
  cases hstage : s.packagingStage with
  | None => rw [show s.updatePackaging env = s by simp [ResourceServer.updatePackaging, hstage]]
            exact h
  | Complete =>
    rw [show s.updatePackaging env = s by simp [ResourceServer.updatePackaging, hstage]]
    exact h
  | Packaging =>
    rw [updatePackaging_packaging env s hstage]
    split
    · exact ⟨fun _ => rfl, fun p hp => absurd hp (List.not_mem_nil p)⟩
    · exact h
  | Preparing =>
    obtain ⟨h1, h2, h3⟩ := updatePackaging_preparing env s hstage
    cases htask : s.pPackagingTask with
    | none => rw [h1 htask]; exact h
    | some task =>
      cases hc : task.isComplete with
      | false => rw [h2 task htask hc]; exact h
      | true =>
        rw [h3 task htask hc]
        constructor
        · intro hne; exact absurd rfl hne
        · intro p hp
          simp only [List.mem_append, List.mem_range'_1, List.length_append, packageCells,
            List.length_map] at hp ⊢
          rcases hp with hp | hp
          · have := h.allocated p hp; omega
          · omega

/-- The invariant of the session carries over to a later state with the same session. -/
theorem SessionInvariant_of_quiet {s t : ResourceServer} (h : s.SessionInvariant)
    (hl : s.Later t) (hs : s.SameSession t) : t.SessionInvariant := by
  constructor
  · rw [hs.stage, hs.requests]; exact h.cleared
  · rw [hs.requests]
    exact fun p hp => Nat.lt_of_lt_of_le (h.allocated p hp) hl.heap_le

/-- `Update` is its network block, its packaging block and the rest, in this order. -/
theorem Update_eq (env : Environment) (input : UpdateInput) (s : ResourceServer) :
    s.Update env input
      = ((s.pumpNetwork env input).updatePackaging env).finishUpdate env input := rfl

/-- The network block of `Update` leads to a later state with the same session. -/
theorem pumpNetwork_quiet (env : Environment) (input : UpdateInput) (s : ResourceServer) :
    s.Later (s.pumpNetwork env input) ∧ s.SameSession (s.pumpNetwork env input)
    ∧ (s.pumpNetwork env input).pPackagingTask = s.pPackagingTask := by
  unfold ResourceServer.pumpNetwork
  split
  · exact ProcessIncomingMessages_quiet env _ s
  · exact ⟨Later_refl s, SameSession_refl s, rfl⟩

/-- The end of `Update` leads to a later state with the same session. -/
theorem finishUpdate_quiet (env : Environment) (input : UpdateInput) (s : ResourceServer) :
    s.Later (s.finishUpdate env input) ∧ s.SameSession (s.finishUpdate env input)
    ∧ (s.finishUpdate env input).pPackagingTask = s.pPackagingTask := by
  obtain ⟨a1, a2, a3⟩ := ProcessCompletedRequests_quiet input.connectedClients s
  obtain ⟨b1, b2, b3⟩ := cleanup_quiet (s.ProcessCompletedRequests input.connectedClients)
  have h4 : s.Later (s.ProcessCompletedRequests input.connectedClients).cleanup
      ∧ s.SameSession (s.ProcessCompletedRequests input.connectedClients).cleanup
      ∧ (s.ProcessCompletedRequests input.connectedClients).cleanup.pPackagingTask
          = s.pPackagingTask :=
    ⟨Later_trans a1 b1, SameSession_trans a2 b2, b3.trans a3⟩
  unfold ResourceServer.finishUpdate
  simp only
  split
  · obtain ⟨c1, c2, c3⟩ := foldl_quiet (fun st e => st.OnFileModified env e)
      (fun st e => OnFileModified_quiet env e st) input.fileEvents
      (s.ProcessCompletedRequests input.connectedClients).cleanup
    exact ⟨Later_trans h4.1 c1, SameSession_trans h4.2.1 c2, c3.trans h4.2.2⟩
  · exact h4

/-- `Update` leads to a later state. -/
theorem Update_later (env : Environment) (input : UpdateInput) (s : ResourceServer) :
    s.Later (s.Update env input) := by
  rw [Update_eq]
  exact Later_trans (pumpNetwork_quiet env input s).1
    (Later_trans (updatePackaging_later env _) (finishUpdate_quiet env input _).1)

/-- `Update` moves the stage along the allowed moves, or leaves it. -/
theorem Update_stage (env : Environment) (input : UpdateInput) (s : ResourceServer) :
    (s.Update env input).packagingStage = s.packagingStage
    ∨ stageMove s.packagingStage (s.Update env input).packagingStage = true := by
  rw [Update_eq, (finishUpdate_quiet env input _).2.1.stage]
  have h := updatePackaging_stage env (s.pumpNetwork env input)
  rw [(pumpNetwork_quiet env input s).2.1.stage] at h
  exact h

/-- `Update` keeps the invariant of the session. -/
theorem SessionInvariant_Update (env : Environment) (input : UpdateInput) (s : ResourceServer)
    (h : s.SessionInvariant) : (s.Update env input).SessionInvariant := by
  rw [Update_eq]
  obtain ⟨a1, a2, -⟩ := pumpNetwork_quiet env input s
  obtain ⟨c1, c2, -⟩ := finishUpdate_quiet env input
    ((s.pumpNetwork env input).updatePackaging env)
  exact SessionInvariant_of_quiet
    (SessionInvariant_updatePackaging env _ (SessionInvariant_of_quiet h a1 a2)) c1 c2

/-- Waiting for the workers leads to a later state with the same session. -/
theorem WaitForAll_quiet (env : Environment) (runs : Nat → SubprocessRun) (fuel : Nat)
    (s : ResourceServer) :
    s.Later (s.WaitForAll env runs fuel) ∧ s.SameSession (s.WaitForAll env runs fuel) := by
  unfold ResourceServer.WaitForAll
  obtain ⟨a1, a2, -⟩ := foldl_quiet (fun st i => st.executeTask env (runs i) i)
    (fun st i => executeTask_quiet env (runs i) i st) (List.range s.activeTasks.length) s
  obtain ⟨b1, b2⟩ := executePackagingTask_quiet env fuel
    ((List.range s.activeTasks.length).foldl (fun st i => st.executeTask env (runs i) i) s)
  exact ⟨Later_trans a1 b1, SameSession_trans a2 b2⟩

/-- Every step other than `Update` and the start of packaging leads to a later
state with the same session; every step leads to a later state. -/
theorem step_quiet (env : Environment) (s : ResourceServer) (st : Step) :
    s.Later (s.step env st)
    ∧ ((∀ input, st ≠ Step.update input) → st.isStartPackaging = false →
        s.SameSession (s.step env st)) := by
  cases st with
  | create resourceID clientID origin =>
    exact ⟨(CreateResourceRequest_quiet env _ _ _ s).1,
      fun _ _ => (CreateResourceRequest_quiet env _ _ _ s).2.1⟩
  | executeTask i run =>
    exact ⟨(executeTask_quiet env run i s).1, fun _ _ => (executeTask_quiet env run i s).2.1⟩
  | executePackagingTask fuel =>
    exact ⟨(executePackagingTask_quiet env fuel s).1,
      fun _ _ => (executePackagingTask_quiet env fuel s).2⟩
  | reap connectedClients =>
    exact ⟨(ProcessCompletedRequests_quiet connectedClients s).1,
      fun _ _ => (ProcessCompletedRequests_quiet connectedClients s).2.1⟩
  | requestCleanup => exact ⟨Later_of_heap _ _ rfl, fun _ _ => ⟨rfl, rfl⟩⟩
  | cleanup => exact ⟨(cleanup_quiet s).1, fun _ _ => (cleanup_quiet s).2.1⟩
  | update input => exact ⟨Update_later env input s, fun h _ => absurd rfl (h input)⟩
  | fileModified e =>
    exact ⟨(OnFileModified_quiet env e s).1, fun _ _ => (OnFileModified_quiet env e s).2.1⟩
  | addMap mapResourceID => exact ⟨Later_of_heap _ _ rfl, fun _ _ => ⟨rfl, rfl⟩⟩
  | removeMap mapResourceID => exact ⟨Later_of_heap _ _ rfl, fun _ _ => ⟨rfl, rfl⟩⟩
  | startPackaging =>
    refine ⟨?_, fun _ h => by cases h⟩
    simp only [ResourceServer.step]
    split
    · exact Later_of_heap _ _ rfl
    · exact Later_refl s
  | shutdownCompleteScheduled runs connectedClients =>
    have h0 : s.Later { s with isExiting := true } := Later_of_heap _ _ rfl
    have h0' : s.SameSession { s with isExiting := true } := ⟨rfl, rfl⟩
    obtain ⟨a1, a2⟩ := WaitForAll_quiet env runs 1 { s with isExiting := true }
    obtain ⟨b1, b2, -⟩ := ProcessCompletedRequests_quiet connectedClients
      (({ s with isExiting := true }).WaitForAll env runs 1)
    exact ⟨Later_trans h0 (Later_trans a1 b1),
      fun _ _ => SameSession_trans h0' (SameSession_trans a2 b2)⟩
  | shutdownRelease =>
    exact ⟨Later_of_values _ _ (foldl_deleteRequest_values _ _)
      (foldl_deleteRequest_freed s.requests s.heap).1, fun _ _ => ⟨rfl, rfl⟩⟩

/-- Every step moves the packaging stage along the allowed moves, or leaves it. -/
theorem step_stage (env : Environment) (s : ResourceServer) (st : Step) :
    (s.step env st).packagingStage = s.packagingStage
    ∨ stageMove s.packagingStage (s.step env st).packagingStage = true := by
  by_cases hu : ∃ input, st = Step.update input
  · obtain ⟨input, rfl⟩ := hu
    exact Update_stage env input s
  · cases hst : st.isStartPackaging with
    | false =>
      left
      exact ((step_quiet env s st).2 (fun input h => hu ⟨input, h⟩) hst).stage
    | true =>
      cases st <;> simp [Step.isStartPackaging] at hst
      simp only [ResourceServer.step]
      split
      · rename_i hcan
        right
        have := (CanStartPackaging_iff s).mp hcan
        rcases this.1 with h | h <;> simp [ResourceServer.StartPackaging, h, stageMove]
      · left; rfl

/-- Every step keeps the invariant of the session. -/
theorem SessionInvariant_step (env : Environment) (s : ResourceServer) (st : Step)
    (h : s.SessionInvariant) : (s.step env st).SessionInvariant := by
  by_cases hu : ∃ input, st = Step.update input
  · obtain ⟨input, rfl⟩ := hu
    exact SessionInvariant_Update env input s h
  · cases hst : st.isStartPackaging with
    | false =>
      exact SessionInvariant_of_quiet h (step_quiet env s st).1
        ((step_quiet env s st).2 (fun input h => hu ⟨input, h⟩) hst)
    | true =>
      cases st <;> simp [Step.isStartPackaging] at hst
      simp only [ResourceServer.step]
      split
      · rename_i hcan
        have hstage := ((CanStartPackaging_iff s).mp hcan).1
        have hnil : s.packagingRequests = [] := by
          apply h.cleared
          rcases hstage with h' | h' <;> simp [h']
        constructor
        · intro _; exact hnil
        · intro p hp
          have hp' : p ∈ s.packagingRequests := hp
          rw [hnil] at hp'
          exact absurd hp' (List.not_mem_nil p)
      · exact h

/-- Every state the server reaches satisfies the invariant of the session. -/
theorem SessionInvariant_of_reachable (env : Environment) (s : ResourceServer)
    (h : Reachable env s) : s.SessionInvariant := by
  obtain ⟨steps, rfl⟩ := h
  exact foldl_keeps ResourceServer.SessionInvariant _
    (fun st a hst => SessionInvariant_step env st a hst) steps _
    ⟨fun _ => rfl, fun p hp => absurd hp (List.not_mem_nil p)⟩

/-! ## Theorems: `Update` and the packaging stages -/

/-- The network block of `Update` only appends to the heap. -/
theorem pumpNetwork_heap (env : Environment) (input : UpdateInput) (s : ResourceServer) :
    ∃ extra, (s.pumpNetwork env input).heap = s.heap ++ extra := by
  unfold ResourceServer.pumpNetwork
  split
  · unfold ResourceServer.ProcessIncomingMessages
    refine foldl_keeps (fun st : ResourceServer => ∃ extra, st.heap = s.heap ++ extra) _ ?_
      input.incoming s ⟨[], by simp⟩
    intro st message ⟨extra, hextra⟩
    split
    · refine ⟨extra ++ [⟨newCompilationRequest env message.path message.clientConnectionID
        Origin.External, false⟩], ?_⟩
      simp [ResourceServer.CreateResourceRequest, hextra]
    · exact ⟨extra, hextra⟩
  · exact ⟨[], by simp⟩

/-- What `Update` does to the session in stage `Packaging`, in a state that satisfies
the invariant of the session: when every packaging request is complete the
stage becomes `Complete` and the packaging requests are cleared; otherwise
stage and packaging requests stay. -/
theorem Update_in_packaging (env : Environment) (input : UpdateInput) (s : ResourceServer)
    (hinv : s.SessionInvariant) (hstage : s.packagingStage = PackagingStage.Packaging) :
    (s.packagingRequests.all s.isCompleteAt = true →
      (s.Update env input).packagingStage = PackagingStage.Complete
      ∧ (s.Update env input).packagingRequests = [])
    ∧ (s.packagingRequests.all s.isCompleteAt = false →
      (s.Update env input).packagingStage = PackagingStage.Packaging
      ∧ (s.Update env input).packagingRequests = s.packagingRequests) := by
  obtain ⟨-, hsame, -⟩ := pumpNetwork_quiet env input s
  obtain ⟨extra, hextra⟩ := pumpNetwork_heap env input s
  have hstage1 : (s.pumpNetwork env input).packagingStage = PackagingStage.Packaging :=
    hsame.stage.trans hstage
  have hall : (s.pumpNetwork env input).packagingRequests.all
      (s.pumpNetwork env input).isCompleteAt = s.packagingRequests.all s.isCompleteAt := by
    rw [hsame.requests]
    have hpoint : ∀ p ∈ s.packagingRequests,
        (s.pumpNetwork env input).isCompleteAt p = s.isCompleteAt p := by
      intro p hp
      have hlt := hinv.allocated p hp
      simp [ResourceServer.isCompleteAt, hextra, List.getElem?_append_left hlt]
    generalize s.packagingRequests = l at hpoint
    induction l with
    | nil => rfl
    | cons a l ih =>
      simp only [List.all_cons]
      rw [hpoint a (List.mem_cons_self _ _),
        ih (fun p hp => hpoint p (List.mem_cons_of_mem _ hp))]
  obtain ⟨-, hfin, -⟩ := finishUpdate_quiet env input
    ((s.pumpNetwork env input).updatePackaging env)
  have hblock := updatePackaging_packaging env (s.pumpNetwork env input) hstage1
  rw [hall] at hblock
  constructor
  · intro h
    rw [h, if_pos rfl] at hblock
    rw [Update_eq, hfin.stage, hfin.requests, hblock]
    exact ⟨rfl, rfl⟩
  · intro h
    rw [h] at hblock
    simp only [Bool.false_eq_true, if_false] at hblock
    rw [Update_eq, hfin.stage, hfin.requests, hblock]
    exact ⟨hstage1, hsame.requests⟩

/-- C16: when `Update` runs in stage `Packaging`, the stage becomes `Complete` and
the packaging requests are cleared if every packaging request is complete,
and otherwise stage and packaging requests are unchanged; and every step of
the server leaves the stage as it is or moves it from `None` to `Preparing`,
from `Preparing` to `Packaging`, from `Packaging` to `Complete` or from
`Complete` to `Preparing`. -/
theorem C16_update_in_packaging_and_stage_moves (env : Environment) (input : UpdateInput)
    (s : ResourceServer) (hreach : Reachable env s)
    (hstage : s.packagingStage = PackagingStage.Packaging) :
    (s.packagingRequests.all s.isCompleteAt = true →
      (s.Update env input).packagingStage = PackagingStage.Complete
      ∧ (s.Update env input).packagingRequests = [])
    ∧ (s.packagingRequests.all s.isCompleteAt = false →
      (s.Update env input).packagingStage = PackagingStage.Packaging
      ∧ (s.Update env input).packagingRequests = s.packagingRequests)
    ∧ (∀ (t : ResourceServer) (st : Step),
        (t.step env st).packagingStage = t.packagingStage
        ∨ (t.packagingStage = PackagingStage.None
            ∧ (t.step env st).packagingStage = PackagingStage.Preparing)
        ∨ (t.packagingStage = PackagingStage.Preparing
            ∧ (t.step env st).packagingStage = PackagingStage.Packaging)
        ∨ (t.packagingStage = PackagingStage.Packaging
            ∧ (t.step env st).packagingStage = PackagingStage.Complete)
        ∨ (t.packagingStage = PackagingStage.Complete
            ∧ (t.step env st).packagingStage = PackagingStage.Preparing)) := by
  obtain ⟨h1, h2⟩ := Update_in_packaging env input s
    (SessionInvariant_of_reachable env s hreach) hstage
  refine ⟨h1, h2, ?_⟩
  intro t st
  rcases step_stage env t st with h | h
  · exact Or.inl h
  · right
    revert h
    cases t.packagingStage <;> cases (t.step env st).packagingStage <;> simp [stageMove]

/-- Witness of C16: in scenario S5, with the four requests complete, `Update` moves
from `Packaging` to `Complete` and clears the packaging requests. -/
theorem C16_update_in_packaging_and_stage_moves_witness :
    Reachable packagingEnv (ResourceServer.init.run packagingEnv exampleCompletedRun)
    ∧ (ResourceServer.init.run packagingEnv exampleCompletedRun).packagingStage
        = PackagingStage.Packaging
    ∧ (ResourceServer.init.run packagingEnv exampleCompletedRun).packagingRequests
        = [0, 1, 2, 3]
    ∧ ((ResourceServer.init.run packagingEnv exampleCompletedRun).Update packagingEnv
        quietInput).packagingStage = PackagingStage.Complete
    ∧ ((ResourceServer.init.run packagingEnv exampleCompletedRun).Update packagingEnv
        quietInput).packagingRequests = [] :=
  ⟨⟨_, rfl⟩, by decide, by decide,
   ((C16_update_in_packaging_and_stage_moves packagingEnv quietInput
      (ResourceServer.init.run packagingEnv exampleCompletedRun) ⟨_, rfl⟩ (by decide)).1
      (by decide)).1,
   ((C16_update_in_packaging_and_stage_moves packagingEnv quietInput
      (ResourceServer.init.run packagingEnv exampleCompletedRun) ⟨_, rfl⟩ (by decide)).1
      (by decide)).2⟩

/-! ## Theorems: packaging progress -/

/-- In stage `Complete`, `Update` leaves the stage as it is. -/
theorem Update_in_complete (env : Environment) (input : UpdateInput) (s : ResourceServer)
    (hstage : s.packagingStage = PackagingStage.Complete) :
    (s.Update env input).packagingStage = PackagingStage.Complete := by
  have h1 : (s.pumpNetwork env input).packagingStage = PackagingStage.Complete :=
    (pumpNetwork_quiet env input s).2.1.stage.trans hstage
  rw [Update_eq, (finishUpdate_quiet env input _).2.1.stage]
  simp [ResourceServer.updatePackaging, h1]

/-- The progress in stage `Packaging` with packaging requests. -/
theorem GetPackagingProgress_packaging (s : ResourceServer)
    (hstage : s.packagingStage = PackagingStage.Packaging) (hne : s.packagingRequests ≠ []) :
    s.GetPackagingProgress
      = some (1 / 20 + 19 / 20 *
          ((s.packagingRequests.countP s.isCompleteAt : ℚ)
            / (s.packagingRequests.length : ℚ))) := by
  have hlen : s.packagingRequests.length ≠ 0 := by
    intro h
    exact hne (List.length_eq_zero.mp h)
  simp [ResourceServer.GetPackagingProgress, hstage, hlen]

/-- What a packaging run looks like from a state in stage `Packaging`, as long as
packaging is not started again: either the stage is still `Packaging`, with
the same packaging requests, in a later state; or the stage is `Complete`. -/
theorem packaging_run_shape (env : Environment) (s : ResourceServer) :
    ∀ (steps : List Step) (t : ResourceServer),
      (∀ st ∈ steps, st.isStartPackaging = false) →
      t.SessionInvariant →
      ((t.packagingStage = PackagingStage.Packaging
          ∧ t.packagingRequests = s.packagingRequests ∧ s.Later t)
        ∨ t.packagingStage = PackagingStage.Complete) →
      (((t.run env steps).packagingStage = PackagingStage.Packaging
          ∧ (t.run env steps).packagingRequests = s.packagingRequests
          ∧ s.Later (t.run env steps))
        ∨ (t.run env steps).packagingStage = PackagingStage.Complete) := by
  intro steps
  induction steps with
  | nil => intro t _ _ h; exact h
  | cons st rest ih =>
    intro t hsteps htinv h
    have hst := hsteps st (List.mem_cons_self _ _)
    have hrun : t.run env (st :: rest) = (t.step env st).run env rest := rfl
    rw [hrun]
    refine ih (t.step env st) (fun a ha => hsteps a (List.mem_cons_of_mem _ ha))
      (SessionInvariant_step env t st htinv) ?_
    have hlater := (step_quiet env t st).1
    by_cases hu : ∃ input, st = Step.update input
    · obtain ⟨input, rfl⟩ := hu
      rcases h with ⟨hstage, hreq, hl⟩ | hstage
      · obtain ⟨h1, h2⟩ := Update_in_packaging env input t htinv hstage
        cases hall : t.packagingRequests.all t.isCompleteAt with
        | true => right; exact (h1 hall).1
        | false =>
          left
          exact ⟨(h2 hall).1, (h2 hall).2.trans hreq, Later_trans hl hlater⟩
      · right; exact Update_in_complete env input t hstage
    · have hsame := (step_quiet env t st).2 (fun input h => hu ⟨input, h⟩) hst
      rcases h with ⟨hstage, hreq, hl⟩ | hstage
      · left
        exact ⟨hsame.stage.trans hstage, hsame.requests.trans hreq, Later_trans hl hlater⟩
      · right; exact hsame.stage.trans hstage

/-- C17 fails on the run of scenario S5: the progress is 1 in stage `None`, drops
to 1/10 when packaging starts, and drops again to 1/20 when `Update` moves to
stage `Packaging` with none of the four requests complete. -/
theorem C17_counterexample_progress_drops :
    (ResourceServer.init.run packagingEnv (examplePackagingRun.take 1)).GetPackagingProgress
      = some 1
    ∧ (ResourceServer.init.run packagingEnv (examplePackagingRun.take 2)).GetPackagingProgress
      = some (1 / 10)
    ∧ (ResourceServer.init.run packagingEnv (examplePackagingRun.take 3)).GetPackagingProgress
      = some (1 / 10)
    ∧ (ResourceServer.init.run packagingEnv examplePackagingRun).GetPackagingProgress
      = some (1 / 20)
    ∧ ¬ ((1 : ℚ) ≤ 1 / 10) ∧ ¬ ((1 / 10 : ℚ) ≤ 1 / 20) := by
  have h1 : (ResourceServer.init.run packagingEnv (examplePackagingRun.take 1)).packagingStage
      = PackagingStage.None := by decide
  have h2 : (ResourceServer.init.run packagingEnv (examplePackagingRun.take 2)).packagingStage
      = PackagingStage.Preparing := by decide
  have h3 : (ResourceServer.init.run packagingEnv (examplePackagingRun.take 3)).packagingStage
      = PackagingStage.Preparing := by decide
  have h4 : (ResourceServer.init.run packagingEnv examplePackagingRun).packagingStage
      = PackagingStage.Packaging := by decide
  have h5 : (ResourceServer.init.run packagingEnv examplePackagingRun).packagingRequests
      = [0, 1, 2, 3] := by decide
  have h6 : (ResourceServer.init.run packagingEnv examplePackagingRun).packagingRequests.countP
      (ResourceServer.init.run packagingEnv examplePackagingRun).isCompleteAt = 0 := by decide
  refine ⟨?_, ?_, ?_, ?_, by norm_num, by norm_num⟩
  · simp only [ResourceServer.GetPackagingProgress, h1]
  · simp only [ResourceServer.GetPackagingProgress, h2]
  · simp only [ResourceServer.GetPackagingProgress, h3]
  · rw [GetPackagingProgress_packaging _ h4 (by rw [h5]; decide), h6, h5]
    norm_num

/-- A run leads to a later state. -/
theorem run_later (env : Environment) :
    ∀ (steps : List Step) (s : ResourceServer), s.Later (s.run env steps) := by
  intro steps
  induction steps with
  | nil => intro s; exact Later_refl s
  | cons st rest ih =>
    intro s
    exact Later_trans (step_quiet env s st).1 (ih (s.step env st))

/-- An address is dangling when the object behind it is marked freed. -/
theorem isDangling_iff (s : ResourceServer) (p : Nat) :
    s.isDangling p = true ↔ (s.heap[p]?).map HeapCell.freed = some true := by
  unfold ResourceServer.isDangling
  cases s.heap[p]? with
  | none => simp
  | some cell => simp

/-- C17 as amended: from a state of a packaging run in stage `Packaging`, with
packaging requests, to every later state of the same run, that is as long as
packaging is not started again, in which none of those packaging requests has
been deleted, the progress, in exact rationals, does not decrease and stays
at most 1: the stage is `Packaging` with the same requests, of which no fewer
are complete, or it is `Complete` with progress 1. None of the requests was
deleted in the earlier state either, so both values are computed from
requests that exist. -/
theorem C17_progress_nondecreasing_from_packaging (env : Environment) (s : ResourceServer)
    (steps : List Step) (hreach : Reachable env s)
    (hstage : s.packagingStage = PackagingStage.Packaging)
    (hne : s.packagingRequests ≠ [])
    (hsteps : ∀ st ∈ steps, st.isStartPackaging = false)
    (hlive : ∀ p ∈ s.packagingRequests, (s.run env steps).isDangling p = false) :
    (∀ p ∈ s.packagingRequests, s.isDangling p = false)
    ∧ ∃ a b : ℚ, s.GetPackagingProgress = some a
      ∧ (s.run env steps).GetPackagingProgress = some b ∧ a ≤ b ∧ b ≤ 1 := by
  have hinv := SessionInvariant_of_reachable env s hreach
  have hlenpos : (0 : ℚ) < (s.packagingRequests.length : ℚ) := by
    have : 0 < s.packagingRequests.length := List.length_pos.mpr hne
    exact_mod_cast this
  have hcount : ∀ t : ResourceServer,
      ((s.packagingRequests.countP t.isCompleteAt : ℕ) : ℚ)
        ≤ (s.packagingRequests.length : ℚ) := by
    intro t
    exact_mod_cast List.countP_le_length _
  have hbound : ∀ t : ResourceServer,
      (1 / 20 + 19 / 20 * ((s.packagingRequests.countP t.isCompleteAt : ℚ)
        / (s.packagingRequests.length : ℚ)) : ℚ) ≤ 1 := by
    intro t
    have h1 : ((s.packagingRequests.countP t.isCompleteAt : ℚ)
        / (s.packagingRequests.length : ℚ)) ≤ 1 := (div_le_one hlenpos).mpr (hcount t)
    linarith
  refine ⟨?_, ?_⟩
  · intro p hp
    cases hd : s.isDangling p with
    | false => rfl
    | true =>
      have ht := (isDangling_iff _ p).mpr
        ((run_later env steps s).freed_mono p ((isDangling_iff s p).mp hd))
      rw [hlive p hp] at ht
      cases ht
  rcases packaging_run_shape env s steps s hsteps hinv
      (Or.inl ⟨hstage, rfl, Later_refl s⟩) with ⟨hstage', hreq', hl⟩ | hstage'
  · refine ⟨_, 1 / 20 + 19 / 20 *
        ((s.packagingRequests.countP (s.run env steps).isCompleteAt : ℚ)
          / (s.packagingRequests.length : ℚ)),
      GetPackagingProgress_packaging s hstage hne, ?_, ?_, hbound (s.run env steps)⟩
    · rw [GetPackagingProgress_packaging _ hstage' (by rw [hreq']; exact hne), hreq']
    · have hmono : s.packagingRequests.countP s.isCompleteAt
          ≤ s.packagingRequests.countP (s.run env steps).isCompleteAt := by
        apply List.countP_mono_left
        intro p hp hc
        refine hl.complete_mono p (hinv.allocated p hp) ?_ hc
        intro hfreed
        have hd := (isDangling_iff _ p).mpr hfreed
        rw [hlive p hp] at hd
        cases hd
      have hmonoq : ((s.packagingRequests.countP s.isCompleteAt : ℕ) : ℚ)
          ≤ ((s.packagingRequests.countP (s.run env steps).isCompleteAt : ℕ) : ℚ) := by
        exact_mod_cast hmono
      have hdiv : ((s.packagingRequests.countP s.isCompleteAt : ℚ)
            / (s.packagingRequests.length : ℚ))
          ≤ ((s.packagingRequests.countP (s.run env steps).isCompleteAt : ℚ)
            / (s.packagingRequests.length : ℚ)) :=
        div_le_div_of_nonneg_right hmonoq (le_of_lt hlenpos)
      linarith
  · refine ⟨_, 1, GetPackagingProgress_packaging s hstage hne, ?_, hbound s, le_refl _⟩
    simp only [ResourceServer.GetPackagingProgress, hstage']

/-- Witness of C17: in scenario S5 the progress goes from 1/20, with no request
complete, to 1 once the four requests are complete and `Update` has run; no
request is deleted on the way. -/
theorem C17_progress_nondecreasing_from_packaging_witness :
    Reachable packagingEnv (ResourceServer.init.run packagingEnv examplePackagingRun)
    ∧ (ResourceServer.init.run packagingEnv examplePackagingRun).packagingStage
        = PackagingStage.Packaging
    ∧ (ResourceServer.init.run packagingEnv examplePackagingRun).packagingRequests ≠ []
    ∧ (∀ p ∈ (ResourceServer.init.run packagingEnv examplePackagingRun).packagingRequests,
        ((ResourceServer.init.run packagingEnv examplePackagingRun).run packagingEnv
          [Step.executeTask 0 (exampleRun 1), Step.executeTask 1 (exampleRun 1),
           Step.executeTask 2 (exampleRun 1), Step.executeTask 3 (exampleRun 1),
           Step.update quietInput]).isDangling p = false)
    ∧ ∃ a b : ℚ,
        (ResourceServer.init.run packagingEnv examplePackagingRun).GetPackagingProgress = some a
        ∧ ((ResourceServer.init.run packagingEnv examplePackagingRun).run packagingEnv
            [Step.executeTask 0 (exampleRun 1), Step.executeTask 1 (exampleRun 1),
             Step.executeTask 2 (exampleRun 1), Step.executeTask 3 (exampleRun 1),
             Step.update quietInput]).GetPackagingProgress = some b
        ∧ a ≤ b ∧ b ≤ 1 :=
  ⟨⟨_, rfl⟩, by decide, by decide, by decide,
   (C17_progress_nondecreasing_from_packaging packagingEnv
     (ResourceServer.init.run packagingEnv examplePackagingRun)
     [Step.executeTask 0 (exampleRun 1), Step.executeTask 1 (exampleRun 1),
      Step.executeTask 2 (exampleRun 1), Step.executeTask 3 (exampleRun 1),
      Step.update quietInput]
     ⟨_, rfl⟩ (by decide) (by decide) (by decide) (by decide)).2⟩

/-! ## Theorems: the assertion of the reap pass -/

/-- What the unordered erase leaves was in the list. -/
theorem mem_of_mem_eraseUnsorted {α : Type} (v : List α) (i : Nat) (x : α)
    (h : x ∈ eraseUnsorted v i) : x ∈ v := by
  unfold eraseUnsorted at h
  cases hlast : v.getLast? with
  | none => rw [hlast] at h; exact h
  | some last =>
    rw [hlast] at h
    rcases List.mem_or_eq_of_mem_set (List.mem_of_mem_dropLast h) with h1 | h1
    · exact h1
    · rw [h1]; exact List.mem_of_getLast?_eq_some hlast

/-- When every finished task holds a complete request, the assertion holds
throughout the reap loop. -/
theorem reapLoopAsserts_of_finished_complete (connectedClients : List Nat) :
    ∀ (n : Nat) (s : ResourceServer),
      (∀ task ∈ s.activeTasks, task.isComplete = true →
        s.isCompleteAt task.pRequest = true) →
      ResourceServer.reapLoopAsserts connectedClients n s = true := by
  intro n
  induction n with
  | zero => intro s _; rfl
  | succ i ih =>
    intro s h
    unfold ResourceServer.reapLoopAsserts
    cases hti : s.activeTasks[i]? with
    | none => exact ih s h
    | some task =>
      simp only
      by_cases hc : task.isComplete = true
      · rw [if_pos hc, Bool.and_eq_true]
        refine ⟨h task (List.getElem?_mem hti) hc, ih _ ?_⟩
        intro t ht htc
        have hmem : t ∈ s.activeTasks := mem_of_mem_eraseUnsorted _ _ _ ht
        exact h t hmem htc
      · rw [if_neg hc]
        exact ih s h

/-- C22, at the failing input: before `Shutdown` the assertion of
`ProcessCompletedRequests` holds in every state the server reaches; but when a
request is created for client 7 and `Shutdown` is called before a worker has
run its task, the reap pass of `Shutdown` finds the task finished and its
request still `Pending`, and the assertion fails. -/
theorem C22_shutdown_reap_assertion_fails :
    (∀ (env : Environment) (s : ResourceServer) (connectedClients : List Nat),
      Reachable env s → s.isExiting = false → s.reapAsserts connectedClients = true)
    ∧ Reachable exampleEnv
        (ResourceServer.init.run exampleEnv [Step.create animResourceID 7 Origin.External])
    ∧ (ResourceServer.init.run exampleEnv
        [Step.create animResourceID 7 Origin.External]).shutdownCompleteScheduled exampleEnv
          (fun _ => exampleRun 1) [7]
      = ((ResourceServer.init.run exampleEnv
          [Step.create animResourceID 7 Origin.External]).shutdownWait exampleEnv
            (fun _ => exampleRun 1)).ProcessCompletedRequests [7]
    ∧ ((ResourceServer.init.run exampleEnv
        [Step.create animResourceID 7 Origin.External]).shutdownWait exampleEnv
          (fun _ => exampleRun 1)).activeTasks = [{ pRequest := 0, isComplete := true }]
    ∧ (((ResourceServer.init.run exampleEnv
        [Step.create animResourceID 7 Origin.External]).shutdownWait exampleEnv
          (fun _ => exampleRun 1)).request? 0).map CompilationRequest.status
        = some Status.Pending
    ∧ ((ResourceServer.init.run exampleEnv
        [Step.create animResourceID 7 Origin.External]).shutdownWait exampleEnv
          (fun _ => exampleRun 1)).reapAsserts [7] = false := by
  refine ⟨?_, ⟨_, rfl⟩, rfl, by decide, by decide, by decide⟩
  intro env s connectedClients hreach hx
  exact reapLoopAsserts_of_finished_complete connectedClients _ s
    ((Invariant_of_reachable env s hreach).finished_complete hx)

/-! ## Theorems: references to deleted requests -/

/-- C23, at the failing inputs: cleanup evicts and deletes requests that are still
referred to. In the first run a request is created already failed and `Update`
runs with cleanup asked for before a worker has run its task: the task stays
in `m_activeTasks` and its request is deleted and gone from `m_requests`. In
the second run, in stage `Packaging`, one of the four requests completes and
`Update` runs with cleanup asked for: the stage is still `Packaging` and the
first packaging request is deleted and gone from `m_requests`. -/
theorem C23_cleanup_evicts_referenced_requests :
    Reachable exampleEnv (ResourceServer.init.run exampleEnv exampleEvictedTaskRun)
    ∧ (ResourceServer.init.run exampleEnv exampleEvictedTaskRun).activeTasks
        = [{ pRequest := 0, isComplete := false }]
    ∧ (ResourceServer.init.run exampleEnv exampleEvictedTaskRun).requests = []
    ∧ (ResourceServer.init.run exampleEnv exampleEvictedTaskRun).isDangling 0 = true
    ∧ Reachable packagingEnv (ResourceServer.init.run packagingEnv exampleEvictedPackagingRun)
    ∧ (ResourceServer.init.run packagingEnv exampleEvictedPackagingRun).packagingStage
        = PackagingStage.Packaging
    ∧ (ResourceServer.init.run packagingEnv exampleEvictedPackagingRun).packagingRequests
        = [0, 1, 2, 3]
    ∧ (ResourceServer.init.run packagingEnv exampleEvictedPackagingRun).requests = [1, 2, 3]
    ∧ (ResourceServer.init.run packagingEnv exampleEvictedPackagingRun).isDangling 0 = true := by
  refine ⟨⟨_, rfl⟩, by decide, by decide, by decide, ⟨_, rfl⟩, by decide, by decide,
    by decide, by decide⟩

/-! ## Theorems: the divisor of the packaging progress -/

/-- C24 fails when the packaging task returns the empty list: no compiler is
registered and nothing is statically required; `Update` moves to stage
`Packaging` with no packaging request, and the progress is zero divided by
zero. -/
theorem C24_counterexample_packaging_without_requests :
    Reachable exampleEnv (ResourceServer.init.run exampleEnv exampleEmptyPackagingRun)
    ∧ (ResourceServer.init.run exampleEnv (exampleEmptyPackagingRun.take 3)).pPackagingTask
        = some { runtimeDependencies := [], isComplete := true }
    ∧ (ResourceServer.init.run exampleEnv exampleEmptyPackagingRun).packagingStage
        = PackagingStage.Packaging
    ∧ (ResourceServer.init.run exampleEnv exampleEmptyPackagingRun).packagingRequests = []
    ∧ (ResourceServer.init.run exampleEnv exampleEmptyPackagingRun).GetPackagingProgress
        = none := by
  have h1 : (ResourceServer.init.run exampleEnv exampleEmptyPackagingRun).packagingStage
      = PackagingStage.Packaging := by decide
  have h2 : (ResourceServer.init.run exampleEnv exampleEmptyPackagingRun).packagingRequests
      = [] := by decide
  refine ⟨⟨_, rfl⟩, by decide, h1, h2, ?_⟩
  simp only [ResourceServer.GetPackagingProgress, h1, h2, List.length_nil, if_true]

/-- C24 as amended: in every state the server reaches whose stage is `Packaging` and
whose packaging requests are not empty, the divisor of the progress is not
zero and the progress lies between 1/20 and 1; and when `Update` runs in stage
`Preparing` with the packaging task complete, it enters stage `Packaging`
with as many packaging requests as the task returned runtime dependencies. -/
theorem C24_progress_bounds (env : Environment) (input : UpdateInput) (s : ResourceServer)
    (task : PackagingTask) (hreach : Reachable env s) :
    (s.packagingStage = PackagingStage.Packaging → s.packagingRequests ≠ [] →
      s.packagingRequests.length ≠ 0
      ∧ ∃ v : ℚ, s.GetPackagingProgress = some v ∧ 1 / 20 ≤ v ∧ v ≤ 1)
    ∧ (s.packagingStage = PackagingStage.Preparing → s.pPackagingTask = some task →
        task.isComplete = true →
        (s.Update env input).packagingStage = PackagingStage.Packaging
        ∧ (s.Update env input).packagingRequests.length
            = task.runtimeDependencies.length) := by
  constructor
  · intro hstage hne
    have hlen : s.packagingRequests.length ≠ 0 := fun h => hne (List.length_eq_zero.mp h)
    have hlenpos : (0 : ℚ) < (s.packagingRequests.length : ℚ) := by
      have : 0 < s.packagingRequests.length := Nat.pos_of_ne_zero hlen
      exact_mod_cast this
    have hcount : ((s.packagingRequests.countP s.isCompleteAt : ℕ) : ℚ)
        ≤ (s.packagingRequests.length : ℚ) := by
      exact_mod_cast List.countP_le_length _
    have h0 : (0 : ℚ) ≤ ((s.packagingRequests.countP s.isCompleteAt : ℕ) : ℚ) := by
      exact_mod_cast Nat.zero_le _
    have h1 : ((s.packagingRequests.countP s.isCompleteAt : ℚ)
        / (s.packagingRequests.length : ℚ)) ≤ 1 := (div_le_one hlenpos).mpr hcount
    have h2 : (0 : ℚ) ≤ ((s.packagingRequests.countP s.isCompleteAt : ℚ)
        / (s.packagingRequests.length : ℚ)) := div_nonneg h0 (le_of_lt hlenpos)
    refine ⟨hlen, _, GetPackagingProgress_packaging s hstage hne, ?_, ?_⟩
    · linarith
    · linarith
  · intro hstage htask hc
    obtain ⟨-, hsame, hpt⟩ := pumpNetwork_quiet env input s
    have hstage1 : (s.pumpNetwork env input).packagingStage = PackagingStage.Preparing :=
      hsame.stage.trans hstage
    have htask1 : (s.pumpNetwork env input).pPackagingTask = some task := hpt.trans htask
    have hnil : (s.pumpNetwork env input).packagingRequests = [] := by
      rw [hsame.requests]
      exact (SessionInvariant_of_reachable env s hreach).cleared (by rw [hstage]; decide)
    have he := (updatePackaging_preparing env (s.pumpNetwork env input) hstage1).2.2
      task htask1 hc
    obtain ⟨-, hfin, -⟩ := finishUpdate_quiet env input
      ((s.pumpNetwork env input).updatePackaging env)
    constructor
    · rw [Update_eq, hfin.stage, he]
    · rw [Update_eq, hfin.requests, he]
      simp [hnil]

/-- Witness of C24: in scenario S5, in stage `Packaging` with four packaging requests
of which none is complete, the progress is 1/20. -/
theorem C24_progress_bounds_witness :
    Reachable packagingEnv (ResourceServer.init.run packagingEnv examplePackagingRun)
    ∧ (ResourceServer.init.run packagingEnv examplePackagingRun).packagingStage
        = PackagingStage.Packaging
    ∧ (ResourceServer.init.run packagingEnv examplePackagingRun).packagingRequests ≠ []
    ∧ ∃ v : ℚ,
        (ResourceServer.init.run packagingEnv examplePackagingRun).GetPackagingProgress = some v
        ∧ 1 / 20 ≤ v ∧ v ≤ 1 :=
  ⟨⟨_, rfl⟩, by decide, by decide,
   ((C24_progress_bounds packagingEnv quietInput
      (ResourceServer.init.run packagingEnv examplePackagingRun)
      { runtimeDependencies := [], isComplete := true } ⟨_, rfl⟩).1
      (by decide) (by decide)).2⟩

/-! ## Theorems: termination of the packaging expansion -/

/-- Whether a monadic fold succeeds, when the success of a step does not depend on
the value folded so far. -/
theorem foldlM_isSome {α β : Type} (f : β → α → Option β) (g : α → Bool) :
    ∀ (l : List α) (b : β), (∀ a ∈ l, ∀ b', (f b' a).isSome = g a) →
      (l.foldlM f b).isSome = l.all g := by
  intro l
  induction l with
  | nil => intro b _; rfl
  | cons a l ih =>
    intro b h
    simp only [List.foldlM_cons, List.all_cons, Option.bind_eq_bind]
    have ha := h a (List.mem_cons_self _ _) b
    cases hfa : f b a with
    | none =>
      rw [hfa] at ha
      simp only [Option.isSome_none] at ha
      simp [← ha]
    | some b' =>
      rw [hfa] at ha
      simp only [Option.isSome_some] at ha
      simp only [Option.some_bind, ← ha, Bool.true_and]
      exact ih b' (fun a' ha' => h a' (List.mem_cons_of_mem _ ha'))

/-- With the exit flag clear, the expansion of a resource finishes exactly when its
recursion fits in the fuel, whatever the dependency list holds already. -/
theorem EnqueueResourceForPackaging_isSome (env : Environment) :
    ∀ (fuel : Nat) (resourceID : ResourceID) (deps : List ResourceID),
      (PackagingTask.EnqueueResourceForPackaging env false fuel resourceID deps).isSome
        = expansionFits env fuel resourceID := by
  intro fuel
  induction fuel with
  | zero => intro r deps; rfl
  | succ fuel ih =>
    intro r deps
    unfold PackagingTask.EnqueueResourceForPackaging expansionFits
    simp only [Bool.false_eq_true, if_false]
    cases hc : env.GetCompilerForResourceType r.typeID with
    | none => rfl
    | some pCompiler =>
      exact foldlM_isSome _ _ _ _ (fun d _ b => ih d b)

/-- With the exit flag clear, the packaging task finishes exactly when the recursion
from every seed fits in the fuel. -/
theorem ExecuteRange_isSome (env : Environment) (fuel : Nat) (seeds : List ResourceID) :
    (PackagingTask.ExecuteRange env false fuel seeds).isSome
      = seeds.all (expansionFits env fuel) := by
  unfold PackagingTask.ExecuteRange
  exact foldlM_isSome _ _ _ _
    (fun m _ b => EnqueueResourceForPackaging_isSome env fuel m b)

/-- A recursion that fits in the fuel fits in more fuel. -/
theorem expansionFits_succ (env : Environment) :
    ∀ (fuel : Nat) (resourceID : ResourceID),
      expansionFits env fuel resourceID = true →
      expansionFits env (fuel + 1) resourceID = true := by
  intro fuel
  induction fuel with
  | zero => intro r h; simp [expansionFits] at h
  | succ fuel ih =>
    intro r h
    unfold expansionFits at h ⊢
    cases hc : env.GetCompilerForResourceType r.typeID with
    | none => rfl
    | some pCompiler =>
      simp only [hc, List.all_eq_true] at h ⊢
      exact fun d hd => ih d (h d hd)

/-- When the recursion from a resource fits in the fuel, the recursion from each of
the resources it depends on fits in one level less. -/
theorem expansionFits_dependency (env : Environment) (fuel : Nat) (r d : ResourceID)
    (h : expansionFits env (fuel + 1) r = true) (hdep : DependsOn env r d) :
    expansionFits env fuel d = true := by
  obtain ⟨c, cd, hc, hd, -⟩ := hdep
  unfold expansionFits at h
  simp only [hc, List.all_eq_true] at h
  exact h d hd

/-- A resource from which the recursion fits in some fuel is on no dependency cycle. -/
theorem not_cycle_of_expansionFits (env : Environment) :
    ∀ (fuel : Nat) (x : ResourceID), expansionFits env fuel x = true →
      ¬ Relation.TransGen (DependsOn env) x x := by
  intro fuel
  induction fuel with
  | zero => intro x h; simp [expansionFits] at h
  | succ fuel ih =>
    intro x h hcyc
    obtain ⟨y, hxy, hyx⟩ := Relation.TransGen.head'_iff.mp hcyc
    exact ih y (expansionFits_dependency env fuel x y h hxy)
      (Relation.TransGen.tail' hyx hxy)

/-- When the recursion from every seed fits in the fuel, so does the recursion from
every listed resource. -/
theorem expansionFits_of_listed (env : Environment) (seeds : List ResourceID) (fuel : Nat)
    (hseeds : ∀ m ∈ seeds, expansionFits env fuel m = true) (r : ResourceID)
    (h : Listed env seeds r) : expansionFits env fuel r = true := by
  induction h with
  | seed m c hm _ => exact hseeds m hm
  | dependency r d c cd _ hc hd hcd ih =>
    cases fuel with
    | zero => simp [expansionFits] at ih
    | succ fuel =>
      exact expansionFits_succ env fuel d
        (expansionFits_dependency env fuel r d ih ⟨c, cd, hc, hd, hcd⟩)

/-- What a listed resource reaches along dependencies is listed. -/
theorem listed_of_reflTransGen (env : Environment) (seeds : List ResourceID) (r x : ResourceID)
    (hr : Listed env seeds r) (h : Relation.ReflTransGen (DependsOn env) r x) :
    Listed env seeds x := by
  induction h with
  | refl => exact hr
  | tail _ hstep ih =>
    obtain ⟨c, cd, hc, hd, hcd⟩ := hstep
    exact Listed.dependency _ _ c cd ih hc hd hcd

/-- From a resource that reaches only the resources of a finite list, and no cycle,
the recursion fits in fuel one above the length of the list. -/
theorem expansionFits_of_finite_acyclic (env : Environment) :
    ∀ (n : Nat) (known : List ResourceID) (r : ResourceID), known.length = n →
      (∀ x, Relation.ReflTransGen (DependsOn env) r x → x ∈ known) →
      (∀ x, Relation.ReflTransGen (DependsOn env) r x →
        ¬ Relation.TransGen (DependsOn env) x x) →
      expansionFits env (n + 1) r = true := by
  intro n
  induction n with
  | zero =>
    intro U r hlen hU _
    have hr := hU r Relation.ReflTransGen.refl
    rw [List.length_eq_zero.mp hlen] at hr
    exact absurd hr (List.not_mem_nil r)
  | succ k ih =>
    intro U r hlen hU hacyc
    unfold expansionFits
    cases hc : env.GetCompilerForResourceType r.typeID with
    | none => rfl
    | some c =>
      simp only [List.all_eq_true]
      intro d hd
      cases hcd : env.GetCompilerForResourceType d.typeID with
      | none =>
        unfold expansionFits
        simp [hcd]
      | some cd =>
        have hdep : DependsOn env r d := ⟨c, cd, hc, hd, hcd⟩
        have hrU : r ∈ U := hU r Relation.ReflTransGen.refl
        refine ih (U.erase r) d ?_ ?_ ?_
        · rw [List.length_erase_of_mem hrU, hlen]
          rfl
        · intro x hx
          have hxU : x ∈ U := hU x (Relation.ReflTransGen.head hdep hx)
          have hne : x ≠ r := by
            intro hxr
            rw [hxr] at hx
            exact hacyc r Relation.ReflTransGen.refl (Relation.TransGen.head' hdep hx)
          exact (List.mem_erase_of_ne hne).mpr hxU
        · intro x hx
          exact hacyc x (Relation.ReflTransGen.head hdep hx)

/-- C21: `EnqueueResourceForPackaging` inserts a resource uniquely and then recurses
into its install dependencies also when the resource was in the list already,
and whether the recursion finishes does not depend on the list; hence, with
`isExiting` false and the listed resources within a finite list, the packaging
task finishes, for some amount of fuel, if and only if no resource reachable
from a seed map through resources with a registered compiler lies on a cycle
of install dependencies among such resources. -/
theorem C21_expansion_terminates_iff_no_reachable_cycle (env : Environment)
    (seeds known : List ResourceID)
    (hfinite : ∀ r, Listed env seeds r → r ∈ known) :
    (∀ (fuel : Nat) (r : ResourceID) (deps : List ResourceID) (c : Compiler),
      r ∈ deps → env.GetCompilerForResourceType r.typeID = some c →
      PackagingTask.EnqueueResourceForPackaging env false (fuel + 1) r deps
        = (c.GetInstallDependencies r).foldlM
            (fun x d => PackagingTask.EnqueueResourceForPackaging env false fuel d x) deps)
    ∧ (∀ (fuel : Nat) (r : ResourceID) (deps deps2 : List ResourceID),
      (PackagingTask.EnqueueResourceForPackaging env false fuel r deps).isSome
        = (PackagingTask.EnqueueResourceForPackaging env false fuel r deps2).isSome)
    ∧ ((∃ fuel out, PackagingTask.ExecuteRange env false fuel seeds = some out)
      ↔ ¬ ∃ r, Listed env seeds r ∧ Relation.TransGen (DependsOn env) r r) := by
  refine ⟨?_, ?_, ?_⟩
  · intro fuel r deps c hr hc
    rw [PackagingTask.EnqueueResourceForPackaging]
    simp [hc, VectorEmplaceBackUnique, hr]
  · intro fuel r deps deps2
    rw [EnqueueResourceForPackaging_isSome, EnqueueResourceForPackaging_isSome]
  · constructor
    · rintro ⟨fuel, out, hout⟩ ⟨r, hlisted, hcyc⟩
      have hall : seeds.all (expansionFits env fuel) = true := by
        rw [← ExecuteRange_isSome, hout]
        rfl
      rw [List.all_eq_true] at hall
      exact not_cycle_of_expansionFits env fuel r
        (expansionFits_of_listed env seeds fuel hall r hlisted) hcyc
    · intro hno
      have hall : seeds.all (expansionFits env (known.length + 1)) = true := by
        rw [List.all_eq_true]
        intro m hm
        cases hc : env.GetCompilerForResourceType m.typeID with
        | none =>
          unfold expansionFits
          simp [hc]
        | some c =>
          have hlisted : Listed env seeds m := Listed.seed m c hm hc
          exact expansionFits_of_finite_acyclic env known.length known m rfl
            (fun x hx => hfinite x (listed_of_reflTransGen env seeds m x hlisted hx))
            (fun x hx hcyc =>
              hno ⟨x, listed_of_reflTransGen env seeds m x hlisted hx, hcyc⟩)
      rw [← ExecuteRange_isSome] at hall
      cases hout : PackagingTask.ExecuteRange env false (known.length + 1) seeds with
      | none => rw [hout] at hall; cases hall
      | some out => exact ⟨known.length + 1, out, hout⟩

/-- In scenario S5 the listed resources are `m1`, `a`, `b` and `c`. -/
theorem listed_packagingEnv (r : ResourceID) (h : Listed packagingEnv [exampleMap] r) :
    r ∈ [exampleMap, exampleA, exampleB, exampleC] := by
  induction h with
  | seed m c hm _ =>
    rw [List.mem_singleton] at hm
    rw [hm]
    decide
  | dependency r d c cd _ hc hd _ ih =>
    have hc2 : c = { GetInstallDependencies := exampleInstallDependencies } := by
      have : some { GetInstallDependencies := exampleInstallDependencies } = some c := hc
      exact (Option.some.inj this).symm
    rw [hc2] at hd
    simp only [List.mem_cons, List.mem_singleton, List.not_mem_nil, or_false] at ih
    rcases ih with h | h | h | h <;> rw [h] at hd <;> revert hd <;>
      simp [exampleInstallDependencies, exampleMap, exampleA, exampleB, exampleC] <;>
      tauto

/-- Witness of C21: in scenario S5 the listed resources are `m1`, `a`, `b`, `c`, the
packaging task finishes with fuel 3, and so none of them lies on a cycle. -/
theorem C21_expansion_terminates_iff_no_reachable_cycle_witness :
    (∀ r, Listed packagingEnv [exampleMap] r → r ∈ [exampleMap, exampleA, exampleB, exampleC])
    ∧ PackagingTask.ExecuteRange packagingEnv false 3 [exampleMap]
        = some [exampleMap, exampleA, exampleB, exampleC]
    ∧ ¬ ∃ r, Listed packagingEnv [exampleMap] r
        ∧ Relation.TransGen (DependsOn packagingEnv) r r :=
  ⟨listed_packagingEnv, by decide,
   (C21_expansion_terminates_iff_no_reachable_cycle packagingEnv [exampleMap]
      [exampleMap, exampleA, exampleB, exampleC] listed_packagingEnv).2.2.mp
      ⟨3, [exampleMap, exampleA, exampleB, exampleC], by decide⟩⟩

/-- With a cycle that a seed map reaches the packaging task finishes for no amount of
fuel: `m1` needs `a`, `a` needs `b`, `b` needs `a`. -/
theorem cyclic_expansion_never_finishes (fuel : Nat) :
    PackagingTask.ExecuteRange cyclicEnv false fuel [exampleMap] = none := by
  have hcomp : ∀ r : ResourceID, cyclicEnv.GetCompilerForResourceType r.typeID
      = some { GetInstallDependencies := cyclicInstallDependencies } := fun _ => rfl
  have hma : DependsOn cyclicEnv exampleMap exampleA :=
    ⟨_, _, hcomp exampleMap, by decide, hcomp exampleA⟩
  have hab : DependsOn cyclicEnv exampleA exampleB :=
    ⟨_, _, hcomp exampleA, by decide, hcomp exampleB⟩
  have hba : DependsOn cyclicEnv exampleB exampleA :=
    ⟨_, _, hcomp exampleB, by decide, hcomp exampleA⟩
  have hcyc : Relation.TransGen (DependsOn cyclicEnv) exampleA exampleA :=
    Relation.TransGen.head hab (Relation.TransGen.single hba)
  cases hout : PackagingTask.ExecuteRange cyclicEnv false fuel [exampleMap] with
  | none => rfl
  | some out =>
    exfalso
    have hall : [exampleMap].all (expansionFits cyclicEnv fuel) = true := by
      rw [← ExecuteRange_isSome, hout]
      rfl
    have hm : expansionFits cyclicEnv fuel exampleMap = true := by
      simpa using hall
    cases fuel with
    | zero => simp [expansionFits] at hm
    | succ fuel =>
      exact not_cycle_of_expansionFits cyclicEnv fuel exampleA
        (expansionFits_dependency cyclicEnv fuel exampleMap exampleA hm hma) hcyc

/-! ## Theorems: what `Shutdown` leaves -/

/-- Workers find nothing to do when every task has run already. -/
theorem executeTask_range_of_complete (env : Environment) (runs : Nat → SubprocessRun)
    (s : ResourceServer) (hdrained : ∀ task ∈ s.activeTasks, task.isComplete = true) :
    ∀ n : Nat, (List.range n).foldl (fun st i => st.executeTask env (runs i) i) s = s := by
  intro n
  induction n with
  | zero => rfl
  | succ n ih =>
    rw [List.range_succ, List.foldl_append, ih]
    simp only [List.foldl_cons, List.foldl_nil]
    unfold ResourceServer.executeTask
    cases hti : s.activeTasks[n]? with
    | none => rfl
    | some task =>
      simp only [hdrained task (List.getElem?_mem hti), if_true]

/-- When every task has run already, the wait of `Shutdown` sets the exit flag and
lets the packaging task run, nothing else. -/
theorem shutdownWait_of_complete (env : Environment) (runs : Nat → SubprocessRun)
    (s : ResourceServer) (hdrained : ∀ task ∈ s.activeTasks, task.isComplete = true) :
    { s.shutdownWait env runs with
      isExiting := s.isExiting, pPackagingTask := s.pPackagingTask } = s := by
  unfold ResourceServer.shutdownWait ResourceServer.WaitForAll
  rw [executeTask_range_of_complete env runs { s with isExiting := true } hdrained]
  have hframe := executePackagingTask_frame env 1 { s with isExiting := true }
  have := congrArg (fun t : ResourceServer => { t with isExiting := s.isExiting }) hframe
  exact this

/-- C19 fails for the request list: a request is created, its task runs and is
reaped, so that the workers have drained; after `Shutdown` no task is scheduled
or active, the request has been deleted, and `m_requests` still has one entry,
a nullptr. -/
theorem C19_counterexample_requests_not_emptied :
    Reachable exampleEnv (ResourceServer.init.run exampleEnv exampleDrainedRun)
    ∧ (ResourceServer.init.run exampleEnv exampleDrainedRun).activeTasks = []
    ∧ ((ResourceServer.init.run exampleEnv exampleDrainedRun).Shutdown exampleEnv
        (fun _ => exampleRun 1) [7]).numScheduledTasks = 0
    ∧ ((ResourceServer.init.run exampleEnv exampleDrainedRun).Shutdown exampleEnv
        (fun _ => exampleRun 1) [7]).isDangling 0 = true
    ∧ ((ResourceServer.init.run exampleEnv exampleDrainedRun).Shutdown exampleEnv
        (fun _ => exampleRun 1) [7]).requestEntries = [none]
    ∧ ((ResourceServer.init.run exampleEnv exampleDrainedRun).Shutdown exampleEnv
        (fun _ => exampleRun 1) [7]).requestEntries ≠ [] :=
  ⟨⟨_, rfl⟩, by decide, by decide, by decide, by decide, by decide⟩

/-- C19 as amended: after `Shutdown`, from any state the server reaches in which the
worker tasks have drained, that is every task has run and left its request
complete, `m_numScheduledTasks` is 0 and `m_activeTasks` is empty;
`m_requests` has as many entries as before, every one a nullptr, and every
request it held has been deleted. The assertion of the reap pass holds on the
way. -/
theorem C19_shutdown_quiescence (env : Environment) (runs : Nat → SubprocessRun)
    (connectedClients : List Nat) (s : ResourceServer) (hreach : Reachable env s)
    (hdrained : ∀ task ∈ s.activeTasks,
      task.isComplete = true ∧ s.isCompleteAt task.pRequest = true) :
    (s.Shutdown env runs connectedClients).numScheduledTasks = 0
    ∧ (s.Shutdown env runs connectedClients).activeTasks = []
    ∧ (s.Shutdown env runs connectedClients).isExiting = true
    ∧ (s.Shutdown env runs connectedClients).pPackagingTask = none
    ∧ (s.Shutdown env runs connectedClients).requestEntries
        = List.replicate s.requestEntries.length none
    ∧ (∀ p ∈ s.requests, (s.Shutdown env runs connectedClients).isDangling p = true)
    ∧ (s.shutdownWait env runs).reapAsserts connectedClients = true := by
  have hinv := Invariant_of_reachable env s hreach
  have hinvCS := Invariant_shutdownCompleteScheduled env runs connectedClients s hinv
  have hwait := shutdownWait_of_complete env runs s (fun task ht => (hdrained task ht).1)
  have hwtasks : (s.shutdownWait env runs).activeTasks = s.activeTasks := by
    have := congrArg ResourceServer.activeTasks hwait
    exact this
  have hwheap : (s.shutdownWait env runs).heap = s.heap := by
    have := congrArg ResourceServer.heap hwait
    exact this
  have hwreq : (s.shutdownWait env runs).requests = s.requests := by
    have := congrArg ResourceServer.requests hwait
    exact this
  have hwnull : (s.shutdownWait env runs).nullRequests = s.nullRequests := by
    have := congrArg ResourceServer.nullRequests hwait
    exact this
  have hwex : (s.shutdownWait env runs).isExiting = true := by
    obtain ⟨-, -, hex⟩ := WaitForAll_complete env runs 1 { s with isExiting := true }
      hinv.held_allocated
    exact hex
  have hcs : s.shutdownCompleteScheduled env runs connectedClients
      = (s.shutdownWait env runs).ProcessCompletedRequests connectedClients := rfl
  obtain ⟨hperm, -⟩ := ProcessCompletedRequests_tasks connectedClients (s.shutdownWait env runs)
  have hframe := ProcessCompletedRequests_frame connectedClients (s.shutdownWait env runs)
  have htasks : (s.shutdownCompleteScheduled env runs connectedClients).activeTasks = [] := by
    have hnil : (s.shutdownWait env runs).activeTasks.filter
        (fun task : CompilationTask => !task.isComplete) = [] := by
      rw [List.filter_eq_nil_iff, hwtasks]
      intro task ht
      simp [(hdrained task ht).1]
    rw [hnil] at hperm
    rw [hcs]
    exact hperm.eq_nil
  have hheap : (s.shutdownCompleteScheduled env runs connectedClients).heap = s.heap := by
    have := congrArg ResourceServer.heap hframe
    exact (this.trans hwheap)
  have hreq : (s.shutdownCompleteScheduled env runs connectedClients).requests = s.requests := by
    have := congrArg ResourceServer.requests hframe
    exact (this.trans hwreq)
  have hnull : (s.shutdownCompleteScheduled env runs connectedClients).nullRequests
      = s.nullRequests := by
    have := congrArg ResourceServer.nullRequests hframe
    exact (this.trans hwnull)
  have hex : (s.shutdownCompleteScheduled env runs connectedClients).isExiting = true := by
    have := congrArg ResourceServer.isExiting hframe
    exact (this.trans hwex)
  have hnum : (s.shutdownCompleteScheduled env runs connectedClients).numScheduledTasks = 0 := by
    rw [hinvCS.counter, htasks]
    rfl
  refine ⟨hnum, htasks, hex, rfl, ?_, ?_, ?_⟩
  · simp only [ResourceServer.Shutdown, ResourceServer.shutdownRelease,
      ResourceServer.requestEntries, hreq, hnull, List.map_nil, List.append_nil,
      List.length_append, List.length_replicate, List.length_map]
  · intro p hp
    have hfreed := (foldl_deleteRequest_freed s.requests s.heap).2.1 p hp
      (hinv.requests_allocated p hp)
    simp only [ResourceServer.Shutdown, ResourceServer.shutdownRelease,
      ResourceServer.isDangling, hreq, hheap]
    cases hcell : (s.requests.foldl deleteRequest s.heap)[p]? with
    | none => rw [hcell] at hfreed; cases hfreed
    | some cell =>
      rw [hcell] at hfreed
      simpa using hfreed
  · apply reapLoopAsserts_of_finished_complete
    intro task ht _
    rw [hwtasks] at ht
    have := (hdrained task ht).2
    simpa [ResourceServer.isCompleteAt, hwheap] using this

/-- Witness of C19: a request is created and a worker runs its task; `Shutdown` then
reaps the task, deletes the request and leaves one nullptr in `m_requests`. -/
theorem C19_shutdown_quiescence_witness :
    Reachable exampleEnv (ResourceServer.init.run exampleEnv exampleWorkersDoneRun)
    ∧ (∀ task ∈ (ResourceServer.init.run exampleEnv exampleWorkersDoneRun).activeTasks,
        task.isComplete = true
        ∧ (ResourceServer.init.run exampleEnv exampleWorkersDoneRun).isCompleteAt
            task.pRequest = true)
    ∧ ((ResourceServer.init.run exampleEnv exampleWorkersDoneRun).Shutdown exampleEnv
        (fun _ => exampleRun 1) [7]).numScheduledTasks = 0
    ∧ ((ResourceServer.init.run exampleEnv exampleWorkersDoneRun).Shutdown exampleEnv
        (fun _ => exampleRun 1) [7]).activeTasks = []
    ∧ ((ResourceServer.init.run exampleEnv exampleWorkersDoneRun).Shutdown exampleEnv
        (fun _ => exampleRun 1) [7]).requestEntries = [none]
    ∧ ((ResourceServer.init.run exampleEnv exampleWorkersDoneRun).shutdownWait exampleEnv
        (fun _ => exampleRun 1)).reapAsserts [7] = true :=
  ⟨⟨_, rfl⟩, by decide,
   (C19_shutdown_quiescence exampleEnv (fun _ => exampleRun 1) [7]
      (ResourceServer.init.run exampleEnv exampleWorkersDoneRun) ⟨_, rfl⟩ (by decide)).1,
   (C19_shutdown_quiescence exampleEnv (fun _ => exampleRun 1) [7]
      (ResourceServer.init.run exampleEnv exampleWorkersDoneRun) ⟨_, rfl⟩ (by decide)).2.1,
   (C19_shutdown_quiescence exampleEnv (fun _ => exampleRun 1) [7]
      (ResourceServer.init.run exampleEnv exampleWorkersDoneRun) ⟨_, rfl⟩
      (by decide)).2.2.2.2.1.trans (by decide),
   (C19_shutdown_quiescence exampleEnv (fun _ => exampleRun 1) [7]
      (ResourceServer.init.run exampleEnv exampleWorkersDoneRun) ⟨_, rfl⟩
      (by decide)).2.2.2.2.2.2⟩

end EE.Resource
